import Mathlib

/-!
Verification of the Venom middle-end (vyper) against its specification.

This file gives a shallow embedding, in Lean 4, of the parts of the
repository relevant to the frozen claims:

* `PassOrd` — the pass-ordering validator
  (`vyper/venom/optimization_levels/pass_order.py`);
* `CallConv` — the internal calling convention
  (`vyper/codegen_venom/calling_convention.py`);
* `Venom` — the IR data model (instructions, basic blocks, functions)
  shared by the pass embeddings;
* `Concretize` — the memory-concretization allocator (modelled from the
  spec, §4.3; the pass source is not part of the excerpt);
* `ReadonlyArgs` — the interprocedural readonly-memory-args analysis
  (`vyper/venom/passes/readonly_memory_args_analysis.py`);
* `CopyFwd` — the two copy-forwarding passes and their shared machinery
  (`vyper/venom/passes/readonly_invoke_arg_copy_forwarding.py`,
   `internal_return_copy_forwarding.py`, `invoke_copy_forwarding_common.py`);
* `TailMerge` — the tail-merge pass (`vyper/venom/passes/tail_merge.py`).

Python dictionaries keyed by object identity are represented by lists
indexed by position; Python in-place mutation is represented by explicit
state passing.  Recursions that the Python source bounds dynamically
(worklists, memoized lookups with an in-progress guard, the interprocedural
fixed point) are given explicit fuel, together with theorems showing the
fuel bound suffices.
-/

namespace PassOrd

/-- A pass class as seen by the ordering validator: its `__name__` plus the
four declared ordering relations (`_normalize_refs` reduces each `PassRef`
to a name string, so relations are stored here already normalized). -/
structure PassSpec where
  name : String
  required_predecessors : List String
  required_successors : List String
  required_immediate_predecessors : List String
  required_immediate_successors : List String
deriving DecidableEq, Repr

/-- The payload of the `CompilerPanic` built by `raise_pass_order_error`. -/
structure PassOrderError where
  idx : Nat
  passName : String
  expected : List String
  relation : String
  pipelineName : String
  actual : Option String
deriving DecidableEq, Repr

/-- Render `expected` as in `", ".join(expected)`. -/
def expectedDisplay : List String → String
  | [] => ""
  | [c] => c
  | c :: rest => c ++ ", " ++ expectedDisplay rest

/-- The `CompilerPanic` message built by `raise_pass_order_error`. -/
def errorMessage (e : PassOrderError) : String :=
  let base :=
    "Invalid Venom pass ordering in '" ++ e.pipelineName ++ "': " ++ e.passName
      ++ " (index " ++ toString e.idx ++ ") " ++ e.relation ++ " one of ["
      ++ expectedDisplay e.expected ++ "]."
  match e.actual with
  | none => base
  | some a => base ++ " Got " ++ a ++ " instead."

/-- `first_idx` from `index_pass_positions`: index of the first occurrence
of a name, or `none` when the name does not occur. -/
def firstIdx (names : List String) (c : String) : Option Nat :=
  names.findIdx? (· = c)

/-- `last_idx` from `index_pass_positions`: index of the last occurrence
of a name, or `none` when the name does not occur. -/
def lastIdx (names : List String) (c : String) : Option Nat :=
  match names.reverse.findIdx? (· = c) with
  | none => none
  | some k => some (names.length - 1 - k)

/-- `validate_non_immediate` for `direction="before"`: some candidate's
first occurrence is strictly earlier than `idx`. -/
def nonImmBeforeSatisfied (names : List String) (idx : Nat) (cands : List String) : Bool :=
  cands.any fun c =>
    match firstIdx names c with
    | some j => j < idx
    | none => false

/-- `validate_non_immediate` for `direction="after"`: some candidate's
last occurrence is strictly later than `idx`. -/
def nonImmAfterSatisfied (names : List String) (idx : Nat) (cands : List String) : Bool :=
  cands.any fun c =>
    match lastIdx names c with
    | some j => idx < j
    | none => false

/-- `validate_non_immediate`: empty relations are skipped; unsatisfied
relations produce the structured error. -/
def validate_non_immediate (names : List String) (idx : Nat) (p : PassSpec)
    (refs : List String) (pipelineName : String) (before : Bool) :
    Except PassOrderError Unit :=
  if refs = [] then .ok ()
  else
    let ok := if before then nonImmBeforeSatisfied names idx refs
              else nonImmAfterSatisfied names idx refs
    let relation := if before then "must run after" else "must run before"
    if ok then .ok ()
    else .error ⟨idx, p.name, refs, relation, pipelineName, none⟩

/-- The neighbor name inspected by `validate_immediate`; the pipeline
boundaries yield the sentinel strings. -/
def immActual (names : List String) (idx : Nat) (before : Bool) : String :=
  if before then
    if 0 < idx then names.getD (idx - 1) "<start>" else "<start>"
  else
    if idx + 1 < names.length then names.getD (idx + 1) "<end>" else "<end>"

/-- `validate_immediate`: the actual neighbor (or boundary sentinel) must be
among the candidates. -/
def validate_immediate (names : List String) (idx : Nat) (p : PassSpec)
    (refs : List String) (pipelineName : String) (before : Bool) :
    Except PassOrderError Unit :=
  if refs = [] then .ok ()
  else
    let relation := if before then "must run immediately after"
                    else "must run immediately before"
    let actual := immActual names idx before
    if actual ∈ refs then .ok ()
    else .error ⟨idx, p.name, refs, relation, pipelineName, some actual⟩

/-- The four checks run by the body of `validate_pass_order`'s loop, in
source order. -/
def validateOne (names : List String) (pipelineName : String) (idx : Nat)
    (p : PassSpec) : Except PassOrderError Unit := do
  validate_non_immediate names idx p p.required_predecessors pipelineName true
  validate_non_immediate names idx p p.required_successors pipelineName false
  validate_immediate names idx p p.required_immediate_predecessors pipelineName true
  validate_immediate names idx p p.required_immediate_successors pipelineName false

/-- The enumerated loop of `validate_pass_order`. -/
def validateFrom (names : List String) (pipelineName : String) :
    Nat → List PassSpec → Except PassOrderError Unit
  | _, [] => .ok ()
  | idx, p :: rest => do
    validateOne names pipelineName idx p
    validateFrom names pipelineName (idx + 1) rest

/-- `validate_pass_order`: check every pass's four ordering relations
against the concrete sequence. -/
def validate_pass_order (passes : List PassSpec) (pipelineName : String) :
    Except PassOrderError Unit :=
  validateFrom (passes.map (·.name)) pipelineName 0 passes

end PassOrd

namespace CallConv

/-- Maximum number of word-type arguments passed via the stack
(`MAX_STACK_ARGS`). -/
def MAX_STACK_ARGS : Nat := 6

/-- Maximum number of word-type return values passed via the stack for
tuples (`MAX_STACK_RETURNS`). -/
def MAX_STACK_RETURNS : Nat := 2

/-- A `VyperType` as consumed by the calling convention: its
`memory_bytes_required`, its `_is_prim_word` flag, and — when the type is
tuple-like (`is_tuple_like`) — its named `tuple_items`. -/
inductive VTy where
  | scalar (memBytes : Nat) (primWord : Bool)
  | tupleLike (items : List (String × VTy)) (memBytes : Nat) (primWord : Bool)

/-- `memory_bytes_required`. -/
def VTy.memoryBytesRequired : VTy → Nat
  | .scalar b _ => b
  | .tupleLike _ b _ => b

/-- `_is_prim_word`. -/
def VTy.isPrimWord : VTy → Bool
  | .scalar _ w => w
  | .tupleLike _ _ w => w

/-- `is_tuple_like`. -/
def VTy.isTupleLike : VTy → Bool
  | .scalar _ _ => false
  | .tupleLike _ _ _ => true

/-- `tuple_items` (empty for non-tuple types, which never query it). -/
def VTy.tupleItems : VTy → List (String × VTy)
  | .scalar _ _ => []
  | .tupleLike items _ _ => items

/-- `is_word_type`: 32 memory bytes AND a primitive word. -/
def is_word_type (t : VTy) : Bool :=
  t.memoryBytesRequired == 32 && t.isPrimWord

/-- A function type as consumed by the calling convention: return type and
named arguments. -/
structure FuncT where
  return_type : Option VTy
  arguments : List (String × VTy)

/-- `returns_stack_count`: how many values are returned via the stack. -/
def returns_stack_count (f : FuncT) : Nat :=
  match f.return_type with
  | none => 0
  | some ret_t =>
    if ret_t.isTupleLike then
      let members := ret_t.tupleItems
      if 1 ≤ members.length && members.length ≤ MAX_STACK_RETURNS
          && members.all (fun kt => is_word_type kt.2) then
        members.length
      else 0
    else
      if is_word_type ret_t then 1 else 0

/-- The argument loop of `pass_via_stack`, threading the `stack_items`
counter. -/
def passViaStackGo : List (String × VTy) → Nat → List (String × Bool)
  | [], _ => []
  | (n, t) :: rest, stack_items =>
    if !is_word_type t || stack_items > MAX_STACK_ARGS then
      (n, false) :: passViaStackGo rest stack_items
    else
      (n, true) :: passViaStackGo rest (stack_items + 1)

/-- The initial `stack_items` value: a word-typed return value consumes one
stack slot. -/
def retSlot (f : FuncT) : Nat :=
  match f.return_type with
  | some rt => if is_word_type rt then 1 else 0
  | none => 0

/-- `pass_via_stack`: which arguments pass via the stack (the Python dict
keyed by argument name is represented as the association list in argument
order). -/
def pass_via_stack (f : FuncT) : List (String × Bool) :=
  passViaStackGo f.arguments (retSlot f)

end CallConv

namespace PassOrd

/-- `True` exactly when `validate_pass_order` raises no `CompilerPanic`. -/
def accepts (passes : List PassSpec) (pipelineName : String) : Bool :=
  match validate_pass_order passes pipelineName with
  | .ok _ => true
  | .error _ => false

/-- The acceptance condition as worded by the claim: every pass's nonempty
relations are satisfied by strictly-earlier / strictly-later / directly
adjacent positions, boundaries never satisfying an immediate relation. -/
def ClaimAccepts (ps : List PassSpec) : Prop :=
  ∀ i, ∀ hi : i < ps.length,
    ((ps.get ⟨i, hi⟩).required_predecessors ≠ [] →
      ∃ j, ∃ hj : j < (ps.map (·.name)).length, j < i ∧
        (ps.map (·.name)).get ⟨j, hj⟩ ∈ (ps.get ⟨i, hi⟩).required_predecessors) ∧
    ((ps.get ⟨i, hi⟩).required_successors ≠ [] →
      ∃ j, ∃ hj : j < (ps.map (·.name)).length, i < j ∧
        (ps.map (·.name)).get ⟨j, hj⟩ ∈ (ps.get ⟨i, hi⟩).required_successors) ∧
    ((ps.get ⟨i, hi⟩).required_immediate_predecessors ≠ [] →
      0 < i ∧ ∃ hj : i - 1 < (ps.map (·.name)).length,
        (ps.map (·.name)).get ⟨i - 1, hj⟩ ∈ (ps.get ⟨i, hi⟩).required_immediate_predecessors) ∧
    ((ps.get ⟨i, hi⟩).required_immediate_successors ≠ [] →
      ∃ hj : i + 1 < (ps.map (·.name)).length,
        (ps.map (·.name)).get ⟨i + 1, hj⟩ ∈ (ps.get ⟨i, hi⟩).required_immediate_successors)

theorem nonImmBefore_iff (names : List String) (idx : Nat) (cands : List String) :
    nonImmBeforeSatisfied names idx cands = true ↔
      ∃ j, ∃ hj : j < names.length, j < idx ∧ names.get ⟨j, hj⟩ ∈ cands := by
  unfold nonImmBeforeSatisfied firstIdx
  rw [List.any_eq_true]
  constructor
  · rintro ⟨c, hc, hmatch⟩
    cases hfi : names.findIdx? (· = c) with
    | none => rw [hfi] at hmatch; simp at hmatch
    | some j =>
      rw [hfi] at hmatch
      simp only [decide_eq_true_eq] at hmatch
      rw [List.findIdx?_eq_some_iff_getElem] at hfi
      obtain ⟨hj, hpj, -⟩ := hfi
      simp only [decide_eq_true_eq] at hpj
      exact ⟨j, hj, hmatch, by rw [List.get_eq_getElem, hpj]; exact hc⟩
  · rintro ⟨j, hj, hlt, hmem⟩
    refine ⟨names.get ⟨j, hj⟩, hmem, ?_⟩
    have hex : ∃ x, x ∈ names ∧ (x = names.get ⟨j, hj⟩ : Bool) :=
      ⟨names.get ⟨j, hj⟩, List.get_mem names j hj, by simp⟩
    have hfi := List.findIdx?_eq_some_of_exists hex
    rw [hfi]
    have := List.findIdx?_eq_some_iff_getElem.mp hfi
    obtain ⟨hlen, -, hmin⟩ := this
    simp only [decide_eq_true_eq]
    by_contra h
    push_neg at h
    have hij : names.findIdx (· = names.get ⟨j, hj⟩) ≤ j := by
      by_contra hgt
      push_neg at hgt
      have := hmin j hgt
      simp [List.get_eq_getElem] at this
    omega

theorem nonImmAfter_iff (names : List String) (idx : Nat) (cands : List String) :
    nonImmAfterSatisfied names idx cands = true ↔
      ∃ j, ∃ hj : j < names.length, idx < j ∧ names.get ⟨j, hj⟩ ∈ cands := by
  unfold nonImmAfterSatisfied lastIdx
  rw [List.any_eq_true]
  constructor
  · rintro ⟨c, hc, hmatch⟩
    cases hfi : names.reverse.findIdx? (· = c) with
    | none => rw [hfi] at hmatch; simp at hmatch
    | some k =>
      rw [hfi] at hmatch
      simp only [decide_eq_true_eq] at hmatch
      rw [List.findIdx?_eq_some_iff_getElem] at hfi
      obtain ⟨hk, hpk, -⟩ := hfi
      have hklen : k < names.length := by simpa using hk
      have hjlen : names.length - 1 - k < names.length := by omega
      refine ⟨names.length - 1 - k, hjlen, hmatch, ?_⟩
      rw [List.getElem_reverse] at hpk
      simp only [decide_eq_true_eq] at hpk
      rw [List.get_eq_getElem]
      rw [hpk]
      exact hc
  · rintro ⟨j, hj, hlt, hmem⟩
    refine ⟨names.get ⟨j, hj⟩, hmem, ?_⟩
    set c := names.get ⟨j, hj⟩ with hc
    have hrlen : names.length - 1 - j < names.reverse.length := by
      simp only [List.length_reverse]; omega
    have hrc : names.reverse.get ⟨names.length - 1 - j, hrlen⟩ = c := by
      rw [List.get_eq_getElem, List.getElem_reverse]
      have : names.length - 1 - (names.length - 1 - j) = j := by omega
      simp only [this]
      rfl
    have hex : ∃ x, x ∈ names.reverse ∧ (x = c : Bool) :=
      ⟨c, by rw [← hrc]; exact List.get_mem _ _ _, by simp⟩
    have hfi := List.findIdx?_eq_some_of_exists hex
    rw [hfi]
    have := List.findIdx?_eq_some_iff_getElem.mp hfi
    obtain ⟨hlen, -, hmin⟩ := this
    simp only [decide_eq_true_eq]
    have hkj : names.reverse.findIdx (· = c) ≤ names.length - 1 - j := by
      by_contra hgt
      push_neg at hgt
      have := hmin (names.length - 1 - j) hgt
      rw [List.get_eq_getElem] at hrc
      simp [hrc] at this
    have hlenr : names.reverse.findIdx (· = c) < names.length := by simpa using hlen
    omega

end PassOrd

namespace PassOrd

theorem validate_non_immediate_ok_iff (names : List String) (idx : Nat) (p : PassSpec)
    (refs : List String) (pn : String) (b : Bool) :
    validate_non_immediate names idx p refs pn b = .ok () ↔
      (refs = [] ∨
        (if b then nonImmBeforeSatisfied names idx refs
         else nonImmAfterSatisfied names idx refs) = true) := by
  unfold validate_non_immediate
  split
  · simp [*]
  · rename_i hne
    dsimp only
    split
    · simp [*]
    · rename_i hnot
      simp only [Bool.not_eq_true] at hnot
      simp [hne, hnot]

theorem validate_immediate_ok_iff (names : List String) (idx : Nat) (p : PassSpec)
    (refs : List String) (pn : String) (b : Bool) :
    validate_immediate names idx p refs pn b = .ok () ↔
      (refs = [] ∨ immActual names idx b ∈ refs) := by
  unfold validate_immediate
  split
  · simp [*]
  · rename_i hne
    dsimp only
    split
    · simp [*]
    · rename_i hnot
      simp only [hne, false_or]
      constructor
      · intro h; cases h
      · intro h; exact absurd h hnot

theorem validateOne_ok_iff (names : List String) (pn : String) (idx : Nat) (p : PassSpec) :
    validateOne names pn idx p = .ok () ↔
      (validate_non_immediate names idx p p.required_predecessors pn true = .ok () ∧
       validate_non_immediate names idx p p.required_successors pn false = .ok () ∧
       validate_immediate names idx p p.required_immediate_predecessors pn true = .ok () ∧
       validate_immediate names idx p p.required_immediate_successors pn false = .ok ()) := by
  unfold validateOne
  cases h1 : validate_non_immediate names idx p p.required_predecessors pn true with
  | error e => simp [Bind.bind, Except.bind, h1]
  | ok u =>
    cases u
    cases h2 : validate_non_immediate names idx p p.required_successors pn false with
    | error e => simp [Bind.bind, Except.bind, h1, h2]
    | ok u =>
      cases u
      cases h3 : validate_immediate names idx p p.required_immediate_predecessors pn true with
      | error e => simp [Bind.bind, Except.bind, h1, h2, h3]
      | ok u =>
        cases u
        simp [Bind.bind, Except.bind, h1, h2, h3]

theorem validateFrom_ok_iff (names : List String) (pn : String) :
    ∀ (rest : List PassSpec) (start : Nat),
    (validateFrom names pn start rest = .ok ()) ↔
      ∀ k, ∀ hk : k < rest.length,
        validateOne names pn (start + k) (rest.get ⟨k, hk⟩) = .ok ()
  | [], start => by simp [validateFrom]
  | p :: rest, start => by
    unfold validateFrom
    cases h1 : validateOne names pn start p with
    | error e =>
      simp only [Bind.bind, Except.bind]
      constructor
      · intro h; cases h
      · intro h
        have := h 0 (by simp)
        simp only [Nat.add_zero, List.get] at this
        rw [h1] at this
        cases this
    | ok u =>
      cases u
      simp only [Bind.bind, Except.bind]
      rw [validateFrom_ok_iff names pn rest (start + 1)]
      constructor
      · intro h k hk
        cases k with
        | zero => simpa using h1
        | succ k =>
          have hk' : k < rest.length := by simpa using hk
          have := h k hk'
          simpa [Nat.add_assoc, Nat.add_comm 1 k] using this
      · intro h k hk
        have := h (k + 1) (by simpa using Nat.succ_lt_succ hk)
        simpa [Nat.add_assoc, Nat.add_comm 1 k] using this

end PassOrd

namespace PassOrd

theorem validate_non_immediate_error (names : List String) (idx : Nat) (p : PassSpec)
    (refs : List String) (pn : String) (b : Bool) (e : PassOrderError)
    (h : validate_non_immediate names idx p refs pn b = .error e) :
    e.idx = idx ∧ e.passName = p.name ∧ e.expected = refs ∧ e.pipelineName = pn := by
  unfold validate_non_immediate at h
  by_cases hrefs : refs = []
  · rw [if_pos hrefs] at h; cases h
  · rw [if_neg hrefs] at h
    dsimp only at h
    by_cases hok : (if b then nonImmBeforeSatisfied names idx refs
        else nonImmAfterSatisfied names idx refs) = true
    · rw [if_pos hok] at h; cases h
    · rw [if_neg hok] at h; cases h; exact ⟨rfl, rfl, rfl, rfl⟩

theorem validate_immediate_error (names : List String) (idx : Nat) (p : PassSpec)
    (refs : List String) (pn : String) (b : Bool) (e : PassOrderError)
    (h : validate_immediate names idx p refs pn b = .error e) :
    e.idx = idx ∧ e.passName = p.name ∧ e.expected = refs ∧ e.pipelineName = pn := by
  unfold validate_immediate at h
  by_cases hrefs : refs = []
  · rw [if_pos hrefs] at h; cases h
  · rw [if_neg hrefs] at h
    dsimp only at h
    by_cases hmem : immActual names idx b ∈ refs
    · rw [if_pos hmem] at h; cases h
    · rw [if_neg hmem] at h; cases h; exact ⟨rfl, rfl, rfl, rfl⟩

theorem validateOne_error (names : List String) (pn : String) (idx : Nat) (p : PassSpec)
    (e : PassOrderError) (h : validateOne names pn idx p = .error e) :
    e.idx = idx ∧ e.passName = p.name ∧ e.pipelineName = pn ∧
      e.expected ∈ [p.required_predecessors, p.required_successors,
        p.required_immediate_predecessors, p.required_immediate_successors] := by
  unfold validateOne at h
  simp only [Bind.bind, Except.bind] at h
  cases h1 : validate_non_immediate names idx p p.required_predecessors pn true with
  | error e1 =>
    rw [h1] at h; cases h
    have := validate_non_immediate_error _ _ _ _ _ _ _ h1
    exact ⟨this.1, this.2.1, this.2.2.2, by simp [this.2.2.1]⟩
  | ok u =>
    cases u; rw [h1] at h
    cases h2 : validate_non_immediate names idx p p.required_successors pn false with
    | error e2 =>
      rw [h2] at h; cases h
      have := validate_non_immediate_error _ _ _ _ _ _ _ h2
      exact ⟨this.1, this.2.1, this.2.2.2, by simp [this.2.2.1]⟩
    | ok u =>
      cases u; rw [h2] at h
      cases h3 : validate_immediate names idx p p.required_immediate_predecessors pn true with
      | error e3 =>
        rw [h3] at h; cases h
        have := validate_immediate_error _ _ _ _ _ _ _ h3
        exact ⟨this.1, this.2.1, this.2.2.2, by simp [this.2.2.1]⟩
      | ok u =>
        cases u; rw [h3] at h
        have := validate_immediate_error _ _ _ _ _ _ _ h
        exact ⟨this.1, this.2.1, this.2.2.2, by simp [this.2.2.1]⟩

theorem validateFrom_error (names : List String) (pn : String) :
    ∀ (rest : List PassSpec) (start : Nat) (e : PassOrderError),
    validateFrom names pn start rest = .error e →
      ∃ k, ∃ hk : k < rest.length,
        validateOne names pn (start + k) (rest.get ⟨k, hk⟩) = .error e
  | [], _, _, h => by cases h
  | p :: rest, start, e, h => by
    unfold validateFrom at h
    simp only [Bind.bind, Except.bind] at h
    cases h1 : validateOne names pn start p with
    | error e1 =>
      rw [h1] at h; cases h
      exact ⟨0, by simp, by simpa using h1⟩
    | ok u =>
      cases u; rw [h1] at h
      obtain ⟨k, hk, hrec⟩ := validateFrom_error names pn rest (start + 1) e h
      refine ⟨k + 1, by simpa using Nat.succ_lt_succ hk, ?_⟩
      simpa [Nat.add_assoc, Nat.add_comm 1 k] using hrec

/-- The error message textually contains the offending pass's name. -/
theorem errorMessage_names_pass (e : PassOrderError) :
    ∃ pre post, errorMessage e = pre ++ e.passName ++ post := by
  unfold errorMessage
  cases e.actual with
  | none =>
    refine ⟨"Invalid Venom pass ordering in '" ++ e.pipelineName ++ "': ",
      " (index " ++ toString e.idx ++ ") " ++ e.relation ++ " one of ["
        ++ expectedDisplay e.expected ++ "].", ?_⟩
    simp only [String.append_assoc]
  | some a =>
    refine ⟨"Invalid Venom pass ordering in '" ++ e.pipelineName ++ "': ",
      " (index " ++ toString e.idx ++ ") " ++ e.relation ++ " one of ["
        ++ expectedDisplay e.expected ++ "]." ++ (" Got " ++ a ++ " instead."), ?_⟩
    simp only [String.append_assoc]

end PassOrd

namespace PassOrd

theorem immActual_before_mem_iff (names : List String) (idx : Nat) (refs : List String)
    (hidx : idx < names.length) (hs : "<start>" ∉ refs) :
    (immActual names idx true ∈ refs) ↔
      (0 < idx ∧ ∃ hj : idx - 1 < names.length, names.get ⟨idx - 1, hj⟩ ∈ refs) := by
  unfold immActual
  simp only [if_pos trivial]
  by_cases h0 : 0 < idx
  · rw [if_pos h0]
    have hj : idx - 1 < names.length := by omega
    rw [List.getD_eq_getElem?_getD, List.getElem?_eq_getElem hj]
    simp only [Option.getD_some]
    constructor
    · intro hm; exact ⟨h0, hj, by simpa [List.get_eq_getElem] using hm⟩
    · rintro ⟨-, hj2, hm⟩; simpa [List.get_eq_getElem] using hm
  · rw [if_neg h0]
    constructor
    · intro hm; exact absurd hm hs
    · rintro ⟨h0', -⟩; exact absurd h0' h0

theorem immActual_after_mem_iff (names : List String) (idx : Nat) (refs : List String)
    (he : "<end>" ∉ refs) :
    (immActual names idx false ∈ refs) ↔
      (∃ hj : idx + 1 < names.length, names.get ⟨idx + 1, hj⟩ ∈ refs) := by
  unfold immActual
  simp only [Bool.false_eq_true, if_neg (by simp : ¬(False))]
  by_cases h1 : idx + 1 < names.length
  · rw [if_pos h1]
    rw [List.getD_eq_getElem?_getD, List.getElem?_eq_getElem h1]
    simp only [Option.getD_some]
    constructor
    · intro hm; exact ⟨h1, by simpa [List.get_eq_getElem] using hm⟩
    · rintro ⟨hj2, hm⟩; simpa [List.get_eq_getElem] using hm
  · rw [if_neg h1]
    constructor
    · intro hm; exact absurd hm he
    · rintro ⟨hj, -⟩; exact absurd hj h1

theorem validateOne_ok_iff_claim (names : List String) (pn : String) (idx : Nat) (p : PassSpec)
    (hidx : idx < names.length)
    (hs : "<start>" ∉ p.required_immediate_predecessors)
    (he : "<end>" ∉ p.required_immediate_successors) :
    validateOne names pn idx p = .ok () ↔
      ((p.required_predecessors ≠ [] → ∃ j, ∃ hj : j < names.length, j < idx ∧
          names.get ⟨j, hj⟩ ∈ p.required_predecessors) ∧
       (p.required_successors ≠ [] → ∃ j, ∃ hj : j < names.length, idx < j ∧
          names.get ⟨j, hj⟩ ∈ p.required_successors) ∧
       (p.required_immediate_predecessors ≠ [] → 0 < idx ∧
          ∃ hj : idx - 1 < names.length,
            names.get ⟨idx - 1, hj⟩ ∈ p.required_immediate_predecessors) ∧
       (p.required_immediate_successors ≠ [] →
          ∃ hj : idx + 1 < names.length,
            names.get ⟨idx + 1, hj⟩ ∈ p.required_immediate_successors)) := by
  rw [validateOne_ok_iff,
    validate_non_immediate_ok_iff, validate_non_immediate_ok_iff,
    validate_immediate_ok_iff, validate_immediate_ok_iff]
  refine and_congr ?_ (and_congr ?_ (and_congr ?_ ?_))
  · rw [or_iff_not_imp_left]
    refine imp_congr Iff.rfl ?_
    simp only [if_pos trivial]
    exact nonImmBefore_iff names idx _
  · rw [or_iff_not_imp_left]
    refine imp_congr Iff.rfl ?_
    simp only [Bool.false_eq_true, if_neg (by simp : ¬(False))]
    exact nonImmAfter_iff names idx _
  · rw [or_iff_not_imp_left]
    exact imp_congr Iff.rfl (immActual_before_mem_iff names idx _ hidx hs)
  · rw [or_iff_not_imp_left]
    exact imp_congr Iff.rfl (immActual_after_mem_iff names idx _ he)

end PassOrd

namespace PassOrd

/-- A pipeline whose only pass declares the boundary sentinel string as an
immediate-predecessor candidate. -/
def sentinelPipeline : List PassSpec := [⟨"P", [], [], ["<start>"], []⟩]

/-- A two-pass pipeline from the unit tests: `Consumer` requires `Producer`
strictly earlier. -/
def producerConsumer : List PassSpec :=
  [⟨"Producer", [], [], [], []⟩, ⟨"Consumer", ["Producer"], [], [], []⟩]

end PassOrd

namespace PassOrd

/-- C2 (counterexample): on a one-pass pipeline whose pass names the
boundary sentinel string `"<start>"` among its immediate-predecessor
candidates, `validate_pass_order` accepts, yet the claim's acceptance
condition (the position directly before must exist and hold a candidate;
boundaries never satisfy an immediate constraint) rejects — so the
biconditional stated by the claim fails. -/
theorem validate_pass_order_claim_counterexample :
    ¬ (accepts sentinelPipeline "test" = true ↔ ClaimAccepts sentinelPipeline) := by
  intro h
  have hacc : accepts sentinelPipeline "test" = true := by decide
  have hcl := h.mp hacc
  have h3 := (hcl 0 (by decide)).2.2.1 (by decide)
  exact absurd h3.1 (by decide)

/-- C2 (amended): provided no immediate-relation candidate equals the
boundary sentinel strings `"<start>"`/`"<end>"`, `validate_pass_order`
accepts a sequence iff every pass's nonempty `required_predecessors`
(resp. `required_successors`) relation has a candidate strictly earlier
(resp. later) and every nonempty immediate relation has a candidate at the
directly adjacent position, boundaries never satisfying it; and every
rejection carries the offending pass's name (also embedded in the panic
message) and the expected alternatives of one of its relations. -/
theorem validate_pass_order_amended (ps : List PassSpec) (pn : String)
    (hsent : ∀ p ∈ ps, "<start>" ∉ p.required_immediate_predecessors ∧
      "<end>" ∉ p.required_immediate_successors) :
    (accepts ps pn = true ↔ ClaimAccepts ps) ∧
    (∀ e, validate_pass_order ps pn = .error e →
      ∃ hp : e.idx < ps.length, e.passName = (ps.get ⟨e.idx, hp⟩).name ∧
        e.expected ∈ [(ps.get ⟨e.idx, hp⟩).required_predecessors,
          (ps.get ⟨e.idx, hp⟩).required_successors,
          (ps.get ⟨e.idx, hp⟩).required_immediate_predecessors,
          (ps.get ⟨e.idx, hp⟩).required_immediate_successors] ∧
        ∃ pre post, errorMessage e = pre ++ e.passName ++ post) := by
  have hlen : (ps.map (·.name)).length = ps.length := List.length_map _ _
  have hacc : accepts ps pn = true ↔ validate_pass_order ps pn = .ok () := by
    unfold accepts
    cases h : validate_pass_order ps pn with
    | ok u => cases u; simp
    | error e => simp
  constructor
  · rw [hacc]
    unfold validate_pass_order
    rw [validateFrom_ok_iff]
    unfold ClaimAccepts
    constructor
    · intro h i hi
      have h1 := h i hi
      rw [Nat.zero_add] at h1
      have hidx : i < (ps.map (·.name)).length := by rw [hlen]; exact hi
      have hsp := hsent (ps.get ⟨i, hi⟩) (List.get_mem ps i hi)
      exact (validateOne_ok_iff_claim _ pn i _ hidx hsp.1 hsp.2).mp h1
    · intro h k hk
      rw [Nat.zero_add]
      have hidx : k < (ps.map (·.name)).length := by rw [hlen]; exact hk
      have hsp := hsent (ps.get ⟨k, hk⟩) (List.get_mem ps k hk)
      exact (validateOne_ok_iff_claim _ pn k _ hidx hsp.1 hsp.2).mpr (h k hk)
  · intro e he
    unfold validate_pass_order at he
    obtain ⟨k, hk, hone⟩ := validateFrom_error _ pn ps 0 e he
    rw [Nat.zero_add] at hone
    obtain ⟨hidx, hname, -, hexp⟩ := validateOne_error _ pn k _ e hone
    rw [hidx]
    exact ⟨hk, hname, hexp, errorMessage_names_pass e⟩

/-- C2 (witness): the amended theorem applied to the concrete
producer/consumer pipeline of the unit tests. -/
theorem validate_pass_order_amended_witness :
    (accepts producerConsumer "test" = true ↔ ClaimAccepts producerConsumer) ∧
    (∀ e, validate_pass_order producerConsumer "test" = .error e →
      ∃ hp : e.idx < producerConsumer.length,
        e.passName = (producerConsumer.get ⟨e.idx, hp⟩).name ∧
        e.expected ∈ [(producerConsumer.get ⟨e.idx, hp⟩).required_predecessors,
          (producerConsumer.get ⟨e.idx, hp⟩).required_successors,
          (producerConsumer.get ⟨e.idx, hp⟩).required_immediate_predecessors,
          (producerConsumer.get ⟨e.idx, hp⟩).required_immediate_successors] ∧
        ∃ pre post, errorMessage e = pre ++ e.passName ++ post) :=
  validate_pass_order_amended producerConsumer "test" (by decide)

end PassOrd

namespace CallConv

theorem passViaStackGo_spec :
    ∀ (args : List (String × VTy)) (k : Nat) (i : Nat) (nt : String × VTy),
      args.get? i = some nt →
      ∃ b : Bool, (passViaStackGo args k).get? i = some (nt.1, b) ∧
        (b = true ↔ (is_word_type nt.2 = true ∧
          k + ((passViaStackGo args k).take i).countP (fun e => e.2) ≤ MAX_STACK_ARGS))
  | [], _, i, nt, h => by cases h
  | (n, t) :: rest, k, 0, nt, h => by
    rw [List.get?_cons_zero] at h
    cases h
    unfold passViaStackGo
    by_cases hcond : (!is_word_type t || decide (k > MAX_STACK_ARGS)) = true
    · rw [if_pos hcond]
      refine ⟨false, rfl, ?_⟩
      simp only [List.take_zero, List.countP_nil, Nat.add_zero]
      simp only [Bool.or_eq_true, Bool.not_eq_true', decide_eq_true_eq] at hcond
      constructor
      · intro hf; cases hf
      · rintro ⟨hw, hle⟩
        rcases hcond with hc | hc
        · rw [hw] at hc; cases hc
        · omega
    · rw [if_neg hcond]
      refine ⟨true, rfl, ?_⟩
      simp only [List.take_zero, List.countP_nil, Nat.add_zero]
      simp only [Bool.or_eq_true, Bool.not_eq_true', decide_eq_true_eq, not_or] at hcond
      constructor
      · intro _
        refine ⟨by simpa using hcond.1, by omega⟩
      · intro _; trivial
  | (n, t) :: rest, k, (i + 1), nt, h => by
    rw [List.get?_cons_succ] at h
    unfold passViaStackGo
    by_cases hcond : (!is_word_type t || decide (k > MAX_STACK_ARGS)) = true
    · rw [if_pos hcond]
      obtain ⟨b, hb, hiff⟩ := passViaStackGo_spec rest k i nt h
      refine ⟨b, by simpa using hb, ?_⟩
      rw [hiff]
      simp only [List.take_succ_cons, List.countP_cons, Bool.false_eq_true, if_false, if_true]
      constructor
      · rintro ⟨hw, hle⟩; exact ⟨hw, by omega⟩
      · rintro ⟨hw, hle⟩; exact ⟨hw, by omega⟩
    · rw [if_neg hcond]
      obtain ⟨b, hb, hiff⟩ := passViaStackGo_spec rest (k + 1) i nt h
      refine ⟨b, by simpa using hb, ?_⟩
      rw [hiff]
      simp only [List.take_succ_cons, List.countP_cons, Bool.false_eq_true, if_false, if_true]
      constructor
      · rintro ⟨hw, hle⟩; exact ⟨hw, by omega⟩
      · rintro ⟨hw, hle⟩; exact ⟨hw, by omega⟩

/-- C8: an argument passes via the stack iff it is a word-sized primitive
scalar and, counting a word-typed return value as one stack slot, the
stack-item count accumulated so far does not exceed `MAX_STACK_ARGS`;
every other argument (including same-size compound aggregates, which fail
`_is_prim_word`) passes via memory; return values follow the same
word-type rule, with budget `MAX_STACK_RETURNS` for tuples. -/
theorem calling_convention_stack_rule :
    (∀ (f : FuncT) (i : Nat) (nt : String × VTy), f.arguments.get? i = some nt →
      ∃ b : Bool, (pass_via_stack f).get? i = some (nt.1, b) ∧
        (b = true ↔ (is_word_type nt.2 = true ∧
          retSlot f + ((pass_via_stack f).take i).countP (fun e => e.2) ≤ MAX_STACK_ARGS))) ∧
    (∀ f : FuncT, f.return_type = none → returns_stack_count f = 0) ∧
    (∀ (f : FuncT) (rt : VTy), f.return_type = some rt → rt.isTupleLike = false →
      returns_stack_count f = if is_word_type rt then 1 else 0) ∧
    (∀ (f : FuncT) (rt : VTy), f.return_type = some rt → rt.isTupleLike = true →
      returns_stack_count f =
        if 1 ≤ rt.tupleItems.length ∧ rt.tupleItems.length ≤ MAX_STACK_RETURNS ∧
            (∀ kt ∈ rt.tupleItems, is_word_type kt.2 = true) then
          rt.tupleItems.length
        else 0) := by
  refine ⟨?_, ?_, ?_, ?_⟩
  · intro f i nt h
    exact passViaStackGo_spec f.arguments (retSlot f) i nt h
  · intro f h
    unfold returns_stack_count
    rw [h]
  · intro f rt h ht
    unfold returns_stack_count
    rw [h]
    simp [ht]
  · intro f rt h ht
    unfold returns_stack_count
    rw [h]
    dsimp only
    rw [if_pos ht]
    by_cases hc : 1 ≤ rt.tupleItems.length ∧ rt.tupleItems.length ≤ MAX_STACK_RETURNS ∧
        (∀ kt ∈ rt.tupleItems, is_word_type kt.2 = true)
    · rw [if_pos hc]
      have hb : (1 ≤ rt.tupleItems.length && rt.tupleItems.length ≤ MAX_STACK_RETURNS
          && rt.tupleItems.all fun kt => is_word_type kt.2) = true := by
        simp only [Bool.and_eq_true, decide_eq_true_eq, List.all_eq_true]
        exact ⟨⟨hc.1, hc.2.1⟩, hc.2.2⟩
      rw [if_pos hb]
    · rw [if_neg hc]
      have hb : ¬((1 ≤ rt.tupleItems.length && rt.tupleItems.length ≤ MAX_STACK_RETURNS
          && rt.tupleItems.all fun kt => is_word_type kt.2) = true) := by
        simp only [Bool.and_eq_true, decide_eq_true_eq, List.all_eq_true]
        rintro ⟨⟨h1, h2⟩, h3⟩
        exact hc ⟨h1, h2, h3⟩
      rw [if_neg hb]

/-- A 32-byte compound aggregate type (e.g. `uint256[1]`): 32 memory bytes
but not a primitive word. -/
def array32 : VTy := .tupleLike [("item", .scalar 32 true)] 32 false

/-- A word-sized primitive scalar (e.g. `uint256`). -/
def word256 : VTy := .scalar 32 true

/-- A concrete function type: word return, one word argument, one 32-byte
compound argument. -/
def sampleFuncT : FuncT :=
  ⟨some word256, [("a", word256), ("b", array32)]⟩

/-- C8 (witness): on `sampleFuncT`, the word argument passes via stack and
the same-size compound aggregate passes via memory. -/
theorem calling_convention_stack_rule_witness :
    (∃ b : Bool, (pass_via_stack sampleFuncT).get? 0 = some ("a", b) ∧
      (b = true ↔ (is_word_type word256 = true ∧
        retSlot sampleFuncT +
          ((pass_via_stack sampleFuncT).take 0).countP (fun e => e.2) ≤ MAX_STACK_ARGS))) ∧
    (∃ b : Bool, (pass_via_stack sampleFuncT).get? 1 = some ("b", b) ∧
      (b = true ↔ (is_word_type array32 = true ∧
        retSlot sampleFuncT +
          ((pass_via_stack sampleFuncT).take 1).countP (fun e => e.2) ≤ MAX_STACK_ARGS))) ∧
    pass_via_stack sampleFuncT = [("a", true), ("b", false)] ∧
    returns_stack_count sampleFuncT = 1 :=
  ⟨calling_convention_stack_rule.1 sampleFuncT 0 ("a", word256) rfl,
   calling_convention_stack_rule.1 sampleFuncT 1 ("b", array32) rfl,
   rfl, rfl⟩

end CallConv

namespace Concretize

/-- Modelled from the spec: §4.3 (the `ConcretizeMemLocPass` source is not
part of the excerpt, only its regression test).  An allocation site: a
symbolic memory region of fixed byte size together with its computed
liveness set — the set of instruction positions at which the site is
live. -/
structure AllocSite where
  id : Nat
  size : Nat
  live : Finset Nat
deriving DecidableEq

/-- Two byte ranges `[o1, o1+s1)` and `[o2, o2+s2)` are disjoint. -/
def rangesDisjoint (o1 s1 o2 s2 : Nat) : Prop :=
  o1 + s1 ≤ o2 ∨ o2 + s2 ≤ o1

instance (o1 s1 o2 s2 : Nat) : Decidable (rangesDisjoint o1 s1 o2 s2) := by
  unfold rangesDisjoint; infer_instance

/-- Modelled from the spec: a candidate offset is admissible for a new site
when, against every already-placed site, either the liveness intervals never
overlap (the sites may share an address) or the byte ranges are disjoint. -/
def conflictFree (allocated : List (AllocSite × Nat)) (s : AllocSite) (o : Nat) : Bool :=
  allocated.all fun x =>
    decide (s.live ∩ x.1.live = ∅) || decide (rangesDisjoint o s.size x.2 x.1.size)

/-- One past the highest byte used by the already-placed sites. -/
def maxEnd (allocated : List (AllocSite × Nat)) : Nat :=
  allocated.foldr (fun x m => max (x.2 + x.1.size) m) 0

/-- Modelled from the spec: greedy first-fit — the smallest admissible
offset (placing at `maxEnd` is always admissible, so the search never
falls through in practice). -/
def placeOffset (allocated : List (AllocSite × Nat)) (s : AllocSite) : Nat :=
  match (List.range (maxEnd allocated + 1)).find? (fun o => conflictFree allocated s o) with
  | some o => o
  | none => maxEnd allocated

/-- Modelled from the spec: place the sites one at a time, first-fit, in
the given order (the spec leaves the tie-break order open). -/
def allocGo : List AllocSite → List (AllocSite × Nat) → List (AllocSite × Nat)
  | [], acc => acc
  | s :: rest, acc => allocGo rest (acc ++ [(s, placeOffset acc s)])

/-- Modelled from the spec: the allocator's result — every surviving
allocation site with its concrete byte offset. -/
def allocateSites (sites : List AllocSite) : List (AllocSite × Nat) :=
  allocGo sites []

/-- The non-overlap invariant for a pair of placed sites: overlapping
liveness forces disjoint byte ranges. -/
def allocOk (x y : AllocSite × Nat) : Prop :=
  (x.1.live ∩ y.1.live).Nonempty → rangesDisjoint x.2 x.1.size y.2 y.1.size

theorem mem_allocated_le_maxEnd (allocated : List (AllocSite × Nat)) :
    ∀ x ∈ allocated, x.2 + x.1.size ≤ maxEnd allocated := by
  induction allocated with
  | nil => intro x hx; cases hx
  | cons a rest ih =>
    intro x hx
    rcases List.mem_cons.mp hx with rfl | hx
    · simp only [maxEnd, List.foldr_cons]
      exact Nat.le_max_left _ _
    · have := ih x hx
      simp only [maxEnd, List.foldr_cons]
      exact le_trans this (Nat.le_max_right _ _)

theorem conflictFree_placeOffset (allocated : List (AllocSite × Nat)) (s : AllocSite) :
    conflictFree allocated s (placeOffset allocated s) = true := by
  unfold placeOffset
  cases hf : (List.range (maxEnd allocated + 1)).find? (fun o => conflictFree allocated s o) with
  | some o => exact List.find?_some hf
  | none =>
    show conflictFree allocated s (maxEnd allocated) = true
    unfold conflictFree
    rw [List.all_eq_true]
    intro x hx
    have hle := mem_allocated_le_maxEnd allocated x hx
    have : rangesDisjoint (maxEnd allocated) s.size x.2 x.1.size := Or.inr hle
    simp [this]

theorem conflictFree_implies_allocOk (allocated : List (AllocSite × Nat)) (s : AllocSite)
    (o : Nat) (h : conflictFree allocated s o = true) :
    ∀ x ∈ allocated, allocOk x (s, o) := by
  unfold conflictFree at h
  rw [List.all_eq_true] at h
  intro x hx hover
  have hx' := h x hx
  simp only [Bool.or_eq_true, decide_eq_true_eq] at hx'
  rcases hx' with hempty | hdis
  · exfalso
    obtain ⟨p, hp⟩ := hover
    rw [Finset.mem_inter] at hp
    have : p ∈ s.live ∩ x.1.live := Finset.mem_inter.mpr ⟨hp.2, hp.1⟩
    rw [hempty] at this
    exact absurd this (Finset.not_mem_empty p)
  · rcases hdis with h1 | h2
    · exact Or.inr h1
    · exact Or.inl h2

theorem allocGo_pairwise :
    ∀ (sites : List AllocSite) (acc : List (AllocSite × Nat)),
      List.Pairwise allocOk acc → List.Pairwise allocOk (allocGo sites acc)
  | [], acc, h => h
  | s :: rest, acc, h => by
    apply allocGo_pairwise rest
    rw [List.pairwise_append]
    refine ⟨h, List.pairwise_singleton _ _, ?_⟩
    intro a ha b hb
    rw [List.mem_singleton] at hb
    subst hb
    exact conflictFree_implies_allocOk acc s _ (conflictFree_placeOffset acc s) a ha

end Concretize

namespace Concretize

/-- Modelled from the spec: the memory effect of one instruction on the
allocation sites of a straight-line block — an optional written site with
the write's byte extent, and an optional read site. -/
structure MemOp where
  writeSite : Option Nat
  writeSize : Nat
  readSite : Option Nat
deriving DecidableEq

/-- Position `q` fully overwrites site `sid` (of size `ssize`). -/
def isFullStore (prog : List MemOp) (q sid ssize : Nat) : Bool :=
  match prog.get? q with
  | some op => op.writeSite = some sid && ssize ≤ op.writeSize
  | none => false

/-- Position `q` stores to site `sid` (any extent). -/
def isStore (prog : List MemOp) (q sid : Nat) : Bool :=
  match prog.get? q with
  | some op => op.writeSite = some sid
  | none => false

/-- Modelled from the spec: §4.3 — a position is live for a site when it is
reachable from a store to the site with no intervening full-size overwrite,
and additionally any position that stores to the site at all is forced
live (`_mark_store_locations_live`). -/
def liveAt (prog : List MemOp) (sid ssize p : Nat) : Bool :=
  isStore prog p sid ||
    (List.range (p + 1)).any fun s =>
      isStore prog s sid &&
        ((List.range' (s + 1) (p - s)).all fun q => !isFullStore prog q sid ssize)

/-- The liveness set of a site over a straight-line block. -/
def livePositions (prog : List MemOp) (sid ssize : Nat) : Finset Nat :=
  (Finset.range prog.length).filter fun p => liveAt prog sid ssize p = true

end Concretize

namespace Concretize

/-- The regression block of `test_surviving_store_no_overlap`, with
site 0 = `%scratch` and site 1 = `%buf`, parametric in the alloca size
(32 for the base test, 64 for the `_large` variant; the `mstore` always
writes 32 bytes). -/
def regressionProg (sz : Nat) : List MemOp :=
  [ ⟨none, 0, none⟩,            -- %scratch = alloca sz
    ⟨none, 0, none⟩,            -- %buf = alloca sz
    ⟨some 1, sz, none⟩,         -- calldatacopy %buf, 0, sz
    ⟨some 0, 32, none⟩,         -- mstore %scratch, 42
    ⟨none, 0, some 1⟩,          -- %v1 = mload %buf
    ⟨some 0, sz, none⟩,         -- calldatacopy %scratch, 100, sz
    ⟨none, 0, some 0⟩,          -- %v2 = mload %scratch
    ⟨none, 0, none⟩ ]           -- sink %v1, %v2

/-- The two allocation sites of the regression scenario with their computed
liveness sets. -/
def regressionSites (sz : Nat) : List AllocSite :=
  [ ⟨0, sz, livePositions (regressionProg sz) 0 sz⟩,
    ⟨1, sz, livePositions (regressionProg sz) 1 sz⟩ ]

/-- The concretized offsets of the regression scenario. -/
def regressionOffsets (sz : Nat) : List Nat :=
  (allocateSites (regressionSites sz)).map (·.2)

/-- C1: (a) for every input, any two sites placed by the allocator whose
computed liveness sets overlap receive disjoint `[offset, offset+size)`
byte ranges; (b) in the regression scenario — one alloca stored early then
fully overwritten and reloaded while the other is live across that window —
the two liveness sets do overlap, and the two concretized ranges (for the
32- and the 64-byte variant alike) do not. -/
theorem concretize_mem_no_overlap :
    (∀ sites : List AllocSite, List.Pairwise allocOk (allocateSites sites)) ∧
    (((regressionSites 32).get? 0).elim False fun s =>
      ((regressionSites 32).get? 1).elim False fun b =>
        (s.live ∩ b.live).Nonempty) ∧
    regressionOffsets 32 = [0, 32] ∧
    rangesDisjoint 0 32 32 32 ∧
    (((regressionSites 64).get? 0).elim False fun s =>
      ((regressionSites 64).get? 1).elim False fun b =>
        (s.live ∩ b.live).Nonempty) ∧
    regressionOffsets 64 = [0, 64] ∧
    rangesDisjoint 0 64 64 64 := by
  refine ⟨fun sites => allocGo_pairwise sites [] List.Pairwise.nil, ?_, ?_, ?_, ?_, ?_, ?_⟩
  · show ((livePositions (regressionProg 32) 0 32) ∩ (livePositions (regressionProg 32) 1 32)).Nonempty
    decide
  · decide
  · decide
  · show ((livePositions (regressionProg 64) 0 64) ∩ (livePositions (regressionProg 64) 1 64)).Nonempty
    decide
  · decide
  · decide

end Concretize

namespace Venom

/-- An IR operand: SSA variable, literal, or label. -/
inductive Operand where
  | var (v : String)
  | lit (n : Int)
  | label (l : String)
deriving DecidableEq, Repr

/-- An IR instruction: opcode, ordered operand list (in internal Venom
order, which is reversed relative to the textual form for most opcodes),
and an optional output variable. -/
structure Inst where
  opcode : String
  operands : List Operand
  output : Option String := none
deriving DecidableEq, Repr

/-- `IRInstruction.phi_operands`: the (label, variable) pairs of a phi. -/
def Inst.phiPairsOf : List Operand → List (String × String)
  | .label l :: .var v :: rest => (l, v) :: phiPairsOf rest
  | _ => []

def Inst.phi_operands (i : Inst) : List (String × String) :=
  Inst.phiPairsOf i.operands

/-- A basic block: label plus instruction sequence. -/
structure BasicBlock where
  label : String
  insts : List Inst
deriving DecidableEq, Repr

/-- An `IRFunction`: named, with its blocks (the first block is the entry)
and the calling-convention metadata used by the passes under study.
`readonly_memory_invoke_arg_idxs` is the attribute the readonly-args
analysis stores its result in. -/
structure Fn where
  name : String
  blocks : List BasicBlock
  invoke_param_count : Option Nat := none
  has_memory_return_buffer_param : Option Bool := none
  readonly_memory_invoke_arg_idxs : List Nat := []
deriving DecidableEq, Repr

/-- An `IRContext`: its functions (`ctx.functions` is keyed by label;
function names are assumed unique) and the data-segment label references. -/
structure Ctx where
  functions : List Fn
  dataSegmentLabels : List String := []
deriving DecidableEq, Repr

/-- All instructions of a function, in block order. -/
def Fn.allInsts (fn : Fn) : List Inst :=
  fn.blocks.flatMap (·.insts)

/-- `DFGAnalysis.get_producing_instruction`: the (unique, by SSA) defining
instruction of a variable. -/
def Fn.producing (fn : Fn) (v : String) : Option Inst :=
  fn.allInsts.find? fun i => i.output = some v

/-- `ctx.functions.get(label)`. -/
def Ctx.findFn (ctx : Ctx) (nm : String) : Option Fn :=
  ctx.functions.find? fun f => f.name = nm

/-- The output variables of a function, as a finite set (the domain over
which the root lookup can recurse). -/
def Fn.outVars (fn : Fn) : Finset String :=
  fn.allInsts.foldr (fun i acc => match i.output with
    | some v => insert v acc
    | none => acc) ∅

theorem mem_outVars_foldr :
    ∀ (l : List Inst) (v : String) (i : Inst), i ∈ l → i.output = some v →
      v ∈ l.foldr (fun i acc => match i.output with
        | some w => insert w acc
        | none => acc) (∅ : Finset String)
  | [], _, _, hmem, _ => absurd hmem (List.not_mem_nil _)
  | a :: rest, v, i, hmem, hout => by
    rcases List.mem_cons.mp hmem with rfl | hmem'
    · rw [List.foldr_cons, hout]
      exact Finset.mem_insert_self v _
    · rw [List.foldr_cons]
      have ih := mem_outVars_foldr rest v i hmem' hout
      cases a.output with
      | none => exact ih
      | some w => exact Finset.mem_insert.mpr (Or.inr ih)

theorem producing_mem_outVars (fn : Fn) (v : String) (i : Inst)
    (h : fn.producing v = some i) : v ∈ fn.outVars := by
  unfold Fn.producing at h
  have hmem := List.mem_of_find?_eq_some h
  have hout := List.find?_some h
  simp only [decide_eq_true_eq] at hout
  exact mem_outVars_foldr fn.allInsts v i hmem hout

end Venom

namespace ReadonlyArgs
open Venom

/-- Modelled from the spec: `memory_write_ops(inst).ofst` (the
`memory_location` module is outside the excerpt) — the pointer operand an
instruction writes memory through, in internal operand order (`mstore`
stores `[value, ptr]`; the copy opcodes store `[size, src, dst]`). -/
def memory_write_ofst (i : Inst) : Option Operand :=
  if i.opcode = "mstore" then i.operands.get? 1
  else if i.opcode = "mcopy" || i.opcode = "calldatacopy"
      || i.opcode = "returndatacopy" || i.opcode = "codecopy" then
    i.operands.get? 2
  else none

/-- `has_ret_instruction`. -/
def has_ret_instruction (fn : Fn) : Bool :=
  fn.allInsts.any (·.opcode = "ret")

/-- The `param` instructions of the entry block
(`fn.entry.param_instructions`). -/
def param_insts (fn : Fn) : List Inst :=
  match fn.blocks.head? with
  | some bb => bb.insts.filter (·.opcode = "param")
  | none => []

/-- `collect_param_info`: the invoke-supplied parameters (all params except
the return-pc), determined from metadata, from the `ret`-instruction
heuristic, or — for entry functions — taken whole. -/
def collectParamInfo (fn : Fn) : List String :=
  let params := (param_insts fn).filterMap (·.output)
  if params = [] then []
  else
    match fn.invoke_param_count with
    | some c => params.take (min c params.length)
    | none => if has_ret_instruction fn then params.dropLast else params

/-- The memoization dictionary `root_memo` (insertion at the front; keys
are inserted at most once). -/
def Memo := List (String × Finset Nat)

instance : DecidableEq Memo := by unfold Memo; infer_instance

/-- Union of root sets over an operand list, threading the memo through
the recursive lookups (`roots.update(...)` loops of `root_from_add` /
`root_from_gep` / `root_from_sub` / the phi case); non-variable operands
contribute nothing, and `none` propagates fuel exhaustion. -/
def rootsOfOps (recur : Memo → String → Option (Finset Nat × Memo))
    (memo : Memo) (ops : List Operand) : Option (Finset Nat × Memo) :=
  ops.foldl (fun acc op =>
    match acc, op with
    | some (r, m), .var v =>
      match recur m v with
      | some (r2, m2) => some (r ∪ r2, m2)
      | none => none
    | acc, _ => acc) (some ((∅ : Finset Nat), memo))

/-- `root_from_inst`, dispatching on the producing opcode, parametric in
the recursive lookup; `sub` visits `a` before `b` (internal operand order
is `[b, a]`). -/
def rootFromInstH (recur : Memo → String → Option (Finset Nat × Memo))
    (memo : Memo) (inst : Inst) : Option (Finset Nat × Memo) :=
  if inst.opcode = "assign" then
    match inst.operands.get? 0 with
    | some (.var src) => recur memo src
    | _ => some (∅, memo)
  else if inst.opcode = "gep" then
    if inst.operands.length = 2 then rootsOfOps recur memo inst.operands
    else some (∅, memo)
  else if inst.opcode = "add" then rootsOfOps recur memo inst.operands
  else if inst.opcode = "sub" then
    if inst.operands.length = 2 then rootsOfOps recur memo inst.operands.reverse
    else some (∅, memo)
  else if inst.opcode = "phi" then
    rootsOfOps recur memo (inst.phi_operands.map fun p => Operand.var p.2)
  else some (∅, memo)

/-- `root_param_indices_var` with the `root_memo` dictionary, the
`root_active` in-progress set, and explicit fuel (decremented per variable
level; `none` means the fuel ran out — the sufficiency theorem shows it
never does at the bound used). -/
def rootVar (fn : Fn) (info : List String) (nParams : Nat) :
    Nat → Memo → List String → String → Option (Finset Nat × Memo)
  | 0, _, _, _ => none
  | fuel + 1, memo, active, v =>
    match List.lookup v memo with
    | some r => some (r, memo)
    | none =>
      if v ∈ active then some (Finset.range nParams, memo)
      else
        match info.findIdx? (· = v) with
        | some idx => some ({idx}, (v, ({idx} : Finset Nat)) :: memo)
        | none =>
          match fn.producing v with
          | none => some (∅, (v, (∅ : Finset Nat)) :: memo)
          | some inst =>
            match rootFromInstH
                (fun m w => rootVar fn info nParams fuel m (v :: active) w)
                memo inst with
            | none => none
            | some (roots, memo') => some (roots, (v, roots) :: memo')

end ReadonlyArgs

namespace ReadonlyArgs
open Venom

/-- Fuel that always suffices for the root lookup: one more than the number
of variables the recursion can visit. -/
def rootBound (fn : Fn) : Nat :=
  fn.outVars.card + 1

/-- `root_param_indices`: top-level root lookup of an operand (empty for
non-variables), run at the sufficient fuel bound with an empty
`root_active` set. -/
def rootOf (fn : Fn) (info : List String) (nParams : Nat) (memo : Memo)
    (op : Operand) : Finset Nat × Memo :=
  match op with
  | .var v => (rootVar fn info nParams (rootBound fn) memo [] v).getD (Finset.range nParams, memo)
  | _ => (∅, memo)

/-- `mutable[idx] = True` for every `idx` in `roots` (list counterpart of
the Python in-place loop; `i` is the index of the list head). -/
def markRoots : List Bool → Finset Nat → Nat → List Bool
  | [], _, _ => []
  | b :: rest, roots, i => (b || decide (i ∈ roots)) :: markRoots rest roots (i + 1)

/-- The conservative branch of `_handle_invoke` for a non-label call
target: every argument's roots are marked mutable. -/
def markOpsAll (fn : Fn) (info : List String) (nParams : Nat) :
    List Operand → List Bool × Memo → List Bool × Memo
  | [], st => st
  | op :: rest, (mt, memo) =>
    let rm := rootOf fn info nParams memo op
    markOpsAll fn info nParams rest (markRoots mt rm.1 0, rm.2)

/-- The per-argument loop of `_handle_invoke` for a known label target:
mark the caller roots of any argument forwarded to an unknown callee or to
a non-readonly callee parameter position. -/
def invokeArgsGo (fn : Fn) (info : List String) (nParams : Nat)
    (calleeState : Option (List Bool)) :
    List Operand → Nat → List Bool × Memo → List Bool × Memo
  | [], _, st => st
  | op :: rest, opIdx, (mt, memo) =>
    let rm := rootOf fn info nParams memo op
    let callerIdxs := rm.1
    let calleeArgIdx := opIdx - 1
    let mt' :=
      if callerIdxs = ∅ then mt
      else
        match calleeState with
        | none => markRoots mt callerIdxs 0
        | some cs =>
          if cs.length ≤ calleeArgIdx ∨ cs.getD calleeArgIdx false = false then
            markRoots mt callerIdxs 0
          else mt
    invokeArgsGo fn info nParams calleeState rest (opIdx + 1) (mt', rm.2)

/-- `_handle_invoke`. -/
def handleInvoke (fn : Fn) (info : List String) (nParams : Nat) (ctx : Ctx)
    (readonly : List (String × List Bool)) (st : List Bool × Memo)
    (inst : Inst) : List Bool × Memo :=
  match inst.operands.get? 0 with
  | some (.label target) =>
    let calleeState :=
      match ctx.findFn target with
      | none => none
      | some callee => some ((List.lookup callee.name readonly).getD [])
    invokeArgsGo fn info nParams calleeState (inst.operands.drop 1) 1 st
  | _ => markOpsAll fn info nParams (inst.operands.drop 1) st

/-- The per-instruction step of `_analyze_fn`'s scan. -/
def processInst (fn : Fn) (info : List String) (nParams : Nat) (ctx : Ctx)
    (readonly : List (String × List Bool)) (st : List Bool × Memo)
    (inst : Inst) : List Bool × Memo :=
  if inst.opcode = "invoke" then
    handleInvoke fn info nParams ctx readonly st inst
  else
    match memory_write_ofst inst with
    | none => st
    | some w =>
      let rm := rootOf fn info nParams st.2 w
      (markRoots st.1 rm.1 0, rm.2)

/-- `_analyze_fn`: recompute the function's readonly vector from its
instructions and the current interprocedural state. -/
def analyze_fn (ctx : Ctx) (readonly : List (String × List Bool)) (fn : Fn) :
    List Bool :=
  let info := collectParamInfo fn
  let n := info.length
  if n = 0 then []
  else
    let res := fn.allInsts.foldl (processInst fn info n ctx readonly)
      (List.replicate n false, ([] : Memo))
    res.1.map (!·)

/-- Replace the entry for `nm` in the interprocedural state. -/
def setState : List (String × List Bool) → String → List Bool →
    List (String × List Bool)
  | [], _, _ => []
  | (k, v) :: rest, nm, nv =>
    if k = nm then (k, nv) :: rest else (k, v) :: setState rest nm nv

/-- One full sweep of the fixed-point loop: re-derive every function's
vector in order, updating the shared state in place (as the Python dict
iteration does). -/
def sweep (ctx : Ctx) (st : List (String × List Bool)) :
    List (String × List Bool) :=
  ctx.functions.foldl (fun st fn => setState st fn.name (analyze_fn ctx st fn)) st

/-- The optimistic initial state: every invoke parameter readonly. -/
def initState (ctx : Ctx) : List (String × List Bool) :=
  ctx.functions.map fun fn => (fn.name, List.replicate (collectParamInfo fn).length true)

/-- Total number of `true` bits in a state (the termination measure of the
fixed-point loop). -/
def trueCount (st : List (String × List Bool)) : Nat :=
  st.foldr (fun kv acc => kv.2.count true + acc) 0

/-- The `while changed` loop, with fuel; `none` means fuel ran out. -/
def runLoop (ctx : Ctx) : Nat → List (String × List Bool) →
    Option (List (String × List Bool))
  | 0, _ => none
  | fuel + 1, st =>
    let st' := sweep ctx st
    if st' = st then some st else runLoop ctx fuel st'

/-- Indices of `True` entries (`tuple(i for i, is_ro in enumerate(state) if
is_ro)`). -/
def idxsOfGo : List Bool → Nat → List Nat
  | [], _ => []
  | b :: rest, i => if b then i :: idxsOfGo rest (i + 1) else idxsOfGo rest (i + 1)

/-- `ReadonlyMemoryArgsAnalysisPass.run_pass`: iterate to the fixed point
(the loop fuel is one more than the total number of optimistic bits, which
the termination theorem shows always suffices), then store each function's
readonly index tuple. -/
def run_pass (ctx : Ctx) : Option Ctx :=
  match runLoop ctx (trueCount (initState ctx) + 1) (initState ctx) with
  | none => none
  | some final =>
    some { ctx with functions := ctx.functions.map fun fn =>
      { fn with readonly_memory_invoke_arg_idxs :=
          idxsOfGo ((List.lookup fn.name final).getD []) 0 } }

end ReadonlyArgs

namespace ReadonlyArgs
open Venom

/-- `test_gep_write_marks_param_mutable`: gep into a parameter followed by
`mstore` through the derived pointer. -/
def gepWriteCtx : Ctx :=
  ⟨[⟨"f",
     [⟨"f",
       [⟨"param", [], some "%arg"⟩,
        ⟨"param", [], some "%retpc"⟩,
        ⟨"gep", [.var "%arg", .lit 32], some "%ptr"⟩,
        ⟨"mstore", [.lit 1, .var "%ptr"], none⟩,
        ⟨"ret", [.var "%retpc"], none⟩]⟩],
     none, none, []⟩], []⟩

/-- `test_gep_read_keeps_param_readonly`: gep into a parameter followed
only by `mload`. -/
def gepReadCtx : Ctx :=
  ⟨[⟨"f",
     [⟨"f",
       [⟨"param", [], some "%arg"⟩,
        ⟨"param", [], some "%retpc"⟩,
        ⟨"gep", [.var "%arg", .lit 32], some "%ptr"⟩,
        ⟨"mload", [.var "%ptr"], some "%val"⟩,
        ⟨"ret", [.var "%retpc"], none⟩]⟩],
     none, none, []⟩], []⟩

/-- `test_add_of_two_params_marks_both_mutable`. -/
def addWriteCtx : Ctx :=
  ⟨[⟨"f",
     [⟨"f",
       [⟨"param", [], some "%a"⟩,
        ⟨"param", [], some "%b"⟩,
        ⟨"param", [], some "%retpc"⟩,
        ⟨"add", [.var "%b", .var "%a"], some "%ptr"⟩,
        ⟨"mstore", [.lit 1, .var "%ptr"], none⟩,
        ⟨"ret", [.var "%retpc"], none⟩]⟩],
     none, none, []⟩], []⟩

/-- `test_phi_of_two_params_marks_both_mutable`. -/
def phiWriteCtx : Ctx :=
  ⟨[⟨"f",
     [⟨"f",
       [⟨"param", [], some "%a"⟩,
        ⟨"param", [], some "%b"⟩,
        ⟨"param", [], some "%retpc"⟩,
        ⟨"jnz", [.var "%a", .label "left", .label "right"], none⟩]⟩,
      ⟨"left", [⟨"jmp", [.label "merge"], none⟩]⟩,
      ⟨"right", [⟨"jmp", [.label "merge"], none⟩]⟩,
      ⟨"merge",
       [⟨"phi", [.label "left", .var "%a", .label "right", .var "%b"], some "%ptr"⟩,
        ⟨"mstore", [.lit 1, .var "%ptr"], none⟩,
        ⟨"ret", [.var "%retpc"], none⟩]⟩],
     none, none, []⟩], []⟩

/-- The readonly index tuples `run_pass` stores on each function of a
context. -/
def resultIdxs (ctx : Ctx) : Option (List (List Nat)) :=
  (run_pass ctx).map fun c => c.functions.map (·.readonly_memory_invoke_arg_idxs)

/-- C3: after `run_pass`, a parameter stored through a gep-derived pointer
is marked mutable (absent from the stored tuple), a parameter only read
through a gep-derived pointer stays readonly, and a `phi`/`add` combining
two parameters whose result is stored through marks both mutable. -/
theorem readonly_args_analysis_cases :
    resultIdxs gepWriteCtx = some [[]] ∧
    resultIdxs gepReadCtx = some [[0]] ∧
    resultIdxs addWriteCtx = some [[]] ∧
    resultIdxs phiWriteCtx = some [[]] := by
  refine ⟨?_, ?_, ?_, ?_⟩ <;> decide

end ReadonlyArgs

namespace ReadonlyArgs
open Venom

/-- The key set of the memo dictionary. -/
def keysF (memo : Memo) : Finset String :=
  ((memo.map Prod.fst).toFinset : Finset String)

theorem lookup_none_not_mem_keysF (memo : Memo) (v : String)
    (h : List.lookup v memo = none) : v ∉ keysF memo := by
  induction memo with
  | nil => simp [keysF]
  | cons kv rest ih =>
    rw [List.lookup_cons] at h
    cases hbe : (v == kv.1) with
    | true => rw [hbe] at h; cases h
    | false =>
      rw [hbe] at h
      have hne : v ≠ kv.1 := by
        intro he; rw [he] at hbe; simp at hbe
      have := ih h
      unfold keysF at this ⊢
      simp only [List.map_cons, List.toFinset_cons, Finset.mem_insert]
      rintro (h1 | h2)
      · exact hne h1
      · exact this (by simpa [keysF] using h2)

/-- The number of variables the root lookup can still recurse into. -/
def unres (fn : Fn) (memo : Memo) (active : List String) : Nat :=
  (fn.outVars \ (keysF memo ∪ active.toFinset)).card

theorem keysF_cons (v : String) (r : Finset Nat) (memo : Memo) :
    keysF ((v, r) :: memo) = insert v (keysF memo) := by
  unfold keysF
  simp

theorem unres_anti (fn : Fn) (memo m : Memo) (active : List String)
    (h : keysF memo ⊆ keysF m) : unres fn m active ≤ unres fn memo active := by
  unfold unres
  apply Finset.card_le_card
  intro x hx
  rw [Finset.mem_sdiff] at hx ⊢
  refine ⟨hx.1, ?_⟩
  intro hmem
  rw [Finset.mem_union] at hmem
  rcases hmem with h1 | h2
  · exact hx.2 (Finset.mem_union_left _ (h h1))
  · exact hx.2 (Finset.mem_union_right _ h2)

theorem rootsOfOps_keys_mono
    (recur : Memo → String → Option (Finset Nat × Memo))
    (hrec : ∀ m w r m', recur m w = some (r, m') → keysF m ⊆ keysF m') :
    ∀ (ops : List Operand) (r0 : Finset Nat) (m : Memo) (r : Finset Nat) (m' : Memo),
      (ops.foldl (fun acc op =>
        match acc, op with
        | some (r, m), .var v =>
          match recur m v with
          | some (r2, m2) => some (r ∪ r2, m2)
          | none => none
        | acc, _ => acc) (some (r0, m))) = some (r, m') →
      keysF m ⊆ keysF m'
  | [], r0, m, r, m', h => by
    rw [List.foldl_nil] at h
    cases h
    exact Finset.Subset.refl _
  | op :: rest, r0, m, r, m', h => by
    rw [List.foldl_cons] at h
    cases op with
    | var v =>
      dsimp only at h
      cases hr : recur m v with
      | none =>
        rw [hr] at h
        have : ∀ (rest : List Operand),
            (rest.foldl (fun acc op =>
              match acc, op with
              | some (r, m), .var v =>
                match recur m v with
                | some (r2, m2) => some (r ∪ r2, m2)
                | none => none
              | acc, _ => acc) (none : Option (Finset Nat × Memo))) = none := by
          intro rest
          induction rest with
          | nil => rfl
          | cons o rs ih => rw [List.foldl_cons]; cases o <;> simpa using ih
        rw [this rest] at h
        cases h
      | some rm =>
        rw [hr] at h
        have h1 := hrec m v rm.1 rm.2 (by rw [hr])
        have h2 := rootsOfOps_keys_mono recur hrec rest (r0 ∪ rm.1) rm.2 r m' h
        exact Finset.Subset.trans h1 h2
    | lit n =>
      dsimp only at h
      exact rootsOfOps_keys_mono recur hrec rest r0 m r m' h
    | label l =>
      dsimp only at h
      exact rootsOfOps_keys_mono recur hrec rest r0 m r m' h

end ReadonlyArgs

namespace ReadonlyArgs
open Venom

theorem rootFromInstH_keys_mono
    (recur : Memo → String → Option (Finset Nat × Memo))
    (hrec : ∀ m w r m', recur m w = some (r, m') → keysF m ⊆ keysF m')
    (memo : Memo) (inst : Inst) (r : Finset Nat) (m' : Memo)
    (h : rootFromInstH recur memo inst = some (r, m')) :
    keysF memo ⊆ keysF m' := by
  unfold rootFromInstH at h
  split_ifs at h
  · cases hop : inst.operands.get? 0 with
    | none => rw [hop] at h; cases h; exact Finset.Subset.refl _
    | some op =>
      rw [hop] at h
      cases op with
      | var src => exact hrec memo src r m' h
      | lit n => cases h; exact Finset.Subset.refl _
      | label l => cases h; exact Finset.Subset.refl _
  · unfold rootsOfOps at h
    exact rootsOfOps_keys_mono recur hrec inst.operands ∅ memo r m' h
  · cases h; exact Finset.Subset.refl _
  · unfold rootsOfOps at h
    exact rootsOfOps_keys_mono recur hrec inst.operands ∅ memo r m' h
  · unfold rootsOfOps at h
    exact rootsOfOps_keys_mono recur hrec inst.operands.reverse ∅ memo r m' h
  · cases h; exact Finset.Subset.refl _
  · unfold rootsOfOps at h
    exact rootsOfOps_keys_mono recur hrec
      (inst.phi_operands.map fun p => Operand.var p.2) ∅ memo r m' h
  · cases h; exact Finset.Subset.refl _

theorem rootVar_keys_mono (fn : Fn) (info : List String) (nParams : Nat) :
    ∀ (fuel : Nat) (memo : Memo) (active : List String) (v : String)
      (r : Finset Nat) (m' : Memo),
      rootVar fn info nParams fuel memo active v = some (r, m') →
      keysF memo ⊆ keysF m'
  | 0, _, _, _, _, _, h => by cases h
  | fuel + 1, memo, active, v, r, m', h => by
    unfold rootVar at h
    cases hl : List.lookup v memo with
    | some rr => rw [hl] at h; cases h; exact Finset.Subset.refl _
    | none =>
      rw [hl] at h
      split_ifs at h
      · cases h; exact Finset.Subset.refl _
      · cases hfi : info.findIdx? (· = v) with
        | some idx =>
          rw [hfi] at h; cases h
          rw [keysF_cons]
          exact Finset.subset_insert _ _
        | none =>
          rw [hfi] at h
          dsimp only at h
          cases hpr : fn.producing v with
          | none =>
            rw [hpr] at h; cases h
            rw [keysF_cons]
            exact Finset.subset_insert _ _
          | some inst =>
            rw [hpr] at h
            dsimp only at h
            cases hri : rootFromInstH
                (fun m w => rootVar fn info nParams fuel m (v :: active) w)
                memo inst with
            | none => rw [hri] at h; cases h
            | some rm =>
              rw [hri] at h
              cases h
              have hsub := rootFromInstH_keys_mono _
                (fun m w r m' hh => rootVar_keys_mono fn info nParams fuel m (v :: active) w r m' hh)
                memo inst rm.1 rm.2 (by rw [hri])
              rw [keysF_cons]
              exact Finset.Subset.trans hsub (Finset.subset_insert _ _)

end ReadonlyArgs

namespace ReadonlyArgs
open Venom

theorem rootsOfOps_isSome
    (memo0 : Memo) (recur : Memo → String → Option (Finset Nat × Memo))
    (hkeys : ∀ m w r m', recur m w = some (r, m') → keysF m ⊆ keysF m')
    (hsome : ∀ m w, keysF memo0 ⊆ keysF m → (recur m w).isSome = true) :
    ∀ (ops : List Operand) (r0 : Finset Nat) (m : Memo),
      keysF memo0 ⊆ keysF m →
      ((ops.foldl (fun acc op =>
        match acc, op with
        | some (r, m), .var v =>
          match recur m v with
          | some (r2, m2) => some (r ∪ r2, m2)
          | none => none
        | acc, _ => acc) (some (r0, m)))).isSome = true
  | [], r0, m, hm => by rw [List.foldl_nil]; rfl
  | op :: rest, r0, m, hm => by
    rw [List.foldl_cons]
    cases op with
    | var v =>
      dsimp only
      cases hr : recur m v with
      | none =>
        exfalso
        have := hsome m v hm
        rw [hr] at this
        cases this
      | some rm =>
        have hk := hkeys m v rm.1 rm.2 (by rw [hr])
        exact rootsOfOps_isSome memo0 recur hkeys hsome rest (r0 ∪ rm.1) rm.2
          (Finset.Subset.trans hm hk)
    | lit n =>
      dsimp only
      exact rootsOfOps_isSome memo0 recur hkeys hsome rest r0 m hm
    | label l =>
      dsimp only
      exact rootsOfOps_isSome memo0 recur hkeys hsome rest r0 m hm

theorem rootFromInstH_isSome
    (memo0 : Memo) (recur : Memo → String → Option (Finset Nat × Memo))
    (hkeys : ∀ m w r m', recur m w = some (r, m') → keysF m ⊆ keysF m')
    (hsome : ∀ m w, keysF memo0 ⊆ keysF m → (recur m w).isSome = true)
    (inst : Inst) :
    (rootFromInstH recur memo0 inst).isSome = true := by
  have hrefl : keysF memo0 ⊆ keysF memo0 := Finset.Subset.refl _
  unfold rootFromInstH
  split_ifs
  · cases hop : inst.operands.get? 0 with
    | none => rfl
    | some op =>
      cases op with
      | var src => exact hsome memo0 src hrefl
      | lit n => rfl
      | label l => rfl
  · unfold rootsOfOps
    exact rootsOfOps_isSome memo0 recur hkeys hsome inst.operands ∅ memo0 hrefl
  · rfl
  · unfold rootsOfOps
    exact rootsOfOps_isSome memo0 recur hkeys hsome inst.operands ∅ memo0 hrefl
  · unfold rootsOfOps
    exact rootsOfOps_isSome memo0 recur hkeys hsome inst.operands.reverse ∅ memo0 hrefl
  · rfl
  · unfold rootsOfOps
    exact rootsOfOps_isSome memo0 recur hkeys hsome
      (inst.phi_operands.map fun p => Operand.var p.2) ∅ memo0 hrefl
  · rfl

theorem unres_active_cons (fn : Fn) (memo : Memo) (active : List String) (v : String)
    (hv : v ∈ fn.outVars) (hmv : v ∉ keysF memo) (hav : v ∉ active) :
    unres fn memo (v :: active) < unres fn memo active := by
  unfold unres
  have hset : fn.outVars \ (keysF memo ∪ (v :: active).toFinset) =
      (fn.outVars \ (keysF memo ∪ active.toFinset)).erase v := by
    ext x
    simp only [Finset.mem_sdiff, Finset.mem_union, List.toFinset_cons,
      Finset.mem_insert, Finset.mem_erase]
    constructor
    · rintro ⟨hx, hnot⟩
      push_neg at hnot
      exact ⟨hnot.2.1, hx, by push_neg; exact ⟨hnot.1, hnot.2.2⟩⟩
    · rintro ⟨hne, hx, hnot⟩
      push_neg at hnot
      exact ⟨hx, by push_neg; exact ⟨hnot.1, hne, hnot.2⟩⟩
  rw [hset]
  apply Finset.card_erase_lt_of_mem
  rw [Finset.mem_sdiff, Finset.mem_union]
  push_neg
  exact ⟨hv, hmv, by simpa using hav⟩

theorem rootVar_isSome (fn : Fn) (info : List String) (nParams : Nat) :
    ∀ (fuel : Nat) (memo : Memo) (active : List String) (v : String),
      unres fn memo active < fuel →
      (rootVar fn info nParams fuel memo active v).isSome = true
  | 0, memo, active, v, h => by omega
  | fuel + 1, memo, active, v, h => by
    unfold rootVar
    cases hl : List.lookup v memo with
    | some r => rfl
    | none =>
      dsimp only
      by_cases ha : v ∈ active
      · rw [if_pos ha]; rfl
      · rw [if_neg ha]
        cases hfi : info.findIdx? (· = v) with
        | some idx => rfl
        | none =>
          dsimp only
          cases hpr : fn.producing v with
          | none => rfl
          | some inst =>
            dsimp only
            have hv : v ∈ fn.outVars := producing_mem_outVars fn v inst hpr
            have hmv : v ∉ keysF memo := lookup_none_not_mem_keysF memo v hl
            have hlt : unres fn memo (v :: active) < fuel := by
              have := unres_active_cons fn memo active v hv hmv ha
              omega
            have hsome : ∀ (m : Memo) (w : String), keysF memo ⊆ keysF m →
                (rootVar fn info nParams fuel m (v :: active) w).isSome = true := by
              intro m w hsub
              apply rootVar_isSome fn info nParams fuel m (v :: active) w
              calc unres fn m (v :: active)
                  ≤ unres fn memo (v :: active) := unres_anti fn memo m _ hsub
                _ < fuel := hlt
            have hks : ∀ (m : Memo) (w : String) (r : Finset Nat) (m' : Memo),
                rootVar fn info nParams fuel m (v :: active) w = some (r, m') →
                keysF m ⊆ keysF m' :=
              fun m w r m' hh => rootVar_keys_mono fn info nParams fuel m (v :: active) w r m' hh
            have hri := rootFromInstH_isSome memo
              (fun m w => rootVar fn info nParams fuel m (v :: active) w) hks hsome inst
            cases hr : rootFromInstH
                (fun m w => rootVar fn info nParams fuel m (v :: active) w) memo inst with
            | none => rw [hr] at hri; cases hri
            | some rm => obtain ⟨r1, m1⟩ := rm; rfl

/-- C4 (part: root lookup): at any fuel exceeding the number of variables
the lookup can still visit, `root_param_indices_var` terminates (the fuel
case is never hit), even on self-referential or cyclic derivation chains —
the in-progress (`root_active`) guard answers with the full parameter
set instead of recursing. -/
theorem rootOf_isSome (fn : Fn) (info : List String) (nParams : Nat)
    (memo : Memo) (v : String) :
    (rootVar fn info nParams (rootBound fn) memo [] v).isSome = true := by
  apply rootVar_isSome
  unfold rootBound unres
  have : (fn.outVars \ (keysF memo ∪ ([] : List String).toFinset)).card ≤ fn.outVars.card :=
    Finset.card_le_card (Finset.sdiff_subset)
  omega

end ReadonlyArgs

namespace ReadonlyArgs
open Venom

/-- Pointwise Boolean order on equal-length vectors (`false ≤ true`). -/
def vecLE (a b : List Bool) : Prop :=
  List.Forall₂ (fun x y => x = true → y = true) a b

theorem vecLE_refl (a : List Bool) : vecLE a a := by
  induction a with
  | nil => exact List.Forall₂.nil
  | cons x xs ih => exact List.Forall₂.cons (fun h => h) ih

theorem vecLE_trans {a b c : List Bool} (h1 : vecLE a b) (h2 : vecLE b c) : vecLE a c := by
  induction h1 generalizing c with
  | nil => cases h2; exact List.Forall₂.nil
  | cons hxy hrest ih =>
    cases h2 with
    | cons hyz hrest2 => exact List.Forall₂.cons (fun h => hyz (hxy h)) (ih hrest2)

theorem vecLE_length {a b : List Bool} (h : vecLE a b) : a.length = b.length :=
  List.Forall₂.length_eq h

theorem vecLE_getD {a b : List Bool} (h : vecLE a b) (i : Nat) :
    a.getD i false = true → b.getD i false = true := by
  induction h generalizing i with
  | nil => simp
  | cons hxy hrest ih =>
    cases i with
    | zero => simpa using hxy
    | succ j => simpa using ih j

theorem vecLE_count {a b : List Bool} (h : vecLE a b) : a.count true ≤ b.count true := by
  induction h with
  | nil => exact le_refl _
  | cons hxy hrest ih =>
    rename_i x y as bs
    rw [List.count_cons, List.count_cons]
    have hle : (if x == true then 1 else 0) ≤ (if y == true then 1 else 0) := by
      cases x with
      | false => simp
      | true => simp [show y = true from hxy rfl]
    omega

theorem vecLE_count_strict {a b : List Bool} (h : vecLE a b) (hne : a ≠ b) :
    a.count true < b.count true := by
  induction h with
  | nil => exact absurd rfl hne
  | cons hxy hrest ih =>
    rename_i x y as bs
    rw [List.count_cons, List.count_cons]
    by_cases hxyeq : x = y
    · subst hxyeq
      have hne2 : as ≠ bs := by intro hc; exact hne (by rw [hc])
      have := ih hne2
      omega
    · have hx : x = false := by
        cases x with
        | false => rfl
        | true => exact absurd (hxy rfl) (fun hy => hxyeq (by rw [hy]))
      have hy : y = true := by
        cases y with
        | true => rfl
        | false => exact absurd hx (fun hc => hxyeq (by rw [hc]))
      subst hx; subst hy
      have := vecLE_count hrest
      simp
      omega

theorem markRoots_grow (l : List Bool) (roots : Finset Nat) (i : Nat) :
    vecLE l (markRoots l roots i) := by
  induction l generalizing i with
  | nil => exact List.Forall₂.nil
  | cons x xs ih =>
    unfold markRoots
    exact List.Forall₂.cons (by cases x <;> simp) (ih (i + 1))

theorem markRoots_mono {a b : List Bool} (h : vecLE a b) (roots : Finset Nat) (i : Nat) :
    vecLE (markRoots a roots i) (markRoots b roots i) := by
  induction h generalizing i with
  | nil => exact List.Forall₂.nil
  | cons hxy hrest ih =>
    unfold markRoots
    refine List.Forall₂.cons ?_ (ih (i + 1))
    rename_i x y as bs
    cases x with
    | false =>
      cases y with
      | false => exact fun h => h
      | true => simp
    | true => simp [show y = true from hxy rfl]

end ReadonlyArgs

namespace ReadonlyArgs
open Venom

/-- The vector stored for a function name in the interprocedural state. -/
def lk (S : List (String × List Bool)) (nm : String) : List Bool :=
  (List.lookup nm S).getD []

/-- Entry-wise order on interprocedural states: same keys in the same
order, pointwise `vecLE` vectors. -/
def stLE (S S' : List (String × List Bool)) : Prop :=
  List.Forall₂ (fun e e' => e.1 = e'.1 ∧ vecLE e.2 e'.2) S S'

theorem stLE_refl (S : List (String × List Bool)) : stLE S S := by
  induction S with
  | nil => exact List.Forall₂.nil
  | cons e rest ih => exact List.Forall₂.cons ⟨rfl, vecLE_refl _⟩ ih

theorem stLE_trans {S T U : List (String × List Bool)} (h1 : stLE S T) (h2 : stLE T U) :
    stLE S U := by
  induction h1 generalizing U with
  | nil => cases h2; exact List.Forall₂.nil
  | cons hxy hrest ih =>
    cases h2 with
    | cons hyz hrest2 =>
      exact List.Forall₂.cons ⟨hxy.1.trans hyz.1, vecLE_trans hxy.2 hyz.2⟩ (ih hrest2)

theorem stLE_keys {S S' : List (String × List Bool)} (h : stLE S S') :
    S.map Prod.fst = S'.map Prod.fst := by
  induction h with
  | nil => rfl
  | cons hxy hrest ih => simp [hxy.1, ih]

theorem lk_mono {S S' : List (String × List Bool)} (h : stLE S S') (nm : String) :
    vecLE (lk S nm) (lk S' nm) := by
  induction h with
  | nil => exact vecLE_refl _
  | cons hxy hrest ih =>
    rename_i e e' es es'
    unfold lk
    rw [List.lookup_cons, List.lookup_cons]
    cases hbe : (nm == e.1) with
    | true =>
      have : (nm == e'.1) = true := by
        rw [← hxy.1]; exact hbe
      rw [this]
      simpa using hxy.2
    | false =>
      have : (nm == e'.1) = false := by
        rw [← hxy.1]; exact hbe
      rw [this]
      exact ih

/-- Order on optional callee vectors (both absent, or both present and
pointwise ordered). -/
def optVecLE : Option (List Bool) → Option (List Bool) → Prop
  | none, none => True
  | some a, some b => vecLE a b
  | _, _ => False

theorem invokeArgsGo_memo_eq (fn : Fn) (info : List String) (nParams : Nat)
    (csA csB : Option (List Bool)) :
    ∀ (ops : List Operand) (opIdx : Nat) (mtA mtB : List Bool) (memo : Memo),
      (invokeArgsGo fn info nParams csA ops opIdx (mtA, memo)).2 =
        (invokeArgsGo fn info nParams csB ops opIdx (mtB, memo)).2
  | [], _, _, _, _ => rfl
  | op :: rest, opIdx, mtA, mtB, memo => by
    unfold invokeArgsGo
    exact invokeArgsGo_memo_eq fn info nParams csA csB rest (opIdx + 1) _ _ _

theorem invokeArgsGo_mono (fn : Fn) (info : List String) (nParams : Nat)
    (csA csB : Option (List Bool)) (hcs : optVecLE csB csA) :
    ∀ (ops : List Operand) (opIdx : Nat) (mtA mtB : List Bool) (memo : Memo),
      vecLE mtA mtB →
      vecLE (invokeArgsGo fn info nParams csA ops opIdx (mtA, memo)).1
            (invokeArgsGo fn info nParams csB ops opIdx (mtB, memo)).1
  | [], _, _, _, _, hmt => hmt
  | op :: rest, opIdx, mtA, mtB, memo, hmt => by
    unfold invokeArgsGo
    dsimp only
    apply invokeArgsGo_mono fn info nParams csA csB hcs rest (opIdx + 1)
    by_cases hempty : (rootOf fn info nParams memo op).1 = ∅
    · rw [if_pos hempty, if_pos hempty]
      exact hmt
    · rw [if_neg hempty, if_neg hempty]
      cases csA with
      | none =>
        cases csB with
        | none => exact markRoots_mono hmt _ 0
        | some csb => exact absurd hcs (by simp [optVecLE])
      | some csa =>
        cases csB with
        | none => exact absurd hcs (by simp [optVecLE])
        | some csb =>
          have hv : vecLE csb csa := hcs
          dsimp only
          by_cases hA : csa.length ≤ opIdx - 1 ∨ csa.getD (opIdx - 1) false = false
          · have hB : csb.length ≤ opIdx - 1 ∨ csb.getD (opIdx - 1) false = false := by
              rcases hA with h1 | h2
              · exact Or.inl (by rw [vecLE_length hv]; exact h1)
              · refine Or.inr ?_
                cases hcb : csb.getD (opIdx - 1) false with
                | false => rfl
                | true => rw [vecLE_getD hv _ hcb] at h2; cases h2
            rw [if_pos hA, if_pos hB]
            exact markRoots_mono hmt _ 0
          · rw [if_neg hA]
            by_cases hB : csb.length ≤ opIdx - 1 ∨ csb.getD (opIdx - 1) false = false
            · rw [if_pos hB]
              exact vecLE_trans hmt (markRoots_grow _ _ 0)
            · rw [if_neg hB]
              exact hmt

theorem markOpsAll_memo_eq (fn : Fn) (info : List String) (nParams : Nat) :
    ∀ (ops : List Operand) (mtA mtB : List Bool) (memo : Memo),
      (markOpsAll fn info nParams ops (mtA, memo)).2 =
        (markOpsAll fn info nParams ops (mtB, memo)).2
  | [], _, _, _ => rfl
  | op :: rest, mtA, mtB, memo => by
    unfold markOpsAll
    exact markOpsAll_memo_eq fn info nParams rest _ _ _

theorem markOpsAll_mono (fn : Fn) (info : List String) (nParams : Nat) :
    ∀ (ops : List Operand) (mtA mtB : List Bool) (memo : Memo),
      vecLE mtA mtB →
      vecLE (markOpsAll fn info nParams ops (mtA, memo)).1
            (markOpsAll fn info nParams ops (mtB, memo)).1
  | [], _, _, _, hmt => hmt
  | op :: rest, mtA, mtB, memo, hmt => by
    unfold markOpsAll
    exact markOpsAll_mono fn info nParams rest _ _ _ (markRoots_mono hmt _ 0)

end ReadonlyArgs

namespace ReadonlyArgs
open Venom

theorem handleInvoke_memo_eq (fn : Fn) (info : List String) (nParams : Nat)
    (ctx : Ctx) (SA SB : List (String × List Bool)) (mtA mtB : List Bool)
    (memo : Memo) (inst : Inst) :
    (handleInvoke fn info nParams ctx SA (mtA, memo) inst).2 =
      (handleInvoke fn info nParams ctx SB (mtB, memo) inst).2 := by
  unfold handleInvoke
  cases hop : inst.operands.get? 0 with
  | none => exact markOpsAll_memo_eq fn info nParams _ _ _ _
  | some op =>
    cases op with
    | var v => exact markOpsAll_memo_eq fn info nParams _ _ _ _
    | lit n => exact markOpsAll_memo_eq fn info nParams _ _ _ _
    | label l => exact invokeArgsGo_memo_eq fn info nParams _ _ _ _ _ _ _

theorem handleInvoke_mono (fn : Fn) (info : List String) (nParams : Nat)
    (ctx : Ctx) (SA SB : List (String × List Bool)) (hS : stLE SB SA)
    (mtA mtB : List Bool) (memo : Memo) (inst : Inst) (hmt : vecLE mtA mtB) :
    vecLE (handleInvoke fn info nParams ctx SA (mtA, memo) inst).1
          (handleInvoke fn info nParams ctx SB (mtB, memo) inst).1 := by
  unfold handleInvoke
  cases hop : inst.operands.get? 0 with
  | none => exact markOpsAll_mono fn info nParams _ _ _ _ hmt
  | some op =>
    cases op with
    | var v => exact markOpsAll_mono fn info nParams _ _ _ _ hmt
    | lit n => exact markOpsAll_mono fn info nParams _ _ _ _ hmt
    | label l =>
      dsimp only
      apply invokeArgsGo_mono fn info nParams _ _ ?_ _ _ _ _ _ hmt
      cases hc : ctx.findFn l with
      | none => trivial
      | some callee =>
        show vecLE ((List.lookup callee.name SB).getD []) ((List.lookup callee.name SA).getD [])
        exact lk_mono hS callee.name

theorem processInst_memo_eq (fn : Fn) (info : List String) (nParams : Nat)
    (ctx : Ctx) (SA SB : List (String × List Bool)) (mtA mtB : List Bool)
    (memo : Memo) (inst : Inst) :
    (processInst fn info nParams ctx SA (mtA, memo) inst).2 =
      (processInst fn info nParams ctx SB (mtB, memo) inst).2 := by
  unfold processInst
  split_ifs
  · exact handleInvoke_memo_eq fn info nParams ctx SA SB mtA mtB memo inst
  · cases hw : memory_write_ofst inst with
    | none => rfl
    | some w => rfl

theorem processInst_mono (fn : Fn) (info : List String) (nParams : Nat)
    (ctx : Ctx) (SA SB : List (String × List Bool)) (hS : stLE SB SA)
    (mtA mtB : List Bool) (memo : Memo) (inst : Inst) (hmt : vecLE mtA mtB) :
    vecLE (processInst fn info nParams ctx SA (mtA, memo) inst).1
          (processInst fn info nParams ctx SB (mtB, memo) inst).1 := by
  unfold processInst
  split_ifs
  · exact handleInvoke_mono fn info nParams ctx SA SB hS mtA mtB memo inst hmt
  · cases hw : memory_write_ofst inst with
    | none => exact hmt
    | some w => exact markRoots_mono hmt _ 0

theorem foldInsts_mono (fn : Fn) (info : List String) (nParams : Nat)
    (ctx : Ctx) (SA SB : List (String × List Bool)) (hS : stLE SB SA) :
    ∀ (insts : List Inst) (mtA mtB : List Bool) (memo : Memo),
      vecLE mtA mtB →
      vecLE (insts.foldl (processInst fn info nParams ctx SA) (mtA, memo)).1
            (insts.foldl (processInst fn info nParams ctx SB) (mtB, memo)).1
  | [], mtA, mtB, memo, hmt => hmt
  | inst :: rest, mtA, mtB, memo, hmt => by
    rw [List.foldl_cons, List.foldl_cons]
    have hmemo := processInst_memo_eq fn info nParams ctx SA SB mtA mtB memo inst
    have hmono := processInst_mono fn info nParams ctx SA SB hS mtA mtB memo inst hmt
    have hA : processInst fn info nParams ctx SA (mtA, memo) inst =
        ((processInst fn info nParams ctx SA (mtA, memo) inst).1,
         (processInst fn info nParams ctx SA (mtA, memo) inst).2) := rfl
    have hB : processInst fn info nParams ctx SB (mtB, memo) inst =
        ((processInst fn info nParams ctx SB (mtB, memo) inst).1,
         (processInst fn info nParams ctx SB (mtB, memo) inst).2) := rfl
    rw [hA, hB, ← hmemo]
    exact foldInsts_mono fn info nParams ctx SA SB hS rest _ _ _ hmono

theorem notMap_antitone {a b : List Bool} (h : vecLE a b) :
    vecLE (b.map (!·)) (a.map (!·)) := by
  induction h with
  | nil => exact List.Forall₂.nil
  | cons hxy hrest ih =>
    rename_i x y as bs
    refine List.Forall₂.cons ?_ ih
    intro hny
    cases x with
    | false => rfl
    | true => rw [hxy rfl] at hny; cases hny

/-- `_analyze_fn` is monotone in the interprocedural state. -/
theorem analyze_fn_mono (ctx : Ctx) (SA SB : List (String × List Bool))
    (hS : stLE SB SA) (fn : Fn) :
    vecLE (analyze_fn ctx SB fn) (analyze_fn ctx SA fn) := by
  unfold analyze_fn
  dsimp only
  split_ifs
  · exact List.Forall₂.nil
  · exact notMap_antitone (foldInsts_mono fn _ _ ctx SA SB hS fn.allInsts _ _ _ (vecLE_refl _))

end ReadonlyArgs

namespace ReadonlyArgs
open Venom

theorem markRoots_length (l : List Bool) (roots : Finset Nat) (i : Nat) :
    (markRoots l roots i).length = l.length := by
  induction l generalizing i with
  | nil => rfl
  | cons x xs ih => unfold markRoots; simp [ih]

theorem invokeArgsGo_length (fn : Fn) (info : List String) (nParams : Nat)
    (cs : Option (List Bool)) :
    ∀ (ops : List Operand) (opIdx : Nat) (mt : List Bool) (memo : Memo),
      (invokeArgsGo fn info nParams cs ops opIdx (mt, memo)).1.length = mt.length
  | [], _, _, _ => rfl
  | op :: rest, opIdx, mt, memo => by
    unfold invokeArgsGo
    dsimp only
    rw [invokeArgsGo_length fn info nParams cs rest (opIdx + 1)]
    by_cases hempty : (rootOf fn info nParams memo op).1 = ∅
    · rw [if_pos hempty]
    · rw [if_neg hempty]
      cases cs with
      | none => exact markRoots_length _ _ _
      | some c =>
        dsimp only
        split_ifs
        · exact markRoots_length _ _ _
        · rfl

theorem markOpsAll_length (fn : Fn) (info : List String) (nParams : Nat) :
    ∀ (ops : List Operand) (mt : List Bool) (memo : Memo),
      (markOpsAll fn info nParams ops (mt, memo)).1.length = mt.length
  | [], _, _ => rfl
  | op :: rest, mt, memo => by
    unfold markOpsAll
    rw [markOpsAll_length fn info nParams rest]
    exact markRoots_length _ _ _

theorem processInst_length (fn : Fn) (info : List String) (nParams : Nat)
    (ctx : Ctx) (S : List (String × List Bool)) (mt : List Bool) (memo : Memo)
    (inst : Inst) :
    (processInst fn info nParams ctx S (mt, memo) inst).1.length = mt.length := by
  unfold processInst
  split_ifs
  · unfold handleInvoke
    cases hop : inst.operands.get? 0 with
    | none => exact markOpsAll_length fn info nParams _ _ _
    | some op =>
      cases op with
      | var v => exact markOpsAll_length fn info nParams _ _ _
      | lit n => exact markOpsAll_length fn info nParams _ _ _
      | label l => exact invokeArgsGo_length fn info nParams _ _ _ _ _
  · cases hw : memory_write_ofst inst with
    | none => rfl
    | some w => exact markRoots_length _ _ _

theorem foldInsts_length (fn : Fn) (info : List String) (nParams : Nat)
    (ctx : Ctx) (S : List (String × List Bool)) :
    ∀ (insts : List Inst) (mt : List Bool) (memo : Memo),
      (insts.foldl (processInst fn info nParams ctx S) (mt, memo)).1.length = mt.length
  | [], _, _ => rfl
  | inst :: rest, mt, memo => by
    rw [List.foldl_cons]
    have h : processInst fn info nParams ctx S (mt, memo) inst =
        ((processInst fn info nParams ctx S (mt, memo) inst).1,
         (processInst fn info nParams ctx S (mt, memo) inst).2) := rfl
    rw [h]
    rw [foldInsts_length fn info nParams ctx S rest]
    exact processInst_length fn info nParams ctx S mt memo inst

theorem analyze_fn_length (ctx : Ctx) (S : List (String × List Bool)) (fn : Fn) :
    (analyze_fn ctx S fn).length = (collectParamInfo fn).length := by
  unfold analyze_fn
  dsimp only
  split_ifs with h
  · simp [h]
  · rw [List.length_map]
    rw [foldInsts_length]
    exact List.length_replicate _ _

end ReadonlyArgs

namespace ReadonlyArgs
open Venom

theorem setState_keys (S : List (String × List Bool)) (nm : String) (v : List Bool) :
    (setState S nm v).map Prod.fst = S.map Prod.fst := by
  induction S with
  | nil => rfl
  | cons e rest ih =>
    unfold setState
    split_ifs with h
    · simp [h]
    · simp [ih]

theorem setState_le (S : List (String × List Bool)) (nm : String) (v : List Bool)
    (hvec : vecLE v (lk S nm)) : stLE (setState S nm v) S := by
  induction S with
  | nil => exact List.Forall₂.nil
  | cons e rest ih =>
    unfold setState
    split_ifs with h
    · refine List.Forall₂.cons ⟨rfl, ?_⟩ (stLE_refl rest)
      have : lk (e :: rest) nm = e.2 := by
        unfold lk
        rw [List.lookup_cons, show (nm == e.1) = true from beq_iff_eq.mpr h.symm]
        rfl
      rw [this] at hvec
      exact hvec
    · refine List.Forall₂.cons ⟨rfl, vecLE_refl _⟩ ?_
      apply ih
      have : lk (e :: rest) nm = lk rest nm := by
        unfold lk
        rw [List.lookup_cons,
          show (nm == e.1) = false from beq_eq_false_iff_ne.mpr (fun hc => h hc.symm)]
      rw [this] at hvec
      exact hvec

theorem lk_setState_self (S : List (String × List Bool)) (nm : String) (v : List Bool)
    (hmem : nm ∈ S.map Prod.fst) : lk (setState S nm v) nm = v := by
  induction S with
  | nil => cases hmem
  | cons e rest ih =>
    unfold setState
    split_ifs with h
    · unfold lk
      rw [List.lookup_cons, show (nm == e.1) = true from beq_iff_eq.mpr h.symm]
      rfl
    · unfold lk
      rw [List.lookup_cons,
        show (nm == e.1) = false from beq_eq_false_iff_ne.mpr (fun hc => h hc.symm)]
      apply ih
      rcases List.mem_map.mp hmem with ⟨x, hx, hxeq⟩
      rcases List.mem_cons.mp hx with rfl | hx'
      · exact absurd hxeq.symm (fun hc => h hc.symm)
      · exact List.mem_map.mpr ⟨x, hx', hxeq⟩

theorem lk_setState_other (S : List (String × List Bool)) (nm nm' : String) (v : List Bool)
    (hne : nm' ≠ nm) : lk (setState S nm v) nm' = lk S nm' := by
  induction S with
  | nil => rfl
  | cons e rest ih =>
    unfold setState
    split_ifs with h
    · unfold lk
      rw [List.lookup_cons, List.lookup_cons]
      have : (nm' == e.1) = false := beq_eq_false_iff_ne.mpr (fun hc => hne (hc.trans h))
      rw [this]
    · unfold lk
      rw [List.lookup_cons, List.lookup_cons]
      cases hbe : (nm' == e.1) with
      | true => rfl
      | false => exact ih

/-- The invariant carried through the fixed-point iteration: the state is
keyed by the context's function names, and every stored vector bounds the
vector `_analyze_fn` would currently recompute. -/
def Jinv (ctx : Ctx) (S : List (String × List Bool)) : Prop :=
  S.map Prod.fst = ctx.functions.map (·.name) ∧
  ∀ fn ∈ ctx.functions, vecLE (analyze_fn ctx S fn) (lk S fn.name)

theorem upd_step (ctx : Ctx) (hnd : (ctx.functions.map (·.name)).Nodup)
    (S : List (String × List Bool)) (hJ : Jinv ctx S) (fn : Fn)
    (hfn : fn ∈ ctx.functions) :
    stLE (setState S fn.name (analyze_fn ctx S fn)) S ∧
      Jinv ctx (setState S fn.name (analyze_fn ctx S fn)) := by
  have hvec : vecLE (analyze_fn ctx S fn) (lk S fn.name) := hJ.2 fn hfn
  have hle : stLE (setState S fn.name (analyze_fn ctx S fn)) S :=
    setState_le S fn.name _ hvec
  refine ⟨hle, (setState_keys S fn.name _).trans hJ.1, ?_⟩
  intro g hg
  have hmono := analyze_fn_mono ctx S (setState S fn.name (analyze_fn ctx S fn)) hle g
  by_cases hname : g.name = fn.name
  · have hgfn : g = fn :=
      List.inj_on_of_nodup_map hnd hg hfn hname
    subst hgfn
    have hself : lk (setState S g.name (analyze_fn ctx S g)) g.name = analyze_fn ctx S g :=
      lk_setState_self S g.name _ (by rw [hJ.1]; exact List.mem_map.mpr ⟨g, hg, rfl⟩)
    rw [hself]
    exact hmono
  · have hother := lk_setState_other S fn.name g.name (analyze_fn ctx S fn) hname
    rw [hother]
    exact vecLE_trans hmono (hJ.2 g hg)

theorem sweepFold (ctx : Ctx) (hnd : (ctx.functions.map (·.name)).Nodup) :
    ∀ (fns : List Fn) (S : List (String × List Bool)),
      (∀ f ∈ fns, f ∈ ctx.functions) → Jinv ctx S →
      stLE (fns.foldl (fun st fn => setState st fn.name (analyze_fn ctx st fn)) S) S ∧
        Jinv ctx (fns.foldl (fun st fn => setState st fn.name (analyze_fn ctx st fn)) S)
  | [], S, _, hJ => ⟨stLE_refl S, hJ⟩
  | f :: rest, S, hmem, hJ => by
    rw [List.foldl_cons]
    have hstep := upd_step ctx hnd S hJ f (hmem f (List.mem_cons_self f rest))
    have hrec := sweepFold ctx hnd rest (setState S f.name (analyze_fn ctx S f))
      (fun g hg => hmem g (List.mem_cons_of_mem f hg)) hstep.2
    exact ⟨stLE_trans hrec.1 hstep.1, hrec.2⟩

theorem sweep_le (ctx : Ctx) (hnd : (ctx.functions.map (·.name)).Nodup)
    (S : List (String × List Bool)) (hJ : Jinv ctx S) :
    stLE (sweep ctx S) S ∧ Jinv ctx (sweep ctx S) := by
  unfold sweep
  exact sweepFold ctx hnd ctx.functions S (fun _ h => h) hJ

theorem trueCount_mono {S S' : List (String × List Bool)} (h : stLE S S') :
    trueCount S ≤ trueCount S' := by
  induction h with
  | nil => exact le_refl _
  | cons hxy hrest ih =>
    unfold trueCount
    rw [List.foldr_cons, List.foldr_cons]
    have := vecLE_count hxy.2
    have ih' : trueCount _ ≤ trueCount _ := ih
    unfold trueCount at ih'
    omega

theorem trueCount_strict {S S' : List (String × List Bool)} (h : stLE S S')
    (hne : S ≠ S') : trueCount S < trueCount S' := by
  induction h with
  | nil => exact absurd rfl hne
  | cons hxy hrest ih =>
    rename_i e e' es es'
    unfold trueCount
    rw [List.foldr_cons, List.foldr_cons]
    by_cases hv : e.2 = e'.2
    · have hee : e = e' := Prod.ext hxy.1 hv
      have hne2 : es ≠ es' := by
        intro hc
        exact hne (by rw [hee, hc])
      have := ih hne2
      unfold trueCount at this
      rw [hv]
      omega
    · have h1 := vecLE_count_strict hxy.2 hv
      have h2 : trueCount es ≤ trueCount es' := trueCount_mono hrest
      unfold trueCount at h2
      omega

theorem runLoop_isSome (ctx : Ctx) (hnd : (ctx.functions.map (·.name)).Nodup) :
    ∀ (fuel : Nat) (S : List (String × List Bool)), Jinv ctx S →
      trueCount S < fuel → (runLoop ctx fuel S).isSome = true
  | 0, S, _, hcnt => by omega
  | fuel + 1, S, hJ, hcnt => by
    unfold runLoop
    dsimp only
    by_cases heq : sweep ctx S = S
    · rw [if_pos heq]; rfl
    · rw [if_neg heq]
      have hs := sweep_le ctx hnd S hJ
      have hlt := trueCount_strict hs.1 heq
      exact runLoop_isSome ctx hnd fuel (sweep ctx S) hs.2 (by omega)

end ReadonlyArgs

namespace ReadonlyArgs
open Venom

theorem vecLE_replicate_true (w : List Bool) : vecLE w (List.replicate w.length true) := by
  induction w with
  | nil => exact List.Forall₂.nil
  | cons x xs ih =>
    rw [List.length_cons, List.replicate_succ]
    exact List.Forall₂.cons (fun _ => rfl) ih

theorem lk_init_aux :
    ∀ (l : List Fn), (l.map (·.name)).Nodup → ∀ fn ∈ l,
      lk (l.map fun g => (g.name, List.replicate (collectParamInfo g).length true)) fn.name =
        List.replicate (collectParamInfo fn).length true
  | [], _, fn, hfn => absurd hfn (List.not_mem_nil fn)
  | g :: rest, hnd, fn, hfn => by
    rw [List.map_cons]
    rcases List.mem_cons.mp hfn with rfl | hfn'
    · unfold lk
      rw [List.lookup_cons]
      rw [show (fn.name == fn.name) = true from beq_iff_eq.mpr rfl]
      rfl
    · rw [List.map_cons, List.nodup_cons] at hnd
      have hne : fn.name ≠ g.name := by
        intro hc
        exact hnd.1 (List.mem_map.mpr ⟨fn, hfn', hc⟩)
      unfold lk
      rw [List.lookup_cons]
      rw [show (fn.name == g.name) = false from beq_eq_false_iff_ne.mpr hne]
      exact lk_init_aux rest hnd.2 fn hfn'

theorem lk_init (ctx : Ctx) (hnd : (ctx.functions.map (·.name)).Nodup) :
    ∀ fn ∈ ctx.functions,
      lk (initState ctx) fn.name =
        List.replicate (collectParamInfo fn).length true := by
  unfold initState
  exact lk_init_aux ctx.functions hnd

theorem Jinv_init (ctx : Ctx) (hnd : (ctx.functions.map (·.name)).Nodup) :
    Jinv ctx (initState ctx) := by
  constructor
  · unfold initState
    rw [List.map_map]
    rfl
  · intro fn hfn
    rw [lk_init ctx hnd fn hfn]
    have hlen := analyze_fn_length ctx (initState ctx) fn
    rw [← hlen]
    exact vecLE_replicate_true _

/-- C4: `ReadonlyMemoryArgsAnalysisPass.run_pass` terminates on every input
context (with distinct function labels, as in the `ctx.functions` dict):
the whole-program fixed-point loop converges within one sweep per
optimistic readonly bit, and the recursive root lookup never exhausts its
fuel bound — in-progress lookups (cyclic phi/assign chains included)
return the full parameter index set instead of recursing. -/
theorem readonly_args_terminates :
    (∀ ctx : Ctx, (ctx.functions.map (·.name)).Nodup →
      (run_pass ctx).isSome = true) ∧
    (∀ (fn : Fn) (info : List String) (nParams : Nat) (memo : Memo) (v : String),
      (rootVar fn info nParams (rootBound fn) memo [] v).isSome = true) := by
  constructor
  · intro ctx hnd
    unfold run_pass
    have h := runLoop_isSome ctx hnd (trueCount (initState ctx) + 1) (initState ctx)
      (Jinv_init ctx hnd) (by omega)
    cases hr : runLoop ctx (trueCount (initState ctx) + 1) (initState ctx) with
    | none => rw [hr] at h; cases h
    | some final => rfl
  · intro fn info nParams memo v
    exact rootOf_isSome fn info nParams memo v

/-- A function whose phi/assign pair forms a self-referential derivation
cycle (`%x = phi(%p, %y); %y = %x`), stored through. -/
def cyclicFn : Fn :=
  ⟨"f",
   [⟨"f",
     [⟨"param", [], some "%p"⟩,
      ⟨"param", [], some "%retpc"⟩,
      ⟨"phi", [.label "f", .var "%p", .label "loop", .var "%y"], some "%x"⟩,
      ⟨"assign", [.var "%x"], some "%y"⟩,
      ⟨"mstore", [.lit 1, .var "%x"], none⟩,
      ⟨"ret", [.var "%retpc"], none⟩]⟩],
   none, none, []⟩

/-- A context exercising the cyclic derivation chain. -/
def cyclicPhiCtx : Ctx := ⟨[cyclicFn], []⟩

/-- C4 (witness): the termination theorem applied to the cyclic-phi
context; the analysis also computes the expected conservative result
(the stored-through parameter is mutable). -/
theorem readonly_args_terminates_witness :
    ((cyclicPhiCtx.functions.map (·.name)).Nodup ∧
      (run_pass cyclicPhiCtx).isSome = true) ∧
    (rootVar cyclicFn ["%p"] 1 (rootBound cyclicFn) [] [] "%x").isSome = true ∧
    resultIdxs cyclicPhiCtx = some [[]] :=
  ⟨⟨by decide, readonly_args_terminates.1 cyclicPhiCtx (by decide)⟩,
   readonly_args_terminates.2 cyclicFn ["%p"] 1 [] "%x",
   by decide⟩

end ReadonlyArgs

namespace TailMerge
open Venom

/-- Modelled from the spec: §3 — a halting block ends in a terminator with
no intra-function successors (`revert`, `stop`, `return`);
`IRBasicBlock.is_halting` is outside the excerpt. -/
def is_halting (bb : BasicBlock) : Bool :=
  match bb.insts.getLast? with
  | some i => i.opcode = "revert" || i.opcode = "stop" || i.opcode = "return"
  | none => false

/-- Modelled from the spec: CFG successors — the label operands of a
block's terminator (`CFGAnalysis` is outside the excerpt). -/
def succLabels (bb : BasicBlock) : List String :=
  match bb.insts.getLast? with
  | some i => i.operands.filterMap fun o =>
      match o with
      | .label l => some l
      | _ => none
  | none => []

def blockByLabel (fn : Fn) (l : String) : Option BasicBlock :=
  fn.blocks.find? (·.label = l)

/-- One expansion step of the reachable-label set. -/
def reachStep (fn : Fn) (s : Finset String) : Finset String :=
  s ∪ s.biUnion fun l =>
    match blockByLabel fn l with
    | some bb => (succLabels bb).toFinset
    | none => ∅

/-- `CFGAnalysis.is_reachable`, modelled as a bounded fixpoint from the
entry label. -/
def reachN (fn : Fn) : Nat → Finset String
  | 0 =>
    match fn.blocks.head? with
    | some e => {e.label}
    | none => ∅
  | k + 1 => reachStep fn (reachN fn k)

def reachableLabels (fn : Fn) : Finset String :=
  reachN fn fn.blocks.length

def is_reachable (fn : Fn) (bb : BasicBlock) : Bool :=
  bb.label ∈ reachableLabels fn

/-- A canonicalized operand of a block signature. -/
inductive CanonOp where
  | cvar (s : String)
  | clit (n : Int)
  | clabel (s : String)
deriving DecidableEq, Repr

/-- One signature entry: `(inst.opcode, canonical outputs, canonical
operands)`. -/
def SigEntry := String × List String × List CanonOp

instance : DecidableEq SigEntry := by unfold SigEntry; infer_instance

def Sig := List SigEntry

instance : DecidableEq Sig := by unfold Sig; infer_instance

/-- `_canon_var`: position-based canonical name, assigning fresh names in
first-occurrence order (the accumulated map is the assignment order). -/
def canonVar (m : List String) (v : String) : List String × String :=
  match m.findIdx? (· = v) with
  | some i => (m, "v" ++ toString i)
  | none => (m ++ [v], "v" ++ toString m.length)

/-- Canonicalize an output list, threading the variable map. -/
def canonVars (m : List String) : List String → List String × List String
  | [] => (m, [])
  | v :: rest =>
    let (m1, c) := canonVar m v
    let (m2, cs) := canonVars m1 rest
    (m2, c :: cs)

/-- `_canon_operand`, threading the variable map (our operand type is
exactly variable/literal/label, so the `CompilerPanic` arm of the source
is unrepresentable). -/
def canonOperand (m : List String) : Operand → List String × CanonOp
  | .var v =>
    let (m1, c) := canonVar m v
    (m1, .cvar c)
  | .lit n => (m, .clit n)
  | .label l => (m, .clabel l)

def canonOperands (m : List String) : List Operand → List String × List CanonOp
  | [] => (m, [])
  | op :: rest =>
    let (m1, c) := canonOperand m op
    let (m2, cs) := canonOperands m1 rest
    (m2, c :: cs)

/-- `inst.get_outputs()` (zero or one output in this IR). -/
def outputsOf (i : Inst) : List String :=
  match i.output with
  | some v => [v]
  | none => []

/-- The signature loop: per instruction, canonical outputs then canonical
operands. -/
def canonInsts (m : List String) : List Inst → Sig
  | [] => []
  | i :: rest =>
    let (m1, outs) := canonVars m (outputsOf i)
    let (m2, ops) := canonOperands m1 i.operands
    (i.opcode, outs, ops) :: canonInsts m2 rest

/-- The rejection scan: no `phi`, and every variable input defined earlier
in the same block. -/
def localsOK : List Inst → List String → Bool
  | [], _ => true
  | i :: rest, defined =>
    if i.opcode = "phi" then false
    else if i.operands.any (fun o =>
        match o with
        | .var v => decide (v ∉ defined)
        | _ => false) then false
    else localsOK rest (defined ++ outputsOf i)

/-- `_block_signature`. -/
def block_signature (bb : BasicBlock) : Option Sig :=
  if ¬ is_halting bb then none
  else if ¬ localsOK bb.insts [] then none
  else some (canonInsts [] bb.insts)

/-- The fold state of `_merge_equivalent_tails`: the `groups` dict
(signature → keeper label) and the label rewrite map. -/
structure MState where
  groups : List (Sig × String)
  labelMap : List (String × String)
deriving DecidableEq

/-- One iteration of the `_merge_equivalent_tails` loop (the entry block —
identified by its label — and unreachable blocks are skipped). -/
def mergeStep (fn : Fn) (st : MState) (bb : BasicBlock) : MState :=
  if (fn.blocks.head?.map (·.label)) = some bb.label then st
  else if ¬ is_reachable fn bb then st
  else
    match block_signature bb with
    | none => st
    | some sig =>
      match List.lookup sig st.groups with
      | some keeperLbl => { st with labelMap := st.labelMap ++ [(bb.label, keeperLbl)] }
      | none => { st with groups := st.groups ++ [(sig, bb.label)] }

def mergeState (fn : Fn) : MState :=
  fn.blocks.foldl (mergeStep fn) ⟨[], []⟩

/-- Apply the label rewrite map to one operand
(`IRBasicBlock.replace_operands` on a label dict). -/
def replaceLabelOp (lm : List (String × String)) : Operand → Operand
  | .label l =>
    match List.lookup l lm with
    | some k => .label k
    | none => .label l
  | o => o

def replaceLabelsInst (lm : List (String × String)) (i : Inst) : Inst :=
  { i with operands := i.operands.map (replaceLabelOp lm) }

def replaceLabelsBB (lm : List (String × String)) (bb : BasicBlock) : BasicBlock :=
  { bb with insts := bb.insts.map (replaceLabelsInst lm) }

/-- `TailMergePass.run_pass` over a function and the context's
data-segment label references: remove all but the keeper of each signature
group, then rewrite every label reference (branch targets and data
segment) through the label map. -/
def tail_merge (fn : Fn) (dataSeg : List String) : Fn × List String :=
  let lm := (mergeState fn).labelMap
  let kept := fn.blocks.filter fun bb => (List.lookup bb.label lm).isNone
  if lm = [] then ({ fn with blocks := kept }, dataSeg)
  else
    ({ fn with blocks := kept.map (replaceLabelsBB lm) },
     dataSeg.map fun l =>
       match List.lookup l lm with
       | some k => k
       | none => l)

end TailMerge

namespace TailMerge
open Venom

theorem lookup_mem {α β : Type} [BEq α] [LawfulBEq α] {l : List (α × β)} {k : α} {b : β}
    (h : List.lookup k l = some b) : (k, b) ∈ l := by
  obtain ⟨l₁, l₂, rfl, -⟩ := List.lookup_eq_some_iff.mp h
  exact List.mem_append.mpr (Or.inr (List.mem_cons_self _ _))

/-- A block the merge loop considers: not the entry, reachable, with a
valid canonical signature. -/
def eligible (fn : Fn) (bb : BasicBlock) : Prop :=
  (fn.blocks.head?.map (·.label)) ≠ some bb.label ∧
  is_reachable fn bb = true ∧
  (block_signature bb).isSome = true

/-- The invariant of the `_merge_equivalent_tails` fold: every `groups`
entry names a seen, eligible keeper block never scheduled for removal;
every `labelMap` entry names a seen, eligible block whose signature group
has that keeper. -/
def Inv (fn : Fn) (seen : List BasicBlock) (st : MState) : Prop :=
  (∀ e ∈ st.groups, ∃ bk ∈ seen, bk.label = e.2 ∧ block_signature bk = some e.1 ∧
      eligible fn bk ∧ ∀ e' ∈ st.labelMap, e'.1 ≠ e.2) ∧
  (∀ e ∈ st.labelMap, ∃ bb ∈ seen, bb.label = e.1 ∧ eligible fn bb ∧
      ∃ sig, block_signature bb = some sig ∧ (sig, e.2) ∈ st.groups)

theorem Inv_weaken (fn : Fn) (seen : List BasicBlock) (bb : BasicBlock) (st : MState)
    (h : Inv fn seen st) : Inv fn (seen ++ [bb]) st := by
  constructor
  · intro e he
    obtain ⟨bk, hbk, h1, h2, h3, h4⟩ := h.1 e he
    exact ⟨bk, List.mem_append.mpr (Or.inl hbk), h1, h2, h3, h4⟩
  · intro e he
    obtain ⟨b2, hb2, h1, h2, sig, h3, h4⟩ := h.2 e he
    exact ⟨b2, List.mem_append.mpr (Or.inl hb2), h1, h2, sig, h3, h4⟩

theorem mergeStep_inv (fn : Fn) (seen : List BasicBlock) (bb : BasicBlock) (st : MState)
    (hfresh : bb.label ∉ seen.map (·.label)) (h : Inv fn seen st) :
    Inv fn (seen ++ [bb]) (mergeStep fn st bb) := by
  unfold mergeStep
  by_cases hentry : (fn.blocks.head?.map (·.label)) = some bb.label
  · rw [if_pos hentry]
    exact Inv_weaken fn seen bb st h
  · rw [if_neg hentry]
    by_cases hreach : is_reachable fn bb = true
    · rw [if_neg (not_not_intro hreach)]
      cases hsig : block_signature bb with
      | none => exact Inv_weaken fn seen bb st h
      | some sig =>
        have helig : eligible fn bb := ⟨hentry, hreach, by rw [hsig]; rfl⟩
        show Inv fn (seen ++ [bb])
          (match List.lookup sig st.groups with
           | some keeperLbl => MState.mk st.groups (st.labelMap ++ [(bb.label, keeperLbl)])
           | none => MState.mk (st.groups ++ [(sig, bb.label)]) st.labelMap)
        cases hlk : List.lookup sig st.groups with
        | some keeperLbl =>
          constructor
          · intro e he
            obtain ⟨bk, hbk, h1, h2, h3, h4⟩ := h.1 e he
            refine ⟨bk, List.mem_append.mpr (Or.inl hbk), h1, h2, h3, ?_⟩
            intro e' he'
            rcases List.mem_append.mp he' with hold | hnew
            · exact h4 e' hold
            · rw [List.mem_singleton] at hnew
              subst hnew
              intro hc
              dsimp at hc
              exact hfresh (by rw [hc.trans h1.symm]; exact List.mem_map.mpr ⟨bk, hbk, rfl⟩)
          · intro e he
            rcases List.mem_append.mp he with hold | hnew
            · obtain ⟨b2, hb2, h1, h2, sg, h3, h4⟩ := h.2 e hold
              exact ⟨b2, List.mem_append.mpr (Or.inl hb2), h1, h2, sg, h3, h4⟩
            · rw [List.mem_singleton] at hnew
              subst hnew
              exact ⟨bb, List.mem_append.mpr (Or.inr (List.mem_singleton.mpr rfl)), rfl,
                helig, sig, hsig, lookup_mem hlk⟩
        | none =>
          constructor
          · intro e he
            rcases List.mem_append.mp he with hold | hnew
            · obtain ⟨bk, hbk, h1, h2, h3, h4⟩ := h.1 e hold
              exact ⟨bk, List.mem_append.mpr (Or.inl hbk), h1, h2, h3, h4⟩
            · rw [List.mem_singleton] at hnew
              subst hnew
              refine ⟨bb, List.mem_append.mpr (Or.inr (List.mem_singleton.mpr rfl)), rfl,
                hsig, helig, ?_⟩
              intro e' he' hc
              obtain ⟨b2, hb2, h1, -, -⟩ := h.2 e' he'
              dsimp at hc
              exact hfresh (by rw [← (h1.trans hc)]; exact List.mem_map.mpr ⟨b2, hb2, rfl⟩)
          · intro e he
            obtain ⟨b2, hb2, h1, h2, sg, h3, h4⟩ := h.2 e he
            exact ⟨b2, List.mem_append.mpr (Or.inl hb2), h1, h2, sg, h3,
              List.mem_append.mpr (Or.inl h4)⟩
    · rw [if_pos (by simpa using hreach)]
      exact Inv_weaken fn seen bb st h

theorem mergeFold_inv (fn : Fn) :
    ∀ (rest seen : List BasicBlock) (st : MState),
      ((seen ++ rest).map (·.label)).Nodup →
      Inv fn seen st →
      Inv fn (seen ++ rest) (rest.foldl (mergeStep fn) st)
  | [], seen, st, _, h => by simpa using h
  | bb :: rest, seen, st, hnd, h => by
    rw [List.foldl_cons]
    have hfresh : bb.label ∉ seen.map (·.label) := by
      intro hc
      rw [List.map_append] at hnd
      have := (List.nodup_append.mp hnd).2.2
      exact this hc (by simp)
    have hstep := mergeStep_inv fn seen bb st hfresh h
    have hrec := mergeFold_inv fn rest (seen ++ [bb]) (mergeStep fn st bb)
      (by simpa using hnd) hstep
    simpa using hrec

theorem mergeState_inv (fn : Fn) (hnd : (fn.blocks.map (·.label)).Nodup) :
    Inv fn fn.blocks (mergeState fn) := by
  have := mergeFold_inv fn fn.blocks [] ⟨[], []⟩ (by simpa using hnd)
    ⟨fun e he => absurd he (List.not_mem_nil e), fun e he => absurd he (List.not_mem_nil e)⟩
  simpa using this

end TailMerge

namespace TailMerge
open Venom

theorem localsOK_phi_false :
    ∀ (insts : List Inst) (defined : List String),
      (insts.any fun i => i.opcode = "phi") = true →
      localsOK insts defined = false
  | [], _, h => by simp at h
  | i :: rest, defined, h => by
    unfold localsOK
    by_cases hphi : i.opcode = "phi"
    · rw [if_pos hphi]
    · rw [if_neg hphi]
      have hrest : (rest.any fun i => i.opcode = "phi") = true := by
        rw [List.any_cons] at h
        rcases Bool.or_eq_true _ _ |>.mp h with h1 | h2
        · exact absurd (by simpa using h1) hphi
        · exact h2
      split_ifs
      · rfl
      · exact localsOK_phi_false rest _ hrest

theorem lm_mem_elig (fn : Fn) (hnd : (fn.blocks.map (·.label)).Nodup) :
    ∀ e ∈ (mergeState fn).labelMap,
      ∃ bb ∈ fn.blocks, bb.label = e.1 ∧ eligible fn bb ∧
        ∃ sig, block_signature bb = some sig ∧
          ∃ keeper ∈ fn.blocks, keeper.label = e.2 ∧
            block_signature keeper = some sig ∧
            List.lookup keeper.label (mergeState fn).labelMap = none := by
  intro e he
  have hinv := mergeState_inv fn hnd
  obtain ⟨bb, hbb, h1, h2, sig, h3, h4⟩ := hinv.2 e he
  obtain ⟨bk, hbk, k1, k2, k3, k4⟩ := hinv.1 (sig, e.2) h4
  refine ⟨bb, hbb, h1, h2, sig, h3, bk, hbk, k1, k2, ?_⟩
  rw [List.lookup_eq_none_iff]
  intro p hp
  have := k4 p hp
  rw [k1]
  simpa using this.symm

theorem protected_blocks_survive (fn : Fn) (hnd : (fn.blocks.map (·.label)).Nodup) :
    ∀ bb ∈ fn.blocks,
      (block_signature bb = none ∨
        (fn.blocks.head?.map (·.label)) = some bb.label ∨
        is_reachable fn bb = false) →
      List.lookup bb.label (mergeState fn).labelMap = none := by
  intro bb hbb hcond
  cases hl : List.lookup bb.label (mergeState fn).labelMap with
  | none => rfl
  | some k =>
    exfalso
    have hmem := lookup_mem hl
    obtain ⟨bb', hbb', h1, helig, -⟩ := lm_mem_elig fn hnd (bb.label, k) hmem
    have heq : bb' = bb := List.inj_on_of_nodup_map hnd hbb' hbb h1
    subst heq
    obtain ⟨he1, he2, he3⟩ := helig
    rcases hcond with hc | hc | hc
    · rw [hc] at he3
      cases he3
    · exact he1 hc
    · rw [he2] at hc
      cases hc

theorem lm_value_not_removed (fn : Fn) (hnd : (fn.blocks.map (·.label)).Nodup)
    (l k : String) (h : List.lookup l (mergeState fn).labelMap = some k) :
    List.lookup k (mergeState fn).labelMap = none := by
  obtain ⟨bb, hbb, h1, helig, sig, hsig, keeper, hkeeper, hk1, hk2, hk3⟩ :=
    lm_mem_elig fn hnd (l, k) (lookup_mem h)
  rw [hk1] at hk3
  exact hk3

theorem no_dangling_refs (fn : Fn) (ds : List String)
    (hnd : (fn.blocks.map (·.label)).Nodup) :
    (∀ bb ∈ (tail_merge fn ds).1.blocks, ∀ i ∈ bb.insts, ∀ l : String,
      Operand.label l ∈ i.operands →
      List.lookup l (mergeState fn).labelMap = none) ∧
    (∀ l ∈ (tail_merge fn ds).2, List.lookup l (mergeState fn).labelMap = none) := by
  unfold tail_merge
  by_cases hlm : (mergeState fn).labelMap = []
  · rw [if_pos hlm]
    constructor
    · intro bb hbb i hi l hop
      rw [hlm]
      rfl
    · intro l hl
      rw [hlm]
      rfl
  · rw [if_neg hlm]
    constructor
    · intro bb hbb i hi l hop
      dsimp only at hbb
      rcases List.mem_map.mp hbb with ⟨bb0, hbb0, rfl⟩
      unfold replaceLabelsBB at hi
      dsimp only at hi
      rcases List.mem_map.mp hi with ⟨i0, hi0, rfl⟩
      unfold replaceLabelsInst at hop
      dsimp only at hop
      rcases List.mem_map.mp hop with ⟨op0, hop0, hrep⟩
      cases op0 with
      | var v => simp [replaceLabelOp] at hrep
      | lit n => simp [replaceLabelOp] at hrep
      | label l0 =>
        simp only [replaceLabelOp] at hrep
        cases hlk : List.lookup l0 (mergeState fn).labelMap with
        | some k =>
          rw [hlk] at hrep
          cases hrep
          exact lm_value_not_removed fn hnd l0 _ hlk
        | none =>
          rw [hlk] at hrep
          cases hrep
          exact hlk
    · intro l hl
      dsimp only at hl
      rcases List.mem_map.mp hl with ⟨l0, hl0, hrep⟩
      cases hlk : List.lookup l0 (mergeState fn).labelMap with
      | some k =>
        rw [hlk] at hrep
        subst hrep
        exact lm_value_not_removed fn hnd l0 _ hlk
      | none =>
        rw [hlk] at hrep
        subst hrep
        exact hlk

end TailMerge

namespace TailMerge
open Venom

/-- The three-identical-revert-blocks function of
`test_merge_three_identical_blocks` (internal operand order). -/
def threeRevertFn : Fn :=
  ⟨"main_fn",
   [⟨"main",
     [⟨"source", [], some "%c1"⟩,
      ⟨"jnz", [.var "%c1", .label "block_a", .label "dispatch"], none⟩]⟩,
    ⟨"dispatch",
     [⟨"source", [], some "%c2"⟩,
      ⟨"jnz", [.var "%c2", .label "block_b", .label "block_c"], none⟩]⟩,
    ⟨"block_a", [⟨"revert", [.lit 0, .lit 0], none⟩]⟩,
    ⟨"block_b", [⟨"revert", [.lit 0, .lit 0], none⟩]⟩,
    ⟨"block_c", [⟨"revert", [.lit 0, .lit 0], none⟩]⟩],
   none, none, []⟩

/-- The expected result: a single surviving revert block, every branch site
and the data-segment reference retargeted to it. -/
def threeRevertMergedFn : Fn :=
  ⟨"main_fn",
   [⟨"main",
     [⟨"source", [], some "%c1"⟩,
      ⟨"jnz", [.var "%c1", .label "block_a", .label "dispatch"], none⟩]⟩,
    ⟨"dispatch",
     [⟨"source", [], some "%c2"⟩,
      ⟨"jnz", [.var "%c2", .label "block_a", .label "block_a"], none⟩]⟩,
    ⟨"block_a", [⟨"revert", [.lit 0, .lit 0], none⟩]⟩],
   none, none, []⟩

/-- C7: tail merging (i) removes only reachable, non-entry blocks with a
valid canonical signature, and each removed block has a surviving keeper
with the identical signature to which its label is remapped; (ii) a block
whose signature is rejected (phi, non-local input, non-halting — a phi
anywhere forces rejection), the entry block, and unreachable blocks are
never merged; (iii) after the rewrite no instruction operand and no
data-segment reference names a removed block; (iv) merging three
structurally identical blocks leaves exactly one survivor referenced from
every original branch site and the data segment. -/
theorem tail_merge_correct :
    (∀ fn : Fn, (fn.blocks.map (·.label)).Nodup →
      ∀ e ∈ (mergeState fn).labelMap,
        ∃ bb ∈ fn.blocks, bb.label = e.1 ∧ eligible fn bb ∧
          ∃ sig, block_signature bb = some sig ∧
            ∃ keeper ∈ fn.blocks, keeper.label = e.2 ∧
              block_signature keeper = some sig ∧
              List.lookup keeper.label (mergeState fn).labelMap = none) ∧
    (∀ fn : Fn, (fn.blocks.map (·.label)).Nodup →
      ∀ bb ∈ fn.blocks,
        (block_signature bb = none ∨
          (fn.blocks.head?.map (·.label)) = some bb.label ∨
          is_reachable fn bb = false) →
        List.lookup bb.label (mergeState fn).labelMap = none) ∧
    (∀ (bb : BasicBlock), (bb.insts.any fun i => i.opcode = "phi") = true →
      block_signature bb = none) ∧
    (∀ (fn : Fn) (ds : List String), (fn.blocks.map (·.label)).Nodup →
      (∀ bb ∈ (tail_merge fn ds).1.blocks, ∀ i ∈ bb.insts, ∀ l : String,
        Operand.label l ∈ i.operands →
        List.lookup l (mergeState fn).labelMap = none) ∧
      (∀ l ∈ (tail_merge fn ds).2, List.lookup l (mergeState fn).labelMap = none)) ∧
    tail_merge threeRevertFn ["block_b"] = (threeRevertMergedFn, ["block_a"]) := by
  refine ⟨lm_mem_elig, protected_blocks_survive, ?_, no_dangling_refs, ?_⟩
  · intro bb hphi
    unfold block_signature
    by_cases hh : is_halting bb = true
    · rw [if_neg (not_not_intro hh)]
      rw [localsOK_phi_false bb.insts [] hphi]
      rfl
    · rw [if_pos (by simpa using hh)]
  · decide

/-- C7 (witness): the general clauses applied to the concrete three-block
function. -/
theorem tail_merge_correct_witness :
    (∀ e ∈ (mergeState threeRevertFn).labelMap,
      ∃ bb ∈ threeRevertFn.blocks, bb.label = e.1 ∧ eligible threeRevertFn bb ∧
        ∃ sig, block_signature bb = some sig ∧
          ∃ keeper ∈ threeRevertFn.blocks, keeper.label = e.2 ∧
            block_signature keeper = some sig ∧
            List.lookup keeper.label (mergeState threeRevertFn).labelMap = none) ∧
    (∀ bb ∈ threeRevertFn.blocks,
      (block_signature bb = none ∨
        (threeRevertFn.blocks.head?.map (·.label)) = some bb.label ∨
        is_reachable threeRevertFn bb = false) →
      List.lookup bb.label (mergeState threeRevertFn).labelMap = none) ∧
    (∀ bb ∈ (tail_merge threeRevertFn ["block_b"]).1.blocks, ∀ i ∈ bb.insts,
      ∀ l : String, Operand.label l ∈ i.operands →
      List.lookup l (mergeState threeRevertFn).labelMap = none) :=
  ⟨tail_merge_correct.1 threeRevertFn (by decide),
   tail_merge_correct.2.1 threeRevertFn (by decide),
   (tail_merge_correct.2.2.2.1 threeRevertFn ["block_b"] (by decide)).1⟩

end TailMerge

namespace CopyFwd
open Venom

/-- Instruction positions (block index, instruction index): the embedding
of Python object identity for instructions. -/
def InstPos := Nat × Nat

instance : DecidableEq InstPos := by unfold InstPos; infer_instance

/-- All instructions with their positions, in block order. -/
def instsWithPos (fn : Fn) : List (InstPos × Inst) :=
  (fn.blocks.enum.flatMap fun bi =>
    bi.2.insts.enum.map fun ii => ((bi.1, ii.1), ii.2))

/-- The instruction at a position. -/
def instAt (fn : Fn) (p : InstPos) : Option Inst :=
  match fn.blocks.get? p.1 with
  | some bb => bb.insts.get? p.2
  | none => none

/-- `dfg.get_uses`: the instructions (with positions) having the variable
among their operands. -/
def getUses (fn : Fn) (v : String) : List (InstPos × Inst) :=
  (instsWithPos fn).filter fun pi => pi.2.operands.any (· = .var v)

/-- `_assign_root_var`: follow `assign` chains to the defining root
(bounded by the instruction count; SSA chains are acyclic in practice). -/
def assign_root_var (fn : Fn) : Nat → String → String
  | 0, v => v
  | fuel + 1, v =>
    match fn.producing v with
    | some inst =>
      if inst.opcode = "assign" then
        match inst.operands.get? 0 with
        | some (.var parent) => assign_root_var fn fuel parent
        | _ => v
      else v
    | none => v

def assignRootVar (fn : Fn) (v : String) : String :=
  assign_root_var fn (fn.allInsts.length + 1) v

/-- `_assign_root` on an arbitrary operand. -/
def assignRoot (fn : Fn) (op : Operand) : Operand :=
  match op with
  | .var v => .var (assignRootVar fn v)
  | _ => op

/-- One round of the `_collect_assign_aliases` worklist: add the outputs of
`assign` uses of current members. -/
def aliasAdds (fn : Fn) (s : List String) : List String :=
  ((s.flatMap fun v =>
    (getUses fn v).filterMap fun pu =>
      if pu.2.opcode = "assign" then pu.2.output else none).filter (· ∉ s)).dedup

def collectAliasesN (fn : Fn) : Nat → List String → List String
  | 0, s => s
  | k + 1, s =>
    let adds := aliasAdds fn s
    if adds = [] then s else collectAliasesN fn k (s ++ adds)

/-- `_collect_assign_aliases`: the transitive assign-alias closure of a
root (the fuel bound covers every possible addition). -/
def collect_assign_aliases (fn : Fn) (root : String) : List String :=
  collectAliasesN fn (fn.allInsts.length + 1) [root]

/-- `_iter_alias_use_positions`: every (alias, use, operand position)
triple. -/
def aliasUsePositions (fn : Fn) (aliases : List String) :
    List (String × InstPos × Inst × Nat) :=
  aliases.flatMap fun v =>
    (getUses fn v).flatMap fun pu =>
      pu.2.operands.enum.filterMap fun io =>
        if io.2 = .var v then some (v, pu.1, pu.2, io.1) else none

/-- `_is_assign_output_use`. -/
def is_assign_output_use (use : Inst) (pos : Nat) : Bool :=
  use.opcode = "assign" && pos = 0

/-- `_get_invoke_callee`. -/
def get_invoke_callee (ctx : Ctx) (invokeInst : Inst) : Option Fn :=
  match invokeInst.operands.get? 0 with
  | some (.label target) => ctx.findFn target
  | _ => none

/-- `_is_readonly_invoke_operand`. -/
def is_readonly_invoke_operand (ctx : Ctx) (invokeInst : Inst) (operandIdx : Nat) : Bool :=
  if operandIdx = 0 then false
  else
    match get_invoke_callee ctx invokeInst with
    | none => false
    | some callee => (operandIdx - 1) ∈ callee.readonly_memory_invoke_arg_idxs

/-- `_invoke_has_return_buffer`. -/
def invoke_has_return_buffer (ctx : Ctx) (invokeInst : Inst) : Bool :=
  match get_invoke_callee ctx invokeInst with
  | none => false
  | some callee =>
    match callee.invoke_param_count, callee.has_memory_return_buffer_param with
    | some c, some b => (invokeInst.operands.length - 1 = c) && b
    | _, _ => false

/-- `_is_alloca_like`. -/
def is_alloca_like (inst : Option Inst) : Bool :=
  match inst with
  | some i => i.opcode = "alloca" || i.opcode = "calloca"
  | none => false

/-- `_matches_alloca_size`. -/
def matches_alloca_size (inst : Inst) (expected : Int) : Bool :=
  match inst.operands.get? 0 with
  | some (.lit n) => n = expected
  | _ => false

end CopyFwd

namespace CopyFwd
open Venom

/-- Modelled from the spec: §3 — a memory location is an
allocation-site-relative (`base = some root`) or absolute (`base = none`)
byte offset with an optional size; `unknown` is the conservative
whole-memory location, `empty` reads/writes nothing.  (`MemoryLocation` /
`BasePtrAnalysis` / `MemoryAliasAnalysis` are outside the excerpt.) -/
inductive MLoc where
  | empty
  | unknown
  | loc (base : Option String) (ofst : Int) (size : Option Int)
deriving DecidableEq, Repr

/-- Modelled from the spec: `ptr_from_op` — resolve an operand to an
(allocation-site, offset) pair: literals are absolute addresses, variables
whose assign-root is an `alloca`/`calloca` are site-relative; anything else
has unknown pointer shape. -/
def ptr_from_op (fn : Fn) (op : Operand) : Option (Option String × Int) :=
  match op with
  | .lit n => some (none, n)
  | .var v =>
    let root := assignRootVar fn v
    match fn.producing root with
    | some inst =>
      if inst.opcode = "alloca" || inst.opcode = "calloca" then some (some root, 0)
      else none
    | none => none
  | .label _ => none

/-- Modelled from the spec: `may_alias` — distinct allocation sites are
disjoint symbolic regions; unknown extent or mixed absolute/relative bases
are conservatively aliasing; ranges on the same base must overlap. -/
def may_alias : MLoc → MLoc → Bool
  | .empty, _ => false
  | _, .empty => false
  | .unknown, _ => true
  | _, .unknown => true
  | .loc b1 o1 s1, .loc b2 o2 s2 =>
    match b1, b2 with
    | some r1, some r2 =>
      if r1 = r2 then
        match s1, s2 with
        | some n1, some n2 => decide (o1 < o2 + n2) && decide (o2 < o1 + n1)
        | _, _ => true
      else false
    | none, none =>
      match s1, s2 with
      | some n1, some n2 => decide (o1 < o2 + n2) && decide (o2 < o1 + n1)
      | _, _ => true
    | _, _ => true

/-- The literal size operand of a copy instruction, when statically
known. -/
def litSize (op : Option Operand) : Option Int :=
  match op with
  | some (.lit n) => some n
  | _ => none

/-- Modelled from the spec: `base_ptr.get_read_location(inst, MEMORY)` as
used here — the source location of an `mcopy` (the only caller in these
passes applies it to the staged copy). -/
def get_read_location (fn : Fn) (inst : Inst) : MLoc :=
  if inst.opcode = "mcopy" then
    match inst.operands.get? 1 with
    | some srcOp =>
      match ptr_from_op fn srcOp with
      | some (b, o) => .loc b o (litSize (inst.operands.get? 0))
      | none => .unknown
    | none => .unknown
  else .empty

/-- Modelled from the spec: opcodes with a MEMORY write effect
(`get_write_effects() & Effects.MEMORY`). -/
def memWrites (i : Inst) : Bool :=
  i.opcode = "mstore" || i.opcode = "mcopy" || i.opcode = "calldatacopy"
    || i.opcode = "returndatacopy" || i.opcode = "codecopy"
    || i.opcode = "extcodecopy" || i.opcode = "mstore8"
    || i.opcode = "call" || i.opcode = "delegatecall" || i.opcode = "staticcall"
    || i.opcode = "create" || i.opcode = "create2" || i.opcode = "invoke"

/-- Modelled from the spec: `base_ptr.get_write_location(inst, MEMORY)` —
the written location of the store/copy opcodes, conservative `unknown`
for any other memory-writing instruction. -/
def get_write_location (fn : Fn) (inst : Inst) : MLoc :=
  if inst.opcode = "mstore" then
    match inst.operands.get? 1 with
    | some ptrOp =>
      match ptr_from_op fn ptrOp with
      | some (b, o) => .loc b o (some 32)
      | none => .unknown
    | none => .unknown
  else if inst.opcode = "mcopy" || inst.opcode = "calldatacopy"
      || inst.opcode = "returndatacopy" || inst.opcode = "codecopy" then
    match inst.operands.get? 2 with
    | some ptrOp =>
      match ptr_from_op fn ptrOp with
      | some (b, o) => .loc b o (litSize (inst.operands.get? 0))
      | none => .unknown
    | none => .unknown
  else .unknown

/-- The instructions of a block strictly between two indices
(`bb_insts[i+1 : j]`). -/
def instsBetween (fn : Fn) (blockIdx lo hi : Nat) : List Inst :=
  match fn.blocks.get? blockIdx with
  | some bb => (bb.insts.drop (lo + 1)).take (hi - (lo + 1))
  | none => []

/-- `_has_src_clobber_between`: an instruction between the copy and a
rewritten invoke writes a location that may alias the copy's source. -/
def has_src_clobber_between (fn : Fn) (copyPos : InstPos) (copyInst : Inst)
    (sites : List (InstPos × Nat)) : Bool :=
  let src_loc := get_read_location fn copyInst
  if src_loc = .empty then false
  else
    sites.any fun site =>
      (instsBetween fn copyPos.1 copyPos.2 site.1.2).any fun inst =>
        memWrites inst && may_alias src_loc (get_write_location fn inst)

end CopyFwd

namespace CopyFwd
open Venom

/-- The use-classification loop of `_try_forward_readonly_copy`: every
alias use must be an assign-output, the defining copy itself (at the
destination position), or a readonly invoke-parameter position (collected
as a rewrite site); anything else aborts. -/
def classifyUses (ctx : Ctx) (copyPos : InstPos) :
    List (String × InstPos × Inst × Nat) → Option (List (InstPos × Nat))
  | [] => some []
  | (_, pos, use, opIdx) :: rest =>
    if is_assign_output_use use opIdx then classifyUses ctx copyPos rest
    else if use.opcode = "mcopy" && opIdx = 2 then
      if pos = copyPos then classifyUses ctx copyPos rest else none
    else if use.opcode = "invoke" && is_readonly_invoke_operand ctx use opIdx then
      (classifyUses ctx copyPos rest).map fun sites => (pos, opIdx) :: sites
    else none

/-- `_has_mutable_same_source_sibling_arg`. -/
def has_mutable_same_source_sibling (ctx : Ctx) (fn : Fn)
    (sites : List (InstPos × Nat)) (srcRoot : String) : Bool :=
  sites.any fun site =>
    match instAt fn site.1 with
    | some invokeInst =>
      invokeInst.operands.enum.any fun po =>
        if po.1 = 0 || po.1 = site.2 then false
        else if is_readonly_invoke_operand ctx invokeInst po.1 then false
        else assignRoot fn po.2 = .var srcRoot
    | none => false

/-- The check phase of `_try_forward_readonly_copy` (every guard before the
first mutation, in source order); `none` is `return False`. -/
def readonly_forward_plan (ctx : Ctx) (fn : Fn) (copyPos : InstPos) :
    Option (List (InstPos × Nat) × Operand) :=
  match instAt fn copyPos with
  | none => none
  | some copyInst =>
    if copyInst.opcode ≠ "mcopy" then none
    else
      match copyInst.operands.get? 2 with
      | some (.var dstv) =>
        let root := assignRootVar fn dstv
        if ¬ is_alloca_like (fn.producing root) then none
        else
          let aliases := collect_assign_aliases fn root
          match classifyUses ctx copyPos (aliasUsePositions fn aliases) with
          | none => none
          | some sites =>
            if sites = [] then none
            else if ¬ sites.all (fun s =>
                s.1.1 = copyPos.1 && decide (copyPos.2 ≤ s.1.2)) then none
            else if has_src_clobber_between fn copyPos copyInst sites then none
            else
              match copyInst.operands.get? 1 with
              | none => none
              | some srcOp =>
                let src := assignRoot fn srcOp
                if (match src with
                    | .var sv => decide (sv ∈ aliases)
                    | _ => false) then none
                else if (match src with
                    | .var sv => has_mutable_same_source_sibling ctx fn sites sv
                    | _ => false) then none
                else some (sites, src)
      | _ => none

/-- Replace the instruction at a position (out-of-range positions leave
the function unchanged, as they cannot occur). -/
def setInstAt (fn : Fn) (p : InstPos) (newInst : Inst) : Fn :=
  match fn.blocks.get? p.1 with
  | some bb =>
    { fn with blocks := fn.blocks.set p.1 { bb with insts := bb.insts.set p.2 newInst } }
  | none => fn

def setOperand (i : Inst) (idx : Nat) (newOp : Operand) : Inst :=
  { i with operands := i.operands.set idx newOp }

/-- One rewrite of the mutation loop: set the matched operand to the
source (skipping the update when it already equals it, as the source
does). -/
def applySite (fn : Fn) (src : Operand) (site : InstPos × Nat) : Fn :=
  match instAt fn site.1 with
  | some inst =>
    if inst.operands.get? site.2 = some src then fn
    else setInstAt fn site.1 (setOperand inst site.2 src)
  | none => fn

/-- `updater.nop`. -/
def nopInst : Inst := ⟨"nop", [], none⟩

/-- The mutation phase: rewrite every matched invoke operand, then nop the
copy. -/
def readonly_forward_apply (fn : Fn) (sites : List (InstPos × Nat))
    (src : Operand) (copyPos : InstPos) : Fn :=
  setInstAt (sites.foldl (fun f s => applySite f src s) fn) copyPos nopInst

/-- `ReadonlyInvokeArgCopyForwardingPass._try_forward_readonly_copy`:
checks first, mutation only when every precondition holds. -/
def try_forward_readonly_copy (ctx : Ctx) (fn : Fn) (copyPos : InstPos) :
    Fn × Bool :=
  match readonly_forward_plan ctx fn copyPos with
  | none => (fn, false)
  | some (sites, src) => (readonly_forward_apply fn sites src copyPos, true)

end CopyFwd

namespace CopyFwd
open Venom

/-- The use scan of `_is_internal_return_buffer_source`: collects whether
the defining copy was seen and the invoke sites filling the buffer; any
other use aborts. -/
def srcUseScan (ctx : Ctx) (copyPos : InstPos) :
    List (String × InstPos × Inst × Nat) → Option (Bool × List InstPos)
  | [] => some (false, [])
  | (_, pos, use, opIdx) :: rest =>
    if is_assign_output_use use opIdx then srcUseScan ctx copyPos rest
    else if use.opcode = "mcopy" && opIdx = 1 && pos = copyPos then
      (srcUseScan ctx copyPos rest).map fun r => (true, r.2)
    else if use.opcode = "invoke" && opIdx = 1 then
      if pos.1 ≠ copyPos.1 then none
      else if copyPos.2 ≤ pos.2 then none
      else if ¬ invoke_has_return_buffer ctx use then none
      else (srcUseScan ctx copyPos rest).map fun r => (r.1, pos :: r.2)
    else none

/-- `_is_internal_return_buffer_source`. -/
def is_internal_return_buffer_source (ctx : Ctx) (fn : Fn) (srcRoot : String)
    (copyPos : InstPos) : Bool :=
  match srcUseScan ctx copyPos
      (aliasUsePositions fn (collect_assign_aliases fn srcRoot)) with
  | some (copySeen, sites) => copySeen && sites.length = 1
  | none => false

/-- The use scan over the destination aliases: assign-outputs and the copy
itself are skipped, phis and uses outside the copy's block or not after
the copy abort, everything else is collected for rewriting. -/
def dstUseScan (copyPos : InstPos) :
    List (String × InstPos × Inst × Nat) → Option (List InstPos)
  | [] => some []
  | (_, pos, use, opIdx) :: rest =>
    if is_assign_output_use use opIdx then dstUseScan copyPos rest
    else if use.opcode = "mcopy" && opIdx = 2 && pos = copyPos then
      dstUseScan copyPos rest
    else if use.opcode = "phi" then none
    else if pos.1 ≠ copyPos.1 then none
    else if ¬ (copyPos.2 < pos.2) then none
    else (dstUseScan copyPos rest).map (pos :: ·)

/-- `_invoke_operand_may_write`. -/
def invoke_operand_may_write (ctx : Ctx) (invokeInst : Inst) (pos : Nat) : Bool :=
  if pos = 1 && invoke_has_return_buffer ctx invokeInst then true
  else ¬ is_readonly_invoke_operand ctx invokeInst pos

/-- `_invoke_may_clobber_src`: per writable operand, unknown pointer shape
conservatively clobbers. -/
def invoke_may_clobber_src (ctx : Ctx) (fn : Fn) (invokeInst : Inst)
    (srcLoc : MLoc) : Bool :=
  invokeInst.operands.enum.any fun po =>
    if po.1 = 0 then false
    else if ¬ invoke_operand_may_write ctx invokeInst po.1 then false
    else
      match po.2 with
      | .var _ =>
        match ptr_from_op fn po.2 with
        | none => true
        | some (b, o) => may_alias srcLoc (.loc b o none)
      | _ => false

/-- The clobber scan between the copy and the last rewritten use
(`bb_insts[copy_idx + 1 : last_use_idx]`), with the per-operand invoke
check. -/
def internal_clobber_between (ctx : Ctx) (fn : Fn) (copyPos : InstPos)
    (srcLoc : MLoc) (lastUseIdx : Nat) : Bool :=
  (instsBetween fn copyPos.1 copyPos.2 lastUseIdx).any fun inst =>
    if inst.opcode = "invoke" then invoke_may_clobber_src ctx fn inst srcLoc
    else memWrites inst && may_alias srcLoc (get_write_location fn inst)

/-- The check phase of
`InternalReturnCopyForwardingPass._try_forward_internal_return_copy`. -/
def internal_return_plan (ctx : Ctx) (fn : Fn) (copyPos : InstPos) :
    Option (List String × String × List InstPos) :=
  match instAt fn copyPos with
  | none => none
  | some copyInst =>
    if copyInst.opcode ≠ "mcopy" then none
    else
      match copyInst.operands.get? 2, copyInst.operands.get? 1,
          copyInst.operands.get? 0 with
      | some (.var dstv), some (.var srcv), some (.lit size) =>
        let dst_root := assignRootVar fn dstv
        let src_root := assignRootVar fn srcv
        if dst_root = src_root then none
        else if ¬ (is_alloca_like (fn.producing dst_root)
            && is_alloca_like (fn.producing src_root)) then none
        else
          match fn.producing dst_root, fn.producing src_root with
          | some dri, some sri =>
            if ¬ matches_alloca_size dri size then none
            else if ¬ matches_alloca_size sri size then none
            else if ¬ is_internal_return_buffer_source ctx fn src_root copyPos then none
            else
              let dst_aliases := collect_assign_aliases fn dst_root
              match dstUseScan copyPos (aliasUsePositions fn dst_aliases) with
              | none => none
              | some rewrites =>
                if rewrites = [] then some (dst_aliases, src_root, [])
                else
                  let lastIdx := (rewrites.map (·.2)).foldr max 0
                  let srcLoc := get_read_location fn copyInst
                  if srcLoc = .empty then none
                  else if internal_clobber_between ctx fn copyPos srcLoc lastIdx then none
                  else some (dst_aliases, src_root, rewrites)
          | _, _ => none
      | _, _, _ => none

/-- One application of `updater.update_operands(use, replace_map)`: every
operand that is a destination alias becomes the return-buffer root. -/
def applyReplaceAt (fn : Fn) (aliases : List String) (srcRoot : String)
    (p : InstPos) : Fn :=
  match instAt fn p with
  | some inst =>
    setInstAt fn p
      { inst with operands := inst.operands.map fun op =>
          match op with
          | .var v => if v ∈ aliases then .var srcRoot else op
          | _ => op }
  | none => fn

/-- `InternalReturnCopyForwardingPass._try_forward_internal_return_copy`:
checks first, mutation (operand retargeting plus nopping the copy) only
when every precondition holds. -/
def try_forward_internal_return_copy (ctx : Ctx) (fn : Fn) (copyPos : InstPos) :
    Fn × Bool :=
  match internal_return_plan ctx fn copyPos with
  | none => (fn, false)
  | some (aliases, srcRoot, rewrites) =>
    (setInstAt (rewrites.foldl (fun f p => applyReplaceAt f aliases srcRoot p) fn)
      copyPos nopInst, true)

end CopyFwd

namespace CopyFwd
open Venom

/-- The callee of the readonly-forwarding tests: one readonly memory
parameter. -/
def roCallee : Fn :=
  ⟨"callee",
   [⟨"callee",
     [⟨"param", [], some "%arg"⟩,
      ⟨"param", [], some "%retpc"⟩,
      ⟨"mload", [.var "%arg"], some "%v"⟩,
      ⟨"ret", [.var "%retpc"], none⟩]⟩],
   none, none, [0]⟩

/-- `test_readonly_forwarding_rejects_src_clobber_before_invoke`: the
source is mutated between the staged copy and the call. -/
def clobberCaller : Fn :=
  ⟨"caller",
   [⟨"caller",
     [⟨"alloca", [.lit 64], some "%src"⟩,
      ⟨"alloca", [.lit 64], some "%tmp"⟩,
      ⟨"mcopy", [.lit 64, .var "%src", .var "%tmp"], none⟩,
      ⟨"mstore", [.lit 1, .var "%src"], none⟩,
      ⟨"invoke", [.label "callee", .var "%tmp"], none⟩,
      ⟨"stop", [], none⟩]⟩],
   none, none, []⟩

def clobberCtx : Ctx := ⟨[clobberCaller, roCallee], []⟩

/-- `test_readonly_forwarding_still_applies_without_src_clobber`. -/
def cleanCaller : Fn :=
  ⟨"caller",
   [⟨"caller",
     [⟨"alloca", [.lit 64], some "%src"⟩,
      ⟨"alloca", [.lit 64], some "%tmp"⟩,
      ⟨"mcopy", [.lit 64, .var "%src", .var "%tmp"], none⟩,
      ⟨"invoke", [.label "callee", .var "%tmp"], none⟩,
      ⟨"stop", [], none⟩]⟩],
   none, none, []⟩

def cleanCtx : Ctx := ⟨[cleanCaller, roCallee], []⟩

/-- The expected rewrite of `cleanCaller`: the invoke reads the source
directly and the copy is nopped. -/
def cleanCallerAfter : Fn :=
  ⟨"caller",
   [⟨"caller",
     [⟨"alloca", [.lit 64], some "%src"⟩,
      ⟨"alloca", [.lit 64], some "%tmp"⟩,
      ⟨"nop", [], none⟩,
      ⟨"invoke", [.label "callee", .var "%src"], none⟩,
      ⟨"stop", [], none⟩]⟩],
   none, none, []⟩

/-- A callee with a readonly first and a mutable second parameter. -/
def mixedCallee : Fn :=
  ⟨"callee",
   [⟨"callee",
     [⟨"param", [], some "%arg_ro"⟩,
      ⟨"param", [], some "%arg_rw"⟩,
      ⟨"param", [], some "%retpc"⟩,
      ⟨"mstore", [.lit 1, .var "%arg_rw"], none⟩,
      ⟨"mload", [.var "%arg_ro"], some "%v"⟩,
      ⟨"ret", [.var "%retpc"], none⟩]⟩],
   none, none, [0]⟩

/-- `test_readonly_forwarding_rejects_same_source_mutable_sibling_arg`. -/
def siblingCaller : Fn :=
  ⟨"caller",
   [⟨"caller",
     [⟨"alloca", [.lit 32], some "%src"⟩,
      ⟨"alloca", [.lit 32], some "%tmp"⟩,
      ⟨"mcopy", [.lit 32, .var "%src", .var "%tmp"], none⟩,
      ⟨"invoke", [.label "callee", .var "%tmp", .var "%src"], none⟩,
      ⟨"stop", [], none⟩]⟩],
   none, none, []⟩

def siblingCtx : Ctx := ⟨[siblingCaller, mixedCallee], []⟩

/-- The return-buffer callee of the internal-return tests. -/
def retBufCallee : Fn :=
  ⟨"callee",
   [⟨"callee",
     [⟨"param", [], some "%retbuf"⟩,
      ⟨"param", [], some "%retpc"⟩,
      ⟨"mstore", [.lit 7, .var "%retbuf"], none⟩,
      ⟨"ret", [.var "%retpc"], none⟩]⟩],
   some 1, some true, []⟩

/-- `test_internal_return_forwarding_still_applies_without_src_clobber`. -/
def retCaller : Fn :=
  ⟨"caller",
   [⟨"caller",
     [⟨"alloca", [.lit 32], some "%src"⟩,
      ⟨"alloca", [.lit 32], some "%dst"⟩,
      ⟨"invoke", [.label "callee", .var "%src"], none⟩,
      ⟨"mcopy", [.lit 32, .var "%src", .var "%dst"], none⟩,
      ⟨"mload", [.var "%dst"], some "%v"⟩,
      ⟨"sink", [.var "%v"], none⟩]⟩],
   none, none, []⟩

def retCtx : Ctx := ⟨[retCaller, retBufCallee], []⟩

/-- The expected rewrite of `retCaller`: the load reads the return buffer
directly and the copy is nopped. -/
def retCallerAfter : Fn :=
  ⟨"caller",
   [⟨"caller",
     [⟨"alloca", [.lit 32], some "%src"⟩,
      ⟨"alloca", [.lit 32], some "%dst"⟩,
      ⟨"invoke", [.label "callee", .var "%src"], none⟩,
      ⟨"nop", [], none⟩,
      ⟨"mload", [.var "%src"], some "%v"⟩,
      ⟨"sink", [.var "%v"], none⟩]⟩],
   none, none, []⟩

end CopyFwd

namespace CopyFwd
open Venom

/-- C9: both copy-forwarding passes are atomic per attempted
transformation — whenever `_try_forward_readonly_copy` or
`_try_forward_internal_return_copy` reports no change (returns `false`),
the function's IR is returned completely untouched; every mutation is
performed only after the full check phase (the plan) has succeeded. -/
theorem copy_forwarding_atomic (ctx : Ctx) (fn : Fn) (p : InstPos) :
    ((try_forward_readonly_copy ctx fn p).2 = false →
      (try_forward_readonly_copy ctx fn p).1 = fn)
    ∧ ((try_forward_internal_return_copy ctx fn p).2 = false →
      (try_forward_internal_return_copy ctx fn p).1 = fn)
    ∧ ((try_forward_readonly_copy ctx fn p).2 = true →
      (readonly_forward_plan ctx fn p).isSome)
    ∧ ((try_forward_internal_return_copy ctx fn p).2 = true →
      (internal_return_plan ctx fn p).isSome) := by
  refine ⟨?_, ?_, ?_, ?_⟩
  · intro h
    unfold try_forward_readonly_copy at *
    cases hp : readonly_forward_plan ctx fn p with
    | none => rfl
    | some v => rw [hp] at h; simp at h
  · intro h
    unfold try_forward_internal_return_copy at *
    cases hp : internal_return_plan ctx fn p with
    | none => rfl
    | some v => obtain ⟨a, b, c⟩ := v; rw [hp] at h; simp at h
  · intro h
    unfold try_forward_readonly_copy at h
    cases hp : readonly_forward_plan ctx fn p with
    | none => rw [hp] at h; simp at h
    | some v => rfl
  · intro h
    unfold try_forward_internal_return_copy at h
    cases hp : internal_return_plan ctx fn p with
    | none => rw [hp] at h; simp at h
    | some v => rfl

/-- Witness for C9: the source-clobbered readonly test program and a
non-`mcopy` position for the internal pass are both reported unchanged,
and the theorem recovers the untouched IR. -/
theorem copy_forwarding_atomic_witness :
    (try_forward_readonly_copy clobberCtx clobberCaller (0, 2)).2 = false
    ∧ (try_forward_readonly_copy clobberCtx clobberCaller (0, 2)).1 = clobberCaller
    ∧ (try_forward_internal_return_copy retCtx retCaller (0, 0)).2 = false
    ∧ (try_forward_internal_return_copy retCtx retCaller (0, 0)).1 = retCaller := by
  refine ⟨by decide, (copy_forwarding_atomic clobberCtx clobberCaller (0, 2)).1 (by decide),
    by decide, (copy_forwarding_atomic retCtx retCaller (0, 0)).2.1 (by decide)⟩

end CopyFwd

namespace CopyFwd
open Venom

/-- Following the claim's words (C5): an alias-use triple is acceptable
when it is an assign alias link, the defining copy's destination operand
itself, or a readonly invoke-parameter position in the same basic block at
or after the copy. -/
def claimUseOk (ctx : Ctx) (copyPos : InstPos)
    (t : String × InstPos × Inst × Nat) : Bool :=
  match t with
  | (_, pos, use, opIdx) =>
    is_assign_output_use use opIdx
    || (use.opcode = "mcopy" && opIdx = 2 && pos = copyPos)
    || (use.opcode = "invoke" && is_readonly_invoke_operand ctx use opIdx
        && pos.1 = copyPos.1 && decide (copyPos.2 ≤ pos.2))

/-- The readonly invoke-parameter use sites among the alias-use triples. -/
def siteOf (ctx : Ctx) (t : String × InstPos × Inst × Nat) :
    Option (InstPos × Nat) :=
  match t with
  | (_, pos, use, opIdx) =>
    if is_assign_output_use use opIdx then none
    else if use.opcode = "mcopy" && opIdx = 2 then none
    else if use.opcode = "invoke" && is_readonly_invoke_operand ctx use opIdx then
      some (pos, opIdx)
    else none

/-- The claim-side matched-invoke sites of a staged copy. -/
def claimSites (ctx : Ctx) (fn : Fn) (copyPos : InstPos) : List (InstPos × Nat) :=
  match instAt fn copyPos with
  | none => []
  | some copyInst =>
    match copyInst.operands.get? 2 with
    | some (.var dstv) =>
      (aliasUsePositions fn (collect_assign_aliases fn (assignRootVar fn dstv))).filterMap
        (siteOf ctx)
    | _ => []

/-- Following the claim's words (C5): the conjunction of the claim's
forwarding conditions — the instruction is a staged `mcopy` into an
`alloca`/`calloca`-rooted destination, every use of the destination
through its assign aliases is the defining copy's destination operand or a
readonly invoke-parameter position in the same block at or after the copy,
no instruction between the copy and a using invoke writes a location that
may alias the source, the source is not itself an alias of the
destination, and no rewritten invoke has a mutable sibling argument
sharing the source root. -/
def readonly_forward_conds (ctx : Ctx) (fn : Fn) (copyPos : InstPos) : Bool :=
  match instAt fn copyPos with
  | none => false
  | some copyInst =>
    copyInst.opcode = "mcopy"
    && (match copyInst.operands.get? 2 with
        | some (.var dstv) =>
          let root := assignRootVar fn dstv
          is_alloca_like (fn.producing root)
          && (let aliases := collect_assign_aliases fn root
              let uses := aliasUsePositions fn aliases
              let sites := uses.filterMap (siteOf ctx)
              uses.all (claimUseOk ctx copyPos)
              && !(has_src_clobber_between fn copyPos copyInst sites)
              && (match copyInst.operands.get? 1 with
                  | some srcOp =>
                    (match assignRoot fn srcOp with
                     | .var sv =>
                       decide (sv ∉ aliases)
                         && !(has_mutable_same_source_sibling ctx fn sites sv)
                     | _ => true)
                  | none => false))
        | _ => false)

/-- A staged copy whose destination has no invoke use at all: every claim
condition holds vacuously, yet the pass bails out on the empty rewrite-site
set. -/
def zeroInvokeCaller : Fn :=
  ⟨"caller",
   [⟨"caller",
     [⟨"alloca", [.lit 32], some "%src"⟩,
      ⟨"alloca", [.lit 32], some "%tmp"⟩,
      ⟨"mcopy", [.lit 32, .var "%src", .var "%tmp"], none⟩,
      ⟨"stop", [], none⟩]⟩],
   none, none, []⟩

def zeroInvokeCtx : Ctx := ⟨[zeroInvokeCaller], []⟩

end CopyFwd

namespace CopyFwd
open Venom

/-- The per-use acceptance test of the classification loop. -/
def useOkB (ctx : Ctx) (copyPos : InstPos)
    (t : String × InstPos × Inst × Nat) : Bool :=
  match t with
  | (_, pos, use, opIdx) =>
    if is_assign_output_use use opIdx then true
    else if use.opcode = "mcopy" && opIdx = 2 then decide (pos = copyPos)
    else use.opcode = "invoke" && is_readonly_invoke_operand ctx use opIdx

/-- The same-block/at-or-after test on a rewrite site. -/
def siteOrderOk (copyPos : InstPos) (s : InstPos × Nat) : Bool :=
  s.1.1 = copyPos.1 && decide (copyPos.2 ≤ s.1.2)

theorem classifyUses_eq (ctx : Ctx) (copyPos : InstPos)
    (l : List (String × InstPos × Inst × Nat)) :
    classifyUses ctx copyPos l =
      if l.all (useOkB ctx copyPos) then some (l.filterMap (siteOf ctx))
      else none := by
  induction l with
  | nil => rfl
  | cons t rest ih =>
    obtain ⟨v, pos, use, opIdx⟩ := t
    rw [List.all_cons, List.filterMap_cons]
    by_cases h1 : is_assign_output_use use opIdx = true
    · have hu : useOkB ctx copyPos (v, pos, use, opIdx) = true := by
        simp [useOkB, h1]
      have hs : siteOf ctx (v, pos, use, opIdx) = none := by
        simp [siteOf, h1]
      have hc : classifyUses ctx copyPos ((v, pos, use, opIdx) :: rest)
          = classifyUses ctx copyPos rest := by
        simp [classifyUses, h1]
      rw [hc, hu, hs, ih]
      cases hall : rest.all (useOkB ctx copyPos) <;> simp [hall]
    · rw [Bool.not_eq_true] at h1
      by_cases hM : use.opcode = "mcopy"
      · by_cases h2 : opIdx = 2
        · subst h2
          by_cases h3 : pos = copyPos
          · have hu : useOkB ctx copyPos (v, pos, use, 2) = true := by
              simp [useOkB, h1, hM, h3]
            have hs : siteOf ctx (v, pos, use, 2) = none := by
              simp [siteOf, h1, hM]
            have hc : classifyUses ctx copyPos ((v, pos, use, 2) :: rest)
                = classifyUses ctx copyPos rest := by
              simp [classifyUses, h1, hM, h3]
            rw [hc, hu, hs, ih]
            cases hall : rest.all (useOkB ctx copyPos) <;> simp [hall]
          · have hu : useOkB ctx copyPos (v, pos, use, 2) = false := by
              simp [useOkB, h1, hM, h3]
            have hc : classifyUses ctx copyPos ((v, pos, use, 2) :: rest)
                = none := by
              simp [classifyUses, h1, hM, h3]
            rw [hc, hu]
            simp
        · have hu : useOkB ctx copyPos (v, pos, use, opIdx) = false := by
            simp [useOkB, h1, hM, h2]
          have hc : classifyUses ctx copyPos ((v, pos, use, opIdx) :: rest)
              = none := by
            simp [classifyUses, h1, hM, h2]
          rw [hc, hu]
          simp
      · by_cases hI : use.opcode = "invoke"
        · by_cases hro : is_readonly_invoke_operand ctx use opIdx = true
          · have hu : useOkB ctx copyPos (v, pos, use, opIdx) = true := by
              simp [useOkB, h1, hM, hI, hro]
            have hs : siteOf ctx (v, pos, use, opIdx) = some (pos, opIdx) := by
              simp [siteOf, h1, hM, hI, hro]
            have hc : classifyUses ctx copyPos ((v, pos, use, opIdx) :: rest)
                = (classifyUses ctx copyPos rest).map
                    fun sites => (pos, opIdx) :: sites := by
              simp [classifyUses, h1, hM, hI, hro]
            rw [hc, hu, hs, ih]
            cases hall : rest.all (useOkB ctx copyPos) <;> simp
          · rw [Bool.not_eq_true] at hro
            have hu : useOkB ctx copyPos (v, pos, use, opIdx) = false := by
              simp [useOkB, h1, hM, hI, hro]
            have hc : classifyUses ctx copyPos ((v, pos, use, opIdx) :: rest)
                = none := by
              simp [classifyUses, h1, hM, hI, hro]
            rw [hc, hu]
            simp
        · have hu : useOkB ctx copyPos (v, pos, use, opIdx) = false := by
            simp [useOkB, h1, hM, hI]
          have hc : classifyUses ctx copyPos ((v, pos, use, opIdx) :: rest)
              = none := by
            simp [classifyUses, h1, hM, hI]
          rw [hc, hu]
          simp

theorem all_filterMap_eq {α β : Type} (f : α → Option β) (p : β → Bool)
    (l : List α) :
    (l.filterMap f).all p = l.all fun a => (f a).all p := by
  induction l with
  | nil => rfl
  | cons a l ih =>
    simp only [List.filterMap_cons]
    cases h : f a <;> simp [List.all_cons, h, ih, Option.all]

theorem claimUseOk_eq (ctx : Ctx) (copyPos : InstPos)
    (t : String × InstPos × Inst × Nat) :
    claimUseOk ctx copyPos t =
      (useOkB ctx copyPos t && (siteOf ctx t).all (siteOrderOk copyPos)) := by
  obtain ⟨v, pos, use, opIdx⟩ := t
  simp only [claimUseOk, useOkB, siteOf, siteOrderOk]
  by_cases h1 : is_assign_output_use use opIdx = true
  · simp [h1]
  · rw [Bool.not_eq_true] at h1
    by_cases hmc : use.opcode = "mcopy"
    · by_cases h2 : opIdx = 2
      · simp [h1, hmc, h2, Option.all]
      · simp [h1, hmc, h2, Option.all]
    · by_cases hin : use.opcode = "invoke"
      · by_cases hro : is_readonly_invoke_operand ctx use opIdx = true
        · simp [h1, hmc, hin, hro, Option.all, Bool.and_assoc, siteOrderOk]
        · rw [Bool.not_eq_true] at hro
          simp [h1, hmc, hin, hro, Option.all]
      · simp [h1, hmc, hin, Option.all]

theorem all_claimUseOk (ctx : Ctx) (copyPos : InstPos)
    (l : List (String × InstPos × Inst × Nat)) :
    l.all (claimUseOk ctx copyPos)
      = (l.all (useOkB ctx copyPos)
          && (l.filterMap (siteOf ctx)).all (siteOrderOk copyPos)) := by
  rw [all_filterMap_eq]
  rw [show claimUseOk ctx copyPos = fun t =>
      (useOkB ctx copyPos t && (siteOf ctx t).all (siteOrderOk copyPos)) from
    funext (claimUseOk_eq ctx copyPos)]
  induction l with
  | nil => rfl
  | cons a l ih =>
    simp only [List.all_cons, ih]
    cases useOkB ctx copyPos a <;>
      cases (siteOf ctx a).all (siteOrderOk copyPos) <;> simp

end CopyFwd

namespace CopyFwd
open Venom

theorem plan_isSome_iff_conds (ctx : Ctx) (fn : Fn) (p : InstPos) :
    (readonly_forward_plan ctx fn p).isSome = true ↔
      (readonly_forward_conds ctx fn p = true ∧ claimSites ctx fn p ≠ []) := by
  unfold readonly_forward_plan readonly_forward_conds claimSites
  cases hI : instAt fn p with
  | none => simp
  | some copyInst =>
    dsimp only
    by_cases hop : copyInst.opcode = "mcopy"
    · rw [if_neg (not_not_intro hop)]
      cases hd2 : copyInst.operands.get? 2 with
      | none => simp
      | some dstOp =>
        cases dstOp with
        | lit n => simp
        | label s => simp
        | var dstv =>
          simp only []
          by_cases halloc : is_alloca_like (fn.producing (assignRootVar fn dstv)) = true
          · rw [if_neg (not_not_intro halloc)]
            rw [classifyUses_eq]
            have hAll : (aliasUsePositions fn
                  (collect_assign_aliases fn (assignRootVar fn dstv))).all
                    (claimUseOk ctx p)
                = ((aliasUsePositions fn
                      (collect_assign_aliases fn (assignRootVar fn dstv))).all
                        (useOkB ctx p)
                    && ((aliasUsePositions fn
                          (collect_assign_aliases fn (assignRootVar fn dstv))).filterMap
                            (siteOf ctx)).all
                        fun s => s.1.1 = p.1 && decide (p.2 ≤ s.1.2)) := by
              rw [all_claimUseOk]
              rfl
            by_cases hall : (aliasUsePositions fn
                (collect_assign_aliases fn (assignRootVar fn dstv))).all (useOkB ctx p) = true
            case neg =>
              rw [Bool.not_eq_true] at hall
              rw [if_neg (by simp [hall])]
              simp [hop, halloc, hAll, hall]
            case pos =>
              rw [if_pos hall]
              dsimp only
              by_cases hemp : (aliasUsePositions fn
                  (collect_assign_aliases fn (assignRootVar fn dstv))).filterMap
                    (siteOf ctx) = []
              · rw [if_pos hemp]
                simp [hemp]
              · rw [if_neg hemp]
                cases hord : ((aliasUsePositions fn
                    (collect_assign_aliases fn (assignRootVar fn dstv))).filterMap
                      (siteOf ctx)).all
                    (fun s => s.1.1 = p.1 && decide (p.2 ≤ s.1.2)) with
                | false =>
                  rw [if_pos (by simp [hord])]
                  simp [hop, halloc, hAll, hall, hord, hemp]
                | true =>
                  rw [if_neg (by simp [hord])]
                  cases hcl : has_src_clobber_between fn p copyInst
                      ((aliasUsePositions fn
                        (collect_assign_aliases fn (assignRootVar fn dstv))).filterMap
                          (siteOf ctx)) with
                  | true =>
                    rw [if_pos rfl]
                    simp [hop, halloc, hAll, hall, hord, hcl, hemp]
                  | false =>
                    rw [if_neg (by simp)]
                    cases hd1 : copyInst.operands.get? 1 with
                    | none => simp [hop, halloc, hAll, hall, hord, hcl, hemp]
                    | some srcOp =>
                      dsimp only
                      cases hsrc : assignRoot fn srcOp with
                      | var sv =>
                        dsimp only
                        by_cases hmem : sv ∈ collect_assign_aliases fn (assignRootVar fn dstv)
                        · rw [if_pos (by simp [hmem])]
                          simp [hop, halloc, hAll, hall, hord, hcl, hemp, hmem]
                        · rw [if_neg (by simp [hmem])]
                          by_cases hsib : has_mutable_same_source_sibling ctx fn
                              ((aliasUsePositions fn
                                (collect_assign_aliases fn (assignRootVar fn dstv))).filterMap
                                  (siteOf ctx)) sv = true
                          case pos =>
                            rw [if_pos hsib]
                            simp [hop, halloc, hAll, hall, hord, hcl, hemp, hmem, hsib]
                          case neg =>
                            rw [Bool.not_eq_true] at hsib
                            rw [if_neg (by simp [hsib])]
                            simp [hop, halloc, hAll, hall, hord, hcl, hemp, hmem, hsib]
                      | lit n =>
                        dsimp only
                        simp [hop, halloc, hAll, hall, hord, hcl, hemp]
                      | label s =>
                        dsimp only
                        simp [hop, halloc, hAll, hall, hord, hcl, hemp]
          · rw [Bool.not_eq_true] at halloc
            rw [if_pos (by simp [halloc])]
            simp [halloc]
    · rw [if_pos hop]
      simp [hop]

end CopyFwd

namespace CopyFwd
open Venom

/-- C5 (amended): `_try_forward_readonly_copy` eliminates the staged copy
and rewrites the matched invokes exactly when the claim's conditions hold
(every destination-alias use is the copy's destination operand or a
readonly invoke-parameter position in the same block at or after the copy,
no intervening write may alias the source, the source is not an alias of
the destination, and no rewritten invoke has a mutable sibling argument
sharing the source root) AND, additionally, the set of matched readonly
invoke-parameter uses is nonempty. -/
theorem readonly_forwarding_amended (ctx : Ctx) (fn : Fn) (p : InstPos) :
    (try_forward_readonly_copy ctx fn p).2 = true ↔
      (readonly_forward_conds ctx fn p = true ∧ claimSites ctx fn p ≠ []) := by
  rw [← plan_isSome_iff_conds]
  unfold try_forward_readonly_copy
  cases hp : readonly_forward_plan ctx fn p with
  | none => simp
  | some v => obtain ⟨a, b⟩ := v; simp

/-- C5 counterexample to the unamended claim: a staged copy whose
destination has no invoke use at all satisfies every condition of the
claim vacuously (its only alias use is the copy's own destination
operand), yet the pass reports no change — `_try_forward_readonly_copy`
additionally requires at least one matched readonly invoke-parameter use
(`len(rewrite_sites) == 0` bails out). -/
theorem readonly_forwarding_claim_counterexample :
    readonly_forward_conds zeroInvokeCtx zeroInvokeCaller (0, 2) = true
    ∧ (try_forward_readonly_copy zeroInvokeCtx zeroInvokeCaller (0, 2)).2 = false := by
  constructor <;> decide

/-- Witness for C5 (amended): on the clean readonly-forwarding test
program the conditions hold, the matched-site set is nonempty, and the
pass indeed rewrites. -/
theorem readonly_forwarding_amended_witness :
    readonly_forward_conds cleanCtx cleanCaller (0, 2) = true
    ∧ claimSites cleanCtx cleanCaller (0, 2) ≠ []
    ∧ (try_forward_readonly_copy cleanCtx cleanCaller (0, 2)).2 = true :=
  ⟨((readonly_forwarding_amended cleanCtx cleanCaller (0, 2)).mp (by decide)).1,
   ((readonly_forwarding_amended cleanCtx cleanCaller (0, 2)).mp (by decide)).2,
   by decide⟩

end CopyFwd

namespace CopyFwd
open Venom

theorem instAt_setInstAt_ne (fn : Fn) (p q : InstPos) (i : Inst) (h : q ≠ p) :
    instAt (setInstAt fn p i) q = instAt fn q := by
  unfold setInstAt instAt
  cases hb : fn.blocks.get? p.1 with
  | none => rfl
  | some bb =>
    rw [List.get?_eq_getElem?] at hb
    by_cases h1 : q.1 = p.1
    · have h2 : q.2 ≠ p.2 := by
        intro h2
        exact h (Prod.ext_iff.mpr ⟨h1, h2⟩)
      have hlt : p.1 < fn.blocks.length := (List.getElem?_eq_some.mp hb).1
      dsimp only
      rw [h1]
      simp only [List.get?_eq_getElem?]
      rw [List.getElem?_set_self hlt, hb]
      dsimp only
      rw [List.getElem?_set_ne (fun he => h2 he.symm)]
    · dsimp only
      simp only [List.get?_eq_getElem?]
      rw [List.getElem?_set_ne (fun he => h1 he.symm)]

theorem instAt_setInstAt_self (fn : Fn) (p : InstPos) (i inst : Inst)
    (h : instAt fn p = some inst) :
    instAt (setInstAt fn p i) p = some i := by
  unfold setInstAt instAt at *
  cases hb : fn.blocks.get? p.1 with
  | none => rw [hb] at h; exact absurd h (by simp)
  | some bb =>
    rw [hb] at h
    rw [List.get?_eq_getElem?] at hb
    have hlt : p.1 < fn.blocks.length := (List.getElem?_eq_some.mp hb).1
    have hlt2 : p.2 < bb.insts.length := by
      dsimp only at h
      rw [List.get?_eq_getElem?] at h
      exact (List.getElem?_eq_some.mp h).1
    dsimp only
    simp only [List.get?_eq_getElem?]
    rw [List.getElem?_set_self hlt]
    dsimp only
    rw [List.getElem?_set_self hlt2]

theorem setInstAt_name (fn : Fn) (p : InstPos) (i : Inst) :
    (setInstAt fn p i).name = fn.name := by
  unfold setInstAt
  cases fn.blocks.get? p.1 <;> rfl

theorem setInstAt_blocks_length (fn : Fn) (p : InstPos) (i : Inst) :
    (setInstAt fn p i).blocks.length = fn.blocks.length := by
  unfold setInstAt
  cases fn.blocks.get? p.1 with
  | none => rfl
  | some bb => exact List.length_set ..

theorem setInstAt_block_label (fn : Fn) (p : InstPos) (i : Inst) (k : Nat) :
    ((setInstAt fn p i).blocks.get? k).map BasicBlock.label
      = (fn.blocks.get? k).map BasicBlock.label := by
  unfold setInstAt
  cases hb : fn.blocks.get? p.1 with
  | none => rfl
  | some bb =>
    dsimp only
    simp only [List.get?_eq_getElem?]
    by_cases hk : p.1 = k
    · subst hk
      rw [List.get?_eq_getElem?] at hb
      rw [List.getElem?_set_self (List.getElem?_eq_some.mp hb).1, hb]
      rfl
    · rw [List.getElem?_set_ne hk]

theorem setInstAt_insts_length (fn : Fn) (p : InstPos) (i : Inst) (k : Nat) :
    ((setInstAt fn p i).blocks.get? k).map (fun b => b.insts.length)
      = (fn.blocks.get? k).map (fun b => b.insts.length) := by
  unfold setInstAt
  cases hb : fn.blocks.get? p.1 with
  | none => rfl
  | some bb =>
    dsimp only
    simp only [List.get?_eq_getElem?]
    by_cases hk : p.1 = k
    · subst hk
      rw [List.get?_eq_getElem?] at hb
      rw [List.getElem?_set_self (List.getElem?_eq_some.mp hb).1, hb]
      simp [List.length_set]
    · rw [List.getElem?_set_ne hk]

theorem instsWithPos_instAt (fn : Fn) (q : InstPos) (i : Inst)
    (h : (q, i) ∈ instsWithPos fn) : instAt fn q = some i := by
  unfold instsWithPos at h
  rw [List.mem_flatMap] at h
  obtain ⟨bi, hbi, hmem⟩ := h
  rw [List.mem_map] at hmem
  obtain ⟨ii, hii, heq⟩ := hmem
  obtain ⟨hk, hblk⟩ := List.mem_enum hbi
  obtain ⟨hm, hinst⟩ := List.mem_enum hii
  obtain ⟨hq, hi⟩ := Prod.ext_iff.mp heq
  obtain ⟨hq1, hq2⟩ := Prod.ext_iff.mp hq
  unfold instAt
  rw [List.get?_eq_getElem?, ← hq1, List.getElem?_eq_getElem hk, ← hblk]
  dsimp only
  rw [List.get?_eq_getElem?, ← hq2, List.getElem?_eq_getElem hm, ← hinst, hi]

theorem aliasUse_spec (fn : Fn) (aliases : List String) (v : String)
    (q : InstPos) (use : Inst) (k : Nat)
    (h : (v, q, use, k) ∈ aliasUsePositions fn aliases) :
    instAt fn q = some use ∧ k < use.operands.length
      ∧ use.operands.get? k = some (.var v) := by
  unfold aliasUsePositions at h
  rw [List.mem_flatMap] at h
  obtain ⟨w, hw, hmem⟩ := h
  rw [List.mem_flatMap] at hmem
  obtain ⟨pu, hpu, hmem2⟩ := hmem
  rw [List.mem_filterMap] at hmem2
  obtain ⟨io, hio, heq⟩ := hmem2
  by_cases hcond : io.2 = Operand.var w
  · rw [if_pos hcond] at heq
    obtain ⟨hv, hrest⟩ := Prod.ext_iff.mp (Option.some_injective _ heq)
    obtain ⟨hq, hrest2⟩ := Prod.ext_iff.mp hrest
    obtain ⟨huse, hk⟩ := Prod.ext_iff.mp hrest2
    dsimp only at hv hq huse hk
    unfold getUses at hpu
    have hmemI : (pu.1, pu.2) ∈ instsWithPos fn := List.mem_of_mem_filter hpu
    have hAt : instAt fn pu.1 = some pu.2 := instsWithPos_instAt fn pu.1 pu.2 hmemI
    obtain ⟨hio1, hio2⟩ := List.mem_enum hio
    refine ⟨by rw [← hq, ← huse]; exact hAt, ?_, ?_⟩
    · rw [← hk, ← huse]; exact hio1
    · rw [← hk, ← huse, List.get?_eq_getElem?, List.getElem?_eq_getElem hio1,
        ← hio2, hcond, hv]
  · rw [if_neg hcond] at heq
    exact absurd heq (by simp)

theorem readonly_operand_ne_zero (ctx : Ctx) (inst : Inst) (k : Nat)
    (h : is_readonly_invoke_operand ctx inst k = true) : k ≠ 0 := by
  intro hk
  subst hk
  unfold is_readonly_invoke_operand at h
  simp at h

theorem siteOf_spec (ctx : Ctx) (t : String × InstPos × Inst × Nat)
    (s : InstPos × Nat) (h : siteOf ctx t = some s) :
    t.2.1 = s.1 ∧ t.2.2.2 = s.2 ∧ t.2.2.1.opcode = "invoke"
      ∧ is_readonly_invoke_operand ctx t.2.2.1 s.2 = true := by
  obtain ⟨v, pos, use, opIdx⟩ := t
  unfold siteOf at h
  dsimp only at h ⊢
  by_cases h1 : is_assign_output_use use opIdx = true
  · rw [if_pos h1] at h
    exact absurd h (by simp)
  · rw [if_neg h1] at h
    by_cases h2 : (use.opcode = "mcopy" && opIdx = 2) = true
    · rw [if_pos h2] at h
      exact absurd h (by simp)
    · rw [if_neg h2] at h
      by_cases h3 : (use.opcode = "invoke"
          && is_readonly_invoke_operand ctx use opIdx) = true
      · rw [if_pos h3] at h
        have := Option.some_injective _ h
        obtain ⟨hq, hk⟩ := Prod.ext_iff.mp this
        dsimp only at hq hk
        rw [Bool.and_eq_true] at h3
        refine ⟨hq, hk, by simpa using h3.1, by rw [← hk]; exact h3.2⟩
      · rw [if_neg h3] at h
        exact absurd h (by simp)

theorem plan_sites_spec (ctx : Ctx) (fn : Fn) (p : InstPos)
    (sites : List (InstPos × Nat)) (src : Operand)
    (h : readonly_forward_plan ctx fn p = some (sites, src)) :
    ∀ s ∈ sites, ∃ v use,
      instAt fn s.1 = some use ∧ use.opcode = "invoke"
      ∧ is_readonly_invoke_operand ctx use s.2 = true
      ∧ s.2 < use.operands.length
      ∧ use.operands.get? s.2 = some (.var v) := by
  unfold readonly_forward_plan at h
  cases hI : instAt fn p with
  | none => rw [hI] at h; exact absurd h (by simp)
  | some copyInst =>
    rw [hI] at h
    dsimp only at h
    by_cases hop : copyInst.opcode = "mcopy"
    case neg => rw [if_pos hop] at h; exact absurd h (by simp)
    case pos =>
    rw [if_neg (not_not_intro hop)] at h
    cases hd2 : copyInst.operands.get? 2 with
    | none => rw [hd2] at h; exact absurd h (by simp)
    | some dstOp =>
      rw [hd2] at h
      cases dstOp with
      | lit n => exact absurd h (by simp)
      | label l => exact absurd h (by simp)
      | var dstv =>
        dsimp only at h
        rw [classifyUses_eq] at h
        by_cases halloc : is_alloca_like (fn.producing (assignRootVar fn dstv)) = true
        case neg =>
          rw [Bool.not_eq_true] at halloc
          rw [if_pos (by simp [halloc])] at h
          exact absurd h (by simp)
        case pos =>
        rw [if_neg (not_not_intro halloc)] at h
        by_cases hall : (aliasUsePositions fn
            (collect_assign_aliases fn (assignRootVar fn dstv))).all (useOkB ctx p) = true
        case neg =>
          rw [Bool.not_eq_true] at hall
          rw [if_neg (by simp [hall])] at h
          exact absurd h (by simp)
        case pos =>
        rw [if_pos hall] at h
        dsimp only at h
        intro s hs
        have hsites : s ∈ (aliasUsePositions fn
            (collect_assign_aliases fn (assignRootVar fn dstv))).filterMap (siteOf ctx) := by
          by_cases hemp : (aliasUsePositions fn
              (collect_assign_aliases fn (assignRootVar fn dstv))).filterMap (siteOf ctx) = []
          · rw [if_pos hemp] at h; exact absurd h (by simp)
          · rw [if_neg hemp] at h
            split at h
            · exact absurd h (by simp)
            · split at h
              · exact absurd h (by simp)
              · cases hd1 : copyInst.operands.get? 1 with
                | none => rw [hd1] at h; exact absurd h (by simp)
                | some srcOp =>
                  rw [hd1] at h
                  dsimp only at h
                  split at h
                  · exact absurd h (by simp)
                  · split at h
                    · exact absurd h (by simp)
                    · obtain ⟨h21, h22⟩ := Prod.ext_iff.mp (Option.some_injective _ h)
                      dsimp only at h21
                      rw [← h21] at hs
                      exact hs
        rw [List.mem_filterMap] at hsites
        obtain ⟨t, htl, hto⟩ := hsites
        obtain ⟨v, pos, use, opIdx⟩ := t
        obtain ⟨hq, hk, hinv, hro⟩ := siteOf_spec ctx (v, pos, use, opIdx) s hto
        dsimp only at hq hk hinv hro
        obtain ⟨hAt, hlen, hget⟩ := aliasUse_spec fn _ v pos use opIdx htl
        refine ⟨v, use, by rw [← hq]; exact hAt, hinv, hro, ?_, ?_⟩
        · rw [← hk]; exact hlen
        · rw [← hk]; exact hget

theorem applySite_frame (fn : Fn) (src : Operand) (s : InstPos × Nat)
    (q : InstPos) (h : q ≠ s.1) :
    instAt (applySite fn src s) q = instAt fn q := by
  unfold applySite
  cases instAt fn s.1 with
  | none => rfl
  | some inst =>
    dsimp only
    by_cases hc : inst.operands.get? s.2 = some src
    · rw [if_pos hc]
    · rw [if_neg hc]
      exact instAt_setInstAt_ne fn s.1 q _ h

theorem applySite_self (fn : Fn) (src : Operand) (s : InstPos × Nat)
    (inst : Inst) (hI : instAt fn s.1 = some inst)
    (hlen : s.2 < inst.operands.length) :
    ∃ inst', instAt (applySite fn src s) s.1 = some inst'
      ∧ inst'.opcode = inst.opcode ∧ inst'.output = inst.output
      ∧ inst'.operands.length = inst.operands.length
      ∧ inst'.operands.get? s.2 = some src
      ∧ ∀ j, j ≠ s.2 → inst'.operands.get? j = inst.operands.get? j := by
  unfold applySite
  rw [hI]
  dsimp only
  by_cases hc : inst.operands.get? s.2 = some src
  · rw [if_pos hc]
    exact ⟨inst, hI, rfl, rfl, rfl, hc, fun j _ => rfl⟩
  · rw [if_neg hc]
    refine ⟨setOperand inst s.2 src,
      instAt_setInstAt_self fn s.1 _ inst hI, rfl, rfl, ?_, ?_, ?_⟩
    · exact List.length_set ..
    · unfold setOperand
      dsimp only
      rw [List.get?_eq_getElem?]
      exact List.getElem?_set_self hlen
    · intro j hj
      unfold setOperand
      dsimp only
      simp only [List.get?_eq_getElem?]
      exact List.getElem?_set_ne (fun he => hj he.symm)

theorem applySite_name (fn : Fn) (src : Operand) (s : InstPos × Nat) :
    (applySite fn src s).name = fn.name := by
  unfold applySite
  cases instAt fn s.1 with
  | none => rfl
  | some inst =>
    dsimp only
    by_cases hc : inst.operands.get? s.2 = some src
    · rw [if_pos hc]
    · rw [if_neg hc]; exact setInstAt_name ..

theorem applySite_blocks_length (fn : Fn) (src : Operand) (s : InstPos × Nat) :
    (applySite fn src s).blocks.length = fn.blocks.length := by
  unfold applySite
  cases instAt fn s.1 with
  | none => rfl
  | some inst =>
    dsimp only
    by_cases hc : inst.operands.get? s.2 = some src
    · rw [if_pos hc]
    · rw [if_neg hc]; exact setInstAt_blocks_length ..

theorem applySite_block_label (fn : Fn) (src : Operand) (s : InstPos × Nat)
    (k : Nat) :
    ((applySite fn src s).blocks.get? k).map BasicBlock.label
      = (fn.blocks.get? k).map BasicBlock.label := by
  unfold applySite
  cases instAt fn s.1 with
  | none => rfl
  | some inst =>
    dsimp only
    by_cases hc : inst.operands.get? s.2 = some src
    · rw [if_pos hc]
    · rw [if_neg hc]; exact setInstAt_block_label ..

theorem applySite_insts_length (fn : Fn) (src : Operand) (s : InstPos × Nat)
    (k : Nat) :
    ((applySite fn src s).blocks.get? k).map (fun b => b.insts.length)
      = (fn.blocks.get? k).map (fun b => b.insts.length) := by
  unfold applySite
  cases instAt fn s.1 with
  | none => rfl
  | some inst =>
    dsimp only
    by_cases hc : inst.operands.get? s.2 = some src
    · rw [if_pos hc]
    · rw [if_neg hc]; exact setInstAt_insts_length ..

theorem applyFold_frame (src : Operand) (sites : List (InstPos × Nat)) :
    ∀ (fn : Fn) (q : InstPos), q ∉ sites.map Prod.fst →
      instAt (sites.foldl (fun f s => applySite f src s) fn) q = instAt fn q := by
  induction sites with
  | nil => intro fn q _; rfl
  | cons s rest ih =>
    intro fn q hq
    rw [List.map_cons, List.mem_cons] at hq
    push_neg at hq
    rw [List.foldl_cons, ih (applySite fn src s) q hq.2]
    exact applySite_frame fn src s q hq.1

theorem applyFold_name (src : Operand) (sites : List (InstPos × Nat)) :
    ∀ fn : Fn, (sites.foldl (fun f s => applySite f src s) fn).name = fn.name := by
  induction sites with
  | nil => intro fn; rfl
  | cons s rest ih =>
    intro fn
    rw [List.foldl_cons, ih (applySite fn src s), applySite_name]

theorem applyFold_blocks_length (src : Operand) (sites : List (InstPos × Nat)) :
    ∀ fn : Fn, (sites.foldl (fun f s => applySite f src s) fn).blocks.length
      = fn.blocks.length := by
  induction sites with
  | nil => intro fn; rfl
  | cons s rest ih =>
    intro fn
    rw [List.foldl_cons, ih (applySite fn src s), applySite_blocks_length]

theorem applyFold_block_label (src : Operand) (sites : List (InstPos × Nat)) :
    ∀ (fn : Fn) (k : Nat),
      ((sites.foldl (fun f s => applySite f src s) fn).blocks.get? k).map
          BasicBlock.label
        = (fn.blocks.get? k).map BasicBlock.label := by
  induction sites with
  | nil => intro fn k; rfl
  | cons s rest ih =>
    intro fn k
    rw [List.foldl_cons, ih (applySite fn src s) k, applySite_block_label]

theorem applyFold_insts_length (src : Operand) (sites : List (InstPos × Nat)) :
    ∀ (fn : Fn) (k : Nat),
      ((sites.foldl (fun f s => applySite f src s) fn).blocks.get? k).map
          (fun b => b.insts.length)
        = (fn.blocks.get? k).map (fun b => b.insts.length) := by
  induction sites with
  | nil => intro fn k; rfl
  | cons s rest ih =>
    intro fn k
    rw [List.foldl_cons, ih (applySite fn src s) k, applySite_insts_length]

theorem applyFold_sites (src : Operand) (sites : List (InstPos × Nat)) :
    ∀ fn : Fn,
      (∀ s ∈ sites, ∃ inst, instAt fn s.1 = some inst
        ∧ s.2 < inst.operands.length) →
      ∀ (p : InstPos) (inst : Inst), instAt fn p = some inst →
        ∃ inst',
          instAt (sites.foldl (fun f s => applySite f src s) fn) p = some inst'
          ∧ inst'.opcode = inst.opcode ∧ inst'.output = inst.output
          ∧ inst'.operands.length = inst.operands.length
          ∧ (∀ j, (∀ t ∈ sites, t.1 = p → t.2 ≠ j) →
              inst'.operands.get? j = inst.operands.get? j)
          ∧ (∀ t ∈ sites, t.1 = p → inst'.operands.get? t.2 = some src) := by
  induction sites with
  | nil =>
    intro fn _ p inst hI
    exact ⟨inst, hI, rfl, rfl, rfl, fun j _ => rfl,
      fun t ht => absurd ht (List.not_mem_nil t)⟩
  | cons s rest ih =>
    intro fn hgood p inst hI
    obtain ⟨inst0, hI0, hlen0⟩ := hgood s (List.mem_cons_self s rest)
    by_cases hp : p = s.1
    · subst hp
      have hinst0 : inst0 = inst := by
        rw [hI] at hI0
        exact (Option.some_injective _ hI0).symm
      subst hinst0
      obtain ⟨inst1, hI1, hop1, hout1, hlen1, hget1, hoth1⟩ :=
        applySite_self fn src s inst0 hI hlen0
      have hgood1 : ∀ t ∈ rest, ∃ it, instAt (applySite fn src s) t.1 = some it
          ∧ t.2 < it.operands.length := by
        intro t ht
        obtain ⟨it, hit, hlt⟩ := hgood t (List.mem_cons_of_mem s ht)
        by_cases ht1 : t.1 = s.1
        · rw [ht1] at hit ⊢
          have : it = inst0 := by
            rw [hI] at hit
            exact Option.some_injective _ hit.symm
          subst this
          exact ⟨inst1, hI1, by rw [hlen1]; exact hlt⟩
        · rw [applySite_frame fn src s t.1 ht1]
          exact ⟨it, hit, hlt⟩
      obtain ⟨inst2, hI2, hop2, hout2, hlen2, hoth2, hdone2⟩ :=
        ih (applySite fn src s) hgood1 s.1 inst1 hI1
      refine ⟨inst2, by rw [List.foldl_cons]; exact hI2,
        by rw [hop2, hop1], by rw [hout2, hout1], by rw [hlen2, hlen1],
        ?_, ?_⟩
      · intro j hj
        have hjs : s.2 ≠ j := hj s (List.mem_cons_self s rest) rfl
        rw [hoth2 j (fun t ht => hj t (List.mem_cons_of_mem s ht)),
          hoth1 j (fun he => hjs he.symm)]
      · intro t ht ht1
        rcases List.mem_cons.mp ht with he | hr
        · subst he
          by_cases hex : ∃ u ∈ rest, u.1 = t.1 ∧ u.2 = t.2
          · obtain ⟨u, hu, hu1, hu2⟩ := hex
            rw [← hu2]
            exact hdone2 u hu hu1
          · push_neg at hex
            rw [hoth2 t.2 (fun u hu hu1 => hex u hu hu1)]
            exact hget1
        · exact hdone2 t hr ht1
    · have hIstep : instAt (applySite fn src s) p = some inst := by
        rw [applySite_frame fn src s p hp]
        exact hI
      have hgood1 : ∀ t ∈ rest, ∃ it, instAt (applySite fn src s) t.1 = some it
          ∧ t.2 < it.operands.length := by
        intro t ht
        obtain ⟨it, hit, hlt⟩ := hgood t (List.mem_cons_of_mem s ht)
        by_cases ht1 : t.1 = s.1
        · rw [ht1] at hit ⊢
          have : it = inst0 := by
            rw [hI0] at hit
            exact Option.some_injective _ hit.symm
          subst this
          obtain ⟨inst1, hI1, _, _, hlen1, _, _⟩ :=
            applySite_self fn src s it hI0 hlen0
          exact ⟨inst1, hI1, by rw [hlen1]; exact hlt⟩
        · rw [applySite_frame fn src s t.1 ht1]
          exact ⟨it, hit, hlt⟩
      obtain ⟨inst2, hI2, hop2, hout2, hlen2, hoth2, hdone2⟩ :=
        ih (applySite fn src s) hgood1 p inst hIstep
      refine ⟨inst2, by rw [List.foldl_cons]; exact hI2, hop2, hout2, hlen2,
        ?_, ?_⟩
      · intro j hj
        exact hoth2 j (fun t ht => hj t (List.mem_cons_of_mem s ht))
      · intro t ht ht1
        rcases List.mem_cons.mp ht with he | hr
        · subst he
          exact absurd ht1.symm hp
        · exact hdone2 t hr ht1

theorem plan_copyInst (ctx : Ctx) (fn : Fn) (p : InstPos)
    (sites : List (InstPos × Nat)) (src : Operand)
    (h : readonly_forward_plan ctx fn p = some (sites, src)) :
    ∃ copyInst, instAt fn p = some copyInst ∧ copyInst.opcode = "mcopy" := by
  unfold readonly_forward_plan at h
  cases hI : instAt fn p with
  | none => rw [hI] at h; exact absurd h (by simp)
  | some copyInst =>
    rw [hI] at h
    dsimp only at h
    by_cases hop : copyInst.opcode = "mcopy"
    · exact ⟨copyInst, rfl, hop⟩
    · rw [if_pos hop] at h
      exact absurd h (by simp)

/-- The frame conclusion of C10: on success the only mutations are the
matched operand of each rewrite site (set to the copy's source root) and
the copy itself (replaced by `nop`); names, block labels, block and
operand counts, the callee label at operand 0, all other operands and all
other instructions are untouched. -/
def readonlyFrameConcl (ctx : Ctx) (fn fn' : Fn) (copyPos : InstPos) : Prop :=
  ∃ sites src, readonly_forward_plan ctx fn copyPos = some (sites, src)
    ∧ instAt fn' copyPos = some nopInst
    ∧ fn'.name = fn.name
    ∧ fn'.blocks.length = fn.blocks.length
    ∧ (∀ k, (fn'.blocks.get? k).map BasicBlock.label
        = (fn.blocks.get? k).map BasicBlock.label)
    ∧ (∀ k, (fn'.blocks.get? k).map (fun b => b.insts.length)
        = (fn.blocks.get? k).map (fun b => b.insts.length))
    ∧ (∀ q, q ≠ copyPos → q ∉ sites.map Prod.fst → instAt fn' q = instAt fn q)
    ∧ (∀ s ∈ sites, s.2 ≠ 0 ∧ s.1 ≠ copyPos ∧ ∃ inst inst',
        instAt fn s.1 = some inst ∧ inst.opcode = "invoke"
        ∧ is_readonly_invoke_operand ctx inst s.2 = true
        ∧ instAt fn' s.1 = some inst'
        ∧ inst'.opcode = inst.opcode ∧ inst'.output = inst.output
        ∧ inst'.operands.length = inst.operands.length
        ∧ inst'.operands.get? s.2 = some src
        ∧ inst'.operands.get? 0 = inst.operands.get? 0
        ∧ (∀ j, (∀ t ∈ sites, t.1 = s.1 → t.2 ≠ j) →
            inst'.operands.get? j = inst.operands.get? j))

/-- C10: when `_try_forward_readonly_copy` does forward a copy, the only
IR mutations are the matched readonly-parameter operand of each rewrite
site (replaced by the copy's source root) and the `mcopy` itself (replaced
by a `nop`, unconditionally — also when a matched operand already equals
the source); the callee label, every other operand, every other
instruction and every basic block's identity and shape are unchanged. -/
theorem readonly_forwarding_frame (ctx : Ctx) (fn fn' : Fn) (p : InstPos)
    (h : try_forward_readonly_copy ctx fn p = (fn', true)) :
    readonlyFrameConcl ctx fn fn' p := by
  unfold try_forward_readonly_copy at h
  cases hp : readonly_forward_plan ctx fn p with
  | none =>
    rw [hp] at h
    exact absurd (congrArg Prod.snd h) (by simp)
  | some v =>
    obtain ⟨sites, src⟩ := v
    rw [hp] at h
    have hfn' : readonly_forward_apply fn sites src p = fn' :=
      congrArg Prod.fst h
    subst hfn'
    unfold readonly_forward_apply
    obtain ⟨copyInst, hCI, hCM⟩ := plan_copyInst ctx fn p sites src hp
    have hspec := plan_sites_spec ctx fn p sites src hp
    have hgood : ∀ s ∈ sites, ∃ inst, instAt fn s.1 = some inst
        ∧ s.2 < inst.operands.length := by
      intro s hs
      obtain ⟨w, use, hAt, _, _, hlt, _⟩ := hspec s hs
      exact ⟨use, hAt, hlt⟩
    have hne : ∀ s ∈ sites, s.1 ≠ p := by
      intro s hs heq
      obtain ⟨w, use, hAt, hinv, _, _, _⟩ := hspec s hs
      rw [heq, hCI] at hAt
      have huse : copyInst = use := Option.some_injective _ hAt
      rw [← huse, hCM] at hinv
      exact absurd hinv (by decide)
    have hnz : ∀ s ∈ sites, s.2 ≠ 0 := by
      intro s hs
      obtain ⟨w, use, _, _, hro, _, _⟩ := hspec s hs
      exact readonly_operand_ne_zero ctx use s.2 hro
    have hpmem : p ∉ sites.map Prod.fst := by
      rw [List.mem_map]
      rintro ⟨s, hs, hseq⟩
      exact hne s hs hseq
    have hfoldp : instAt (sites.foldl (fun f s => applySite f src s) fn) p
        = some copyInst := by
      rw [applyFold_frame src sites fn p hpmem]
      exact hCI
    refine ⟨sites, src, hp, ?_, ?_, ?_, ?_, ?_, ?_, ?_⟩
    · exact instAt_setInstAt_self _ p nopInst copyInst hfoldp
    · rw [setInstAt_name, applyFold_name]
    · rw [setInstAt_blocks_length, applyFold_blocks_length]
    · intro k
      rw [setInstAt_block_label, applyFold_block_label]
    · intro k
      rw [setInstAt_insts_length, applyFold_insts_length]
    · intro q hq1 hq2
      rw [instAt_setInstAt_ne _ p q nopInst hq1]
      exact applyFold_frame src sites fn q hq2
    · intro s hs
      obtain ⟨w, use, hAt, hinv, hro, hlt, hget⟩ := hspec s hs
      refine ⟨hnz s hs, hne s hs, use, ?_⟩
      obtain ⟨inst2, hI2, hop2, hout2, hlen2, hoth2, hdone2⟩ :=
        applyFold_sites src sites fn hgood s.1 use hAt
      refine ⟨inst2, hAt, hinv, hro, ?_, hop2, hout2, hlen2, ?_, ?_, ?_⟩
      · rw [instAt_setInstAt_ne _ p s.1 nopInst (hne s hs)]
        exact hI2
      · exact hdone2 s hs rfl
      · exact hoth2 0 fun t ht _ => hnz t ht
      · intro j hj
        exact hoth2 j hj

/-- Witness for C10: on the clean readonly-forwarding test program the
pass rewrites the invoke to read the source directly and nops the copy,
yielding exactly the expected function, and the frame conclusion holds. -/
theorem readonly_forwarding_frame_witness :
    try_forward_readonly_copy cleanCtx cleanCaller (0, 2)
        = (cleanCallerAfter, true)
    ∧ readonlyFrameConcl cleanCtx cleanCaller cleanCallerAfter (0, 2) :=
  ⟨by decide,
   readonly_forwarding_frame cleanCtx cleanCaller cleanCallerAfter (0, 2)
     (by decide)⟩

theorem srcUseScan_sound (ctx : Ctx) (copyPos : InstPos)
    (l : List (String × InstPos × Inst × Nat)) (cs : Bool)
    (sites : List InstPos)
    (h : srcUseScan ctx copyPos l = some (cs, sites)) :
    ∀ q ∈ sites, ∃ v use, (v, q, use, 1) ∈ l ∧ use.opcode = "invoke"
      ∧ q.1 = copyPos.1 ∧ q.2 < copyPos.2
      ∧ invoke_has_return_buffer ctx use = true := by
  induction l generalizing cs sites with
  | nil =>
    intro q hq
    unfold srcUseScan at h
    obtain ⟨-, h2⟩ := Prod.ext_iff.mp (Option.some_injective _ h)
    dsimp only at h2
    rw [← h2] at hq
    exact absurd hq (List.not_mem_nil q)
  | cons t rest ih =>
    obtain ⟨v, pos, use, opIdx⟩ := t
    intro q hq
    unfold srcUseScan at h
    by_cases h1 : is_assign_output_use use opIdx = true
    · rw [if_pos h1] at h
      obtain ⟨w, u, hm, hrest⟩ := ih cs sites h q hq
      exact ⟨w, u, List.mem_cons_of_mem _ hm, hrest⟩
    · rw [if_neg h1] at h
      by_cases h2 : (use.opcode = "mcopy" && opIdx = 1 && pos = copyPos) = true
      · rw [if_pos h2] at h
        rw [Option.map_eq_some'] at h
        obtain ⟨r, hr, hre⟩ := h
        obtain ⟨r1, r2⟩ := r
        obtain ⟨-, hr2⟩ := Prod.ext_iff.mp hre
        dsimp only at hr2
        obtain ⟨w, u, hm, hrest⟩ := ih r1 r2 hr q (by rw [hr2]; exact hq)
        exact ⟨w, u, List.mem_cons_of_mem _ hm, hrest⟩
      · rw [if_neg h2] at h
        by_cases h3 : (use.opcode = "invoke" && opIdx = 1) = true
        · rw [if_pos h3] at h
          by_cases h4 : pos.1 ≠ copyPos.1
          · rw [if_pos h4] at h
            exact absurd h (by simp)
          · rw [if_neg h4] at h
            by_cases h5 : copyPos.2 ≤ pos.2
            · rw [if_pos h5] at h
              exact absurd h (by simp)
            · rw [if_neg h5] at h
              by_cases h6 : ¬ invoke_has_return_buffer ctx use = true
              · rw [if_pos h6] at h
                exact absurd h (by simp)
              · rw [if_neg h6] at h
                rw [Option.map_eq_some'] at h
                obtain ⟨r, hr, hre⟩ := h
                obtain ⟨r1, r2⟩ := r
                obtain ⟨-, hr2⟩ := Prod.ext_iff.mp hre
                dsimp only at hr2
                rw [← hr2] at hq
                rw [Bool.and_eq_true, decide_eq_true_eq, decide_eq_true_eq] at h3
                rcases List.mem_cons.mp hq with he | hr'
                · subst he
                  refine ⟨v, use, ?_, h3.1, not_not.mp h4, ?_, not_not.mp h6⟩
                  · rw [← h3.2]
                    exact List.mem_cons_self _ _
                  · omega
                · obtain ⟨w, u, hm, hrest⟩ := ih r1 r2 hr q hr'
                  exact ⟨w, u, List.mem_cons_of_mem _ hm, hrest⟩
        · rw [if_neg h3] at h
          exact absurd h (by simp)

theorem srcUseScan_complete (ctx : Ctx) (copyPos : InstPos)
    (l : List (String × InstPos × Inst × Nat)) (cs : Bool)
    (sites : List InstPos)
    (h : srcUseScan ctx copyPos l = some (cs, sites)) :
    ∀ v pos use k, (v, pos, use, k) ∈ l →
      is_assign_output_use use k = true
      ∨ (use.opcode = "mcopy" ∧ k = 1 ∧ pos = copyPos)
      ∨ (use.opcode = "invoke" ∧ k = 1 ∧ pos ∈ sites) := by
  induction l generalizing cs sites with
  | nil =>
    intro v pos use k hm
    exact absurd hm (List.not_mem_nil _)
  | cons t rest ih =>
    obtain ⟨w, qos, wuse, wIdx⟩ := t
    intro v pos use k hm
    unfold srcUseScan at h
    by_cases h1 : is_assign_output_use wuse wIdx = true
    · rw [if_pos h1] at h
      rcases List.mem_cons.mp hm with he | hr
      · obtain ⟨hv, hq, hu, hk⟩ :=
          by simpa using Prod.ext_iff.mp he
        subst hv; subst hq; subst hu; subst hk
        exact Or.inl h1
      · exact ih cs sites h v pos use k hr
    · rw [if_neg h1] at h
      by_cases h2 : (wuse.opcode = "mcopy" && wIdx = 1 && qos = copyPos) = true
      · rw [if_pos h2] at h
        rw [Option.map_eq_some'] at h
        obtain ⟨r, hr, hre⟩ := h
        obtain ⟨r1, r2⟩ := r
        obtain ⟨-, hr2⟩ := Prod.ext_iff.mp hre
        dsimp only at hr2
        rcases List.mem_cons.mp hm with he | hrm
        · obtain ⟨hv, hq, hu, hk⟩ := by simpa using Prod.ext_iff.mp he
          subst hv; subst hq; subst hu; subst hk
          rw [Bool.and_eq_true, Bool.and_eq_true, decide_eq_true_eq,
            decide_eq_true_eq, decide_eq_true_eq] at h2
          exact Or.inr (Or.inl ⟨h2.1.1, h2.1.2, h2.2⟩)
        · have := ih r1 r2 hr v pos use k hrm
          rw [hr2] at this
          exact this
      · rw [if_neg h2] at h
        by_cases h3 : (wuse.opcode = "invoke" && wIdx = 1) = true
        · rw [if_pos h3] at h
          by_cases h4 : qos.1 ≠ copyPos.1
          · rw [if_pos h4] at h
            exact absurd h (by simp)
          · rw [if_neg h4] at h
            by_cases h5 : copyPos.2 ≤ qos.2
            · rw [if_pos h5] at h
              exact absurd h (by simp)
            · rw [if_neg h5] at h
              by_cases h6 : ¬ invoke_has_return_buffer ctx wuse = true
              · rw [if_pos h6] at h
                exact absurd h (by simp)
              · rw [if_neg h6] at h
                rw [Option.map_eq_some'] at h
                obtain ⟨r, hr, hre⟩ := h
                obtain ⟨r1, r2⟩ := r
                obtain ⟨-, hr2⟩ := Prod.ext_iff.mp hre
                dsimp only at hr2
                rw [Bool.and_eq_true, decide_eq_true_eq, decide_eq_true_eq] at h3
                rcases List.mem_cons.mp hm with he | hrm
                · obtain ⟨hv, hq, hu, hk⟩ := by simpa using Prod.ext_iff.mp he
                  subst hv; subst hq; subst hu; subst hk
                  refine Or.inr (Or.inr ⟨h3.1, h3.2, ?_⟩)
                  rw [← hr2]
                  exact List.mem_cons_self _ _
                · rcases ih r1 r2 hr v pos use k hrm with ha | hb | hc
                  · exact Or.inl ha
                  · exact Or.inr (Or.inl hb)
                  · refine Or.inr (Or.inr ⟨hc.1, hc.2.1, ?_⟩)
                    rw [← hr2]
                    exact List.mem_cons_of_mem _ hc.2.2
        · rw [if_neg h3] at h
          exact absurd h (by simp)

theorem dstUseScan_complete (copyPos : InstPos)
    (l : List (String × InstPos × Inst × Nat)) (rw : List InstPos)
    (h : dstUseScan copyPos l = some rw) :
    ∀ v pos use k, (v, pos, use, k) ∈ l →
      is_assign_output_use use k = true
      ∨ (use.opcode = "mcopy" ∧ k = 2 ∧ pos = copyPos)
      ∨ (use.opcode ≠ "phi" ∧ pos.1 = copyPos.1 ∧ copyPos.2 < pos.2) := by
  induction l generalizing rw with
  | nil =>
    intro v pos use k hm
    exact absurd hm (List.not_mem_nil _)
  | cons t rest ih =>
    obtain ⟨w, qos, wuse, wIdx⟩ := t
    intro v pos use k hm
    unfold dstUseScan at h
    by_cases h1 : is_assign_output_use wuse wIdx = true
    · rw [if_pos h1] at h
      rcases List.mem_cons.mp hm with he | hr
      · obtain ⟨hv, hq, hu, hk⟩ := by simpa using Prod.ext_iff.mp he
        subst hv; subst hq; subst hu; subst hk
        exact Or.inl h1
      · exact ih rw h v pos use k hr
    · rw [if_neg h1] at h
      by_cases h2 : (wuse.opcode = "mcopy" && wIdx = 2 && qos = copyPos) = true
      · rw [if_pos h2] at h
        rcases List.mem_cons.mp hm with he | hr
        · obtain ⟨hv, hq, hu, hk⟩ := by simpa using Prod.ext_iff.mp he
          subst hv; subst hq; subst hu; subst hk
          rw [Bool.and_eq_true, Bool.and_eq_true, decide_eq_true_eq,
            decide_eq_true_eq, decide_eq_true_eq] at h2
          exact Or.inr (Or.inl ⟨h2.1.1, h2.1.2, h2.2⟩)
        · exact ih rw h v pos use k hr
      · rw [if_neg h2] at h
        by_cases h3 : wuse.opcode = "phi"
        · rw [if_pos (by simp [h3])] at h
          exact absurd h (by simp)
        · rw [if_neg (by simp [h3])] at h
          by_cases h4 : qos.1 ≠ copyPos.1
          · rw [if_pos h4] at h
            exact absurd h (by simp)
          · rw [if_neg h4] at h
            by_cases h5 : ¬ (copyPos.2 < qos.2)
            · rw [if_pos (by simpa using h5)] at h
              exact absurd h (by simp)
            · rw [if_neg (by simpa using h5)] at h
              rw [Option.map_eq_some'] at h
              obtain ⟨r, hr, hre⟩ := h
              rcases List.mem_cons.mp hm with he | hrm
              · obtain ⟨hv, hq, hu, hk⟩ := by simpa using Prod.ext_iff.mp he
                subst hv; subst hq; subst hu; subst hk
                exact Or.inr (Or.inr ⟨h3, not_not.mp h4, not_not.mp h5⟩)
              · exact ih r hr v pos use k hrm

/-- The necessity conclusion of C6: what must hold of the input whenever
the internal-return forwarding succeeds — a staged `mcopy` between
distinct alloca-like roots of the copy's literal size, a unique
return-buffer-filling invoke before the copy in the same block, every
destination use a non-phi same-block use after the copy, and no
intervening clobber of the buffer when any use is rewritten. -/
def internalNecConcl (ctx : Ctx) (fn : Fn) (p : InstPos) : Prop :=
  ∃ copyInst dstv srcv size,
    instAt fn p = some copyInst ∧ copyInst.opcode = "mcopy"
    ∧ copyInst.operands.get? 2 = some (.var dstv)
    ∧ copyInst.operands.get? 1 = some (.var srcv)
    ∧ copyInst.operands.get? 0 = some (.lit size)
    ∧ assignRootVar fn dstv ≠ assignRootVar fn srcv
    ∧ (∃ dri, fn.producing (assignRootVar fn dstv) = some dri
        ∧ (dri.opcode = "alloca" ∨ dri.opcode = "calloca")
        ∧ matches_alloca_size dri size = true)
    ∧ (∃ sri, fn.producing (assignRootVar fn srcv) = some sri
        ∧ (sri.opcode = "alloca" ∨ sri.opcode = "calloca")
        ∧ matches_alloca_size sri size = true)
    ∧ (∃ q use, instAt fn q = some use ∧ use.opcode = "invoke"
        ∧ q.1 = p.1 ∧ q.2 < p.2 ∧ invoke_has_return_buffer ctx use = true
        ∧ ∀ (v : String) (q' : InstPos) (use' : Inst) (k : Nat),
            (v, q', use', k) ∈ aliasUsePositions fn
              (collect_assign_aliases fn (assignRootVar fn srcv)) →
            is_assign_output_use use' k = true
            ∨ (use'.opcode = "mcopy" ∧ k = 1 ∧ q' = p)
            ∨ (use'.opcode = "invoke" ∧ k = 1 ∧ q' = q))
    ∧ (∃ rewrites, dstUseScan p (aliasUsePositions fn
          (collect_assign_aliases fn (assignRootVar fn dstv))) = some rewrites
        ∧ (∀ (v : String) (q' : InstPos) (use' : Inst) (k : Nat),
            (v, q', use', k) ∈ aliasUsePositions fn
              (collect_assign_aliases fn (assignRootVar fn dstv)) →
            is_assign_output_use use' k = true
            ∨ (use'.opcode = "mcopy" ∧ k = 2 ∧ q' = p)
            ∨ (use'.opcode ≠ "phi" ∧ q'.1 = p.1 ∧ p.2 < q'.2))
        ∧ (rewrites ≠ [] →
            get_read_location fn copyInst ≠ .empty
            ∧ internal_clobber_between ctx fn p (get_read_location fn copyInst)
                ((rewrites.map (·.2)).foldr max 0) = false))

/-- C6: `_try_forward_internal_return_copy` retargets the destination
uses to the return buffer and removes the `mcopy` only when the claim's
conditions hold: distinct alloca-like destination/buffer roots whose
declared sizes equal the copy's literal size, a unique
return-buffer-filling invoke of a callee statically known to return
through memory occurring before the copy in the same block, every later
destination-alias use a non-phi same-block use after the copy, and — when
any use is rewritten — a known non-empty source location with no
intervening instruction (invokes checked per writable operand,
unknown-shaped writable operands clobbering conservatively) that may
alias the buffer. -/
theorem internal_return_forwarding_necessary (ctx : Ctx) (fn fn' : Fn)
    (p : InstPos)
    (h : try_forward_internal_return_copy ctx fn p = (fn', true)) :
    internalNecConcl ctx fn p := by
  unfold try_forward_internal_return_copy at h
  cases hp : internal_return_plan ctx fn p with
  | none =>
    rw [hp] at h
    exact absurd (congrArg Prod.snd h) (by simp)
  | some v =>
    obtain ⟨aliases, srcRoot, rewrites⟩ := v
    clear h
    unfold internal_return_plan at hp
    cases hI : instAt fn p with
    | none => rw [hI] at hp; exact absurd hp (by simp)
    | some copyInst =>
      rw [hI] at hp
      dsimp only at hp
      by_cases hop : copyInst.opcode = "mcopy"
      case neg => rw [if_pos hop] at hp; exact absurd hp (by simp)
      case pos =>
      rw [if_neg (not_not_intro hop)] at hp
      cases hd2 : copyInst.operands.get? 2 with
      | none => rw [hd2] at hp; exact absurd hp (by simp)
      | some dstOp =>
        rw [hd2] at hp
        cases dstOp with
        | lit n => exact absurd hp (by simp)
        | label lb => exact absurd hp (by simp)
        | var dstv =>
          cases hd1 : copyInst.operands.get? 1 with
          | none => rw [hd1] at hp; exact absurd hp (by simp)
          | some srcOp =>
            rw [hd1] at hp
            cases srcOp with
            | lit n => exact absurd hp (by simp)
            | label lb => exact absurd hp (by simp)
            | var srcv =>
              cases hd0 : copyInst.operands.get? 0 with
              | none => rw [hd0] at hp; exact absurd hp (by simp)
              | some szOp =>
                rw [hd0] at hp
                cases szOp with
                | var w => exact absurd hp (by simp)
                | label lb => exact absurd hp (by simp)
                | lit size =>
                  dsimp only at hp
                  by_cases hroot : assignRootVar fn dstv = assignRootVar fn srcv
                  case pos => rw [if_pos hroot] at hp; exact absurd hp (by simp)
                  case neg =>
                  rw [if_neg hroot] at hp
                  by_cases halloc : (is_alloca_like (fn.producing (assignRootVar fn dstv))
                      && is_alloca_like (fn.producing (assignRootVar fn srcv))) = true
                  case neg => rw [if_pos halloc] at hp; exact absurd hp (by simp)
                  case pos =>
                  rw [if_neg (not_not_intro halloc)] at hp
                  cases hdri : fn.producing (assignRootVar fn dstv) with
                  | none => rw [hdri] at hp; exact absurd hp (by simp)
                  | some dri =>
                    rw [hdri] at hp
                    cases hsri : fn.producing (assignRootVar fn srcv) with
                    | none => rw [hsri] at hp; exact absurd hp (by simp)
                    | some sri =>
                      rw [hsri] at hp
                      dsimp only at hp
                      by_cases hms1 : matches_alloca_size dri size = true
                      case neg => rw [if_pos hms1] at hp; exact absurd hp (by simp)
                      case pos =>
                      rw [if_neg (not_not_intro hms1)] at hp
                      by_cases hms2 : matches_alloca_size sri size = true
                      case neg => rw [if_pos hms2] at hp; exact absurd hp (by simp)
                      case pos =>
                      rw [if_neg (not_not_intro hms2)] at hp
                      by_cases hbuf : is_internal_return_buffer_source ctx fn
                          (assignRootVar fn srcv) p = true
                      case neg => rw [if_pos hbuf] at hp; exact absurd hp (by simp)
                      case pos =>
                      rw [if_neg (not_not_intro hbuf)] at hp
                      cases hdscan : dstUseScan p (aliasUsePositions fn
                          (collect_assign_aliases fn (assignRootVar fn dstv))) with
                      | none => rw [hdscan] at hp; exact absurd hp (by simp)
                      | some rewrites0 =>
                        rw [hdscan] at hp
                        dsimp only at hp
                        rw [Bool.and_eq_true] at halloc
                        have hallocD : dri.opcode = "alloca" ∨ dri.opcode = "calloca" := by
                          have := halloc.1
                          rw [hdri] at this
                          unfold is_alloca_like at this
                          simpa using this
                        have hallocS : sri.opcode = "alloca" ∨ sri.opcode = "calloca" := by
                          have := halloc.2
                          rw [hsri] at this
                          unfold is_alloca_like at this
                          simpa using this
                        unfold is_internal_return_buffer_source at hbuf
                        cases hscan : srcUseScan ctx p (aliasUsePositions fn
                            (collect_assign_aliases fn (assignRootVar fn srcv))) with
                        | none => rw [hscan] at hbuf; simp at hbuf
                        | some r =>
                          obtain ⟨cs, sites⟩ := r
                          rw [hscan] at hbuf
                          dsimp only at hbuf
                          rw [Bool.and_eq_true, decide_eq_true_eq] at hbuf
                          obtain ⟨q, hq⟩ := List.length_eq_one.mp hbuf.2
                          subst hq
                          obtain ⟨w, use, hm, hinv, hblk, hlt, hbuf2⟩ :=
                            srcUseScan_sound ctx p _ cs [q] hscan q
                              (List.mem_singleton.mpr rfl)
                          obtain ⟨hAtq, -, -⟩ := aliasUse_spec fn _ w q use 1 hm
                          refine ⟨copyInst, dstv, srcv, size, hI, hop, hd2, hd1, hd0,
                            hroot, ⟨dri, hdri, hallocD, hms1⟩, ⟨sri, hsri, hallocS, hms2⟩,
                            ⟨q, use, hAtq, hinv, hblk, hlt, hbuf2, ?_⟩,
                            ⟨rewrites0, hdscan, ?_, ?_⟩⟩
                          · intro v q' use' k hmem
                            rcases srcUseScan_complete ctx p _ cs [q] hscan v q' use' k hmem
                              with ha | hb | hc
                            · exact Or.inl ha
                            · exact Or.inr (Or.inl hb)
                            · exact Or.inr (Or.inr ⟨hc.1, hc.2.1,
                                List.mem_singleton.mp hc.2.2⟩)
                          · exact dstUseScan_complete p _ rewrites0 hdscan
                          · intro hre
                            rw [if_neg hre] at hp
                            by_cases hloc : get_read_location fn copyInst = MLoc.empty
                            case pos => rw [if_pos hloc] at hp; exact absurd hp (by simp)
                            case neg =>
                            rw [if_neg hloc] at hp
                            by_cases hclob : internal_clobber_between ctx fn p
                                (get_read_location fn copyInst)
                                ((rewrites0.map (·.2)).foldr max 0) = true
                            case pos => rw [if_pos hclob] at hp; exact absurd hp (by simp)
                            case neg =>
                            exact ⟨hloc, Bool.not_eq_true _ ▸ hclob⟩

/-- Witness for C6: on the internal-return test program the pass
rewrites the load to read the buffer, nops the copy, and the necessity
conclusion holds. -/
theorem internal_return_forwarding_necessary_witness :
    try_forward_internal_return_copy retCtx retCaller (0, 3)
        = (retCallerAfter, true)
    ∧ internalNecConcl retCtx retCaller (0, 3) :=
  ⟨by decide,
   internal_return_forwarding_necessary retCtx retCaller retCallerAfter (0, 3)
     (by decide)⟩

end CopyFwd











